import Mathlib

/-!
# Multi-pattern string matching (jsonizer.go, ac.go)

Shallow embedding of the automaton engine of the repository: trie
construction, the Aho-Corasick builder and matcher, the factor-oracle
builder and the SBOM matcher.

Conventions of the embedding.
* A Go `string` is the list of its bytes (`Str`), a byte is a natural below 256.
* A Go `int` is an `Int`; no quantity of the program approaches 2^63.
* A Go `map[K]V` is an association list with at most one entry per key
  (`GoMap`); iteration (`range`) runs over the entries in stored order.
* A run-time panic (index out of range, write into a nil map) and a loop
  that never ends are both the result `none`; loops whose trip count is not
  fixed in advance carry a fuel that is at least the number of distinct
  configurations of the loop, so running out of fuel means a repeated
  configuration, that is a loop that never ends.
* Every slice of the program is made with equal length and capacity, so
  `cap(old)` is `len(old)`.
-/

namespace Jsonizer

/-- Go string as its byte sequence. -/
abbrev Str := List Nat

/-- Go map as an association list. -/
abbrev GoMap (κ ν : Type) := List (κ × ν)

/-- The lookup `m[k]` with its presence flag. -/
def GoMap.get? {κ ν : Type} [DecidableEq κ] : GoMap κ ν → κ → Option ν
  | [], _ => none
  | (k', v) :: m, k => if k' = k then some v else GoMap.get? m k

/-- The assignment `m[k] = v`. -/
def GoMap.set {κ ν : Type} [DecidableEq κ] : GoMap κ ν → κ → ν → GoMap κ ν
  | [], k, v => [(k, v)]
  | (k', v') :: m, k, v => if k' = k then (k, v) :: m else (k', v') :: GoMap.set m k v

/-- Slice or string indexing `xs[i]`: out of range is a panic. -/
def idx {α : Type} (xs : List α) (i : Int) : Option α :=
  if 0 ≤ i then xs[i.toNat]? else none

/-- Slice assignment `xs[i] = v`: out of range is a panic. -/
def setIdx {α : Type} (xs : List α) (i : Int) (v : α) : Option (List α) :=
  if 0 ≤ i ∧ i.toNat < xs.length then some (xs.set i.toNat v) else none

/-- The automaton `map[int]map[uint8]int`. -/
abbrev Automaton := GoMap Int (GoMap Nat Int)

/-- The output sets `map[int][]int`. -/
abbrev OutputSets := GoMap Int (List Int)

/-- The occurrence index `map[string][]int`. -/
abbrev Occurrences := GoMap Str (List Int)

/-! ## Automaton functions -/

/-- Source `stateExists`: the state is a key of the automaton and is not -1. -/
def stateExists (state : Int) (aut : Automaton) : Bool :=
  match aut.get? state with
  | none => false
  | some _ => !(state == -1)

/-- Source `getTransition`: the target of the transition, -1 if there is none. -/
def getTransition (fromState : Int) (overChar : Nat) (aut : Automaton) : Int :=
  if !stateExists fromState aut then -1
  else match aut.get? fromState with
    | none => -1
    | some tr => match tr.get? overChar with
      | none => -1
      | some toState => toState

/-- Source `createNewState`. -/
def createNewState (state : Int) (aut : Automaton) : Automaton :=
  aut.set state []

/-- Source `createTransition`: `at[fromState][overChar] = toState`; writing
into the nil map of a missing state is a panic. -/
def createTransition (fromState : Int) (overChar : Nat) (toState : Int) (aut : Automaton) :
    Option Automaton :=
  match aut.get? fromState with
  | none => none
  | some tr => some (aut.set fromState (tr.set overChar toState))

/-- Source `getParent`: the first pair (byte, state) found with a transition
to `state`, `(0, 0)` when there is none. -/
def getParent (state : Int) : Automaton → Nat × Int
  | [] => (0, 0)
  | (beginState, transitions) :: rest =>
    match transitions.find? (fun ce => ce.2 == state) with
    | some ce => (ce.1, beginState)
    | none => getParent state rest

/-! ## Array functions -/

/-- Source `intArrayCapUp`: a copy that is one zero element longer. -/
def intArrayCapUp (old : List Int) : List Int := old ++ [0]

/-- Source `boolArrayCapUp`. -/
def boolArrayCapUp (old : List Bool) : List Bool := old ++ [false]

/-- Source `contains`. -/
def contains (s : List Int) (e : Int) : Bool :=
  match s with
  | [] => false
  | a :: rest => if a = e then true else contains rest e

/-- The overwrite of the last element, `xs[len(xs)-1] = v`. -/
def setLast (xs : List Int) (v : Int) : Option (List Int) :=
  setIdx xs ((xs.length : Int) - 1) v

/-- Source `arrayUnion`, with `to_` for the parameter `to` and the list
recursed on for `from`. -/
def arrayUnion (to_ : List Int) : List Int → Option (List Int)
  | [] => some to_
  | x :: rest =>
    if !contains to_ x then
      match setLast (intArrayCapUp to_) x with
      | none => none
      | some concat => arrayUnion concat rest
    else arrayUnion to_ rest

/-! ## Trie builder -/

/-- The state of the loops of `constructTrie`. -/
structure TrieState where
  trie : Automaton
  stateIsTerminal : List Bool
  f : OutputSets
  state : Int
deriving DecidableEq, Repr

/-- First inner loop of `constructTrie`: follow the existing transitions. -/
def followTrie (trie : Automaton) : Int → Str → Int × Str
  | current, [] => (current, [])
  | current, c :: rest =>
    if getTransition current c trie != -1 then followTrie trie (getTransition current c trie) rest
    else (current, c :: rest)

/-- Second inner loop of `constructTrie`: a fresh state for each byte left. -/
def extendTrie : TrieState → Int → Str → Option (TrieState × Int)
  | st, current, [] => some (st, current)
  | st, current, c :: rest =>
    let stateIsTerminal := boolArrayCapUp st.stateIsTerminal
    let trie := createNewState st.state st.trie
    match setIdx stateIsTerminal st.state false with
    | none => none
    | some stateIsTerminal =>
      match createTransition current c st.state trie with
      | none => none
      | some trie =>
        extendTrie { st with trie := trie, stateIsTerminal := stateIsTerminal,
                             state := st.state + 1 } st.state rest

/-- The output-set map entry `f[current]`, nil when absent. -/
def outputOf (f : OutputSets) (current : Int) : List Int :=
  (f.get? current).getD []

/-- One round of the outer loop of `constructTrie`, for the pattern `w` of index `i`. -/
def insertPattern (st : TrieState) (i : Int) (w : Str) : Option TrieState :=
  let (current, rest) := followTrie st.trie 0 w
  match extendTrie st current rest with
  | none => none
  | some (st, current) =>
    match idx st.stateIsTerminal current with
    | none => none
    | some true =>
      match setLast (intArrayCapUp (outputOf st.f current)) i with
      | none => none
      | some newArray => some { st with f := st.f.set current newArray }
    | some false =>
      match setIdx st.stateIsTerminal current true with
      | none => none
      | some stateIsTerminal =>
        some { st with stateIsTerminal := stateIsTerminal, f := st.f.set current [i] }

/-- The outer loop of `constructTrie` from index `i` on. -/
def insertAll : TrieState → Int → List Str → Option TrieState
  | st, _, [] => some st
  | st, i, w :: rest =>
    match insertPattern st i w with
    | none => none
    | some st => insertAll st (i + 1) rest

/-- Source `constructTrie`. -/
def constructTrie (p : List Str) : Option TrieState :=
  insertAll { trie := createNewState 0 [], stateIsTerminal := [false], f := [], state := 1 } 0 p

/-! ## Aho-Corasick builder -/

/-- The walk of `buildAc` down the supply links: while `down` exists and has no
transition on `o`, `down = s[down]`. -/
def acDown (aut : Automaton) (s : List Int) (o : Nat) : Nat → Int → Option Int
  | 0, _ => none
  | fuel + 1, down =>
    if stateExists down aut && getTransition down o aut == -1 then
      match idx s down with
      | none => none
      | some down => acDown aut s o fuel down
    else some down

/-- The state of the loop of `buildAc`. -/
structure AcState where
  stateIsTerminal : List Bool
  f : OutputSets
  s : List Int
deriving DecidableEq, Repr

/-- One round of the loop of `buildAc`, for the state `current`. -/
def acStep (aut : Automaton) (st : AcState) (current : Int) : Option AcState :=
  let (o, parent) := getParent current aut
  match idx st.s parent with
  | none => none
  | some down =>
    match acDown aut st.s o (aut.length + 1) down with
    | none => none
    | some down =>
      if stateExists down aut then
        match setIdx st.s current (getTransition down o aut) with
        | none => none
        | some s =>
          match idx s current with
          | none => none
          | some sc =>
            match idx st.stateIsTerminal sc with
            | none => none
            | some true =>
              match setIdx st.stateIsTerminal current true with
              | none => none
              | some stateIsTerminal =>
                match arrayUnion (outputOf st.f current) (outputOf st.f sc) with
                | none => none
                | some u => some { stateIsTerminal := stateIsTerminal, f := st.f.set current u, s := s }
            | some false => some { st with s := s }
      else
        match setIdx st.s current 0 with
        | none => none
        | some s => some { st with s := s }

/-- The loop of `buildAc` over the states `current, current + 1, ...`. -/
def acLoop (aut : Automaton) : Nat → AcState → Int → Option AcState
  | 0, st, _ => some st
  | n + 1, st, current =>
    match acStep aut st current with
    | none => none
    | some st => acLoop aut n st (current + 1)

/-- Source `buildAc`: the automaton, the output sets and the supply function. -/
def buildAc (p : List Str) : Option (Automaton × OutputSets × List Int) :=
  match constructTrie p with
  | none => none
  | some t =>
    match setIdx (List.replicate t.stateIsTerminal.length (0 : Int)) 0 (-1) with
    | none => none
    | some s =>
      match acLoop t.trie (t.stateIsTerminal.length - 1)
          { stateIsTerminal := t.stateIsTerminal, f := t.f, s := s } 1 with
      | none => none
      | some st => some (t.trie, st.f, st.s)

/-! ## String functions -/

/-- Reads `n` bytes `t[i], t[i+1], ...`. -/
def readFrom (t : Str) : Nat → Int → Option Str
  | 0, _ => some []
  | n + 1, i =>
    match idx t i with
    | none => none
    | some c =>
      match readFrom t n (i + 1) with
      | none => none
      | some rest => some (c :: rest)

/-- Source `getWord`: the bytes of `t` from `begin` to `end` inclusive, the
empty string when `end` is past the text; a negative length for `make` is a panic. -/
def getWord (begin_ end_ : Int) (t : Str) : Option Str :=
  if end_ ≥ (t.length : Int) then some []
  else if end_ - begin_ + 1 < 0 then none
  else readFrom t (end_ - begin_ + 1).toNat begin_

/-! ## Aho-Corasick matcher -/

/-- The supply walk of `searchAC`: while `current` has no transition on `c` and
`s[current]` is not -1, `current = s[current]`. -/
def acFail (ac : Automaton) (s : List Int) (c : Nat) : Nat → Int → Option Int
  | 0, _ => none
  | fuel + 1, current =>
    if getTransition current c ac == -1 then
      match idx s current with
      | none => none
      | some sc => if sc != -1 then acFail ac s c fuel sc else some current
    else some current

/-- The recording `occurences[w] = intArrayCapUp(occurences[w]); occurences[w][len-1] = o`. -/
def record (occurences : Occurrences) (w : Str) (o : Int) : Option Occurrences :=
  match setLast (intArrayCapUp ((occurences.get? w).getD [])) o with
  | none => none
  | some l => some (occurences.set w l)

/-- The loop over the candidates `f[current]` in `searchAC`. -/
def acReport (p : List Str) (t : Str) (pos : Int) : Occurrences → List Int → Option Occurrences
  | occurences, [] => some occurences
  | occurences, k :: rest =>
    match idx p k with
    | none => none
    | some w =>
      match getWord (pos - (w.length : Int) + 1) pos t with
      | none => none
      | some word =>
        if w = word then
          match record occurences w (pos - (w.length : Int) + 1) with
          | none => none
          | some occurences => acReport p t pos occurences rest
        else acReport p t pos occurences rest

/-- The loop of `searchAC` over the text positions, `rest` being the text from `pos` on. -/
def acScan (p : List Str) (t : Str) (ac : Automaton) (f : OutputSets) (s : List Int) :
    Str → Int → Int → Occurrences → Option Occurrences
  | [], _, _, occurences => some occurences
  | c :: rest, pos, current, occurences =>
    match acFail ac s c (ac.length + 1) current with
    | none => none
    | some current =>
      let current := if getTransition current c ac != -1 then getTransition current c ac else 0
      match f.get? current with
      | none => acScan p t ac f s rest (pos + 1) current occurences
      | some l =>
        match acReport p t pos occurences l with
        | none => none
        | some occurences => acScan p t ac f s rest (pos + 1) current occurences

/-- Source `searchAC`. -/
def searchAC (p : List Str) (t : Str) : Option Occurrences :=
  match buildAc p with
  | none => none
  | some (ac, f, s) => acScan p t ac f s t 0 0 []

/-! ## Runes

The conversions `[]rune(s)`, `string(r)` and the `range` over a string decode
and encode UTF-8 as the Go language defines them. -/

/-- The replacement rune U+FFFD that decoding yields for an invalid byte. -/
def runeError : Nat := 0xFFFD

/-- A continuation byte, 0x80 to 0xBF. -/
def isCont (b : Nat) : Bool := 0x80 ≤ b && b ≤ 0xBF

/-- Decoding of the first rune of a non-empty string: the rune and its width in bytes. -/
def decodeRune : Str → Nat × Nat
  | [] => (runeError, 0)
  | b0 :: rest =>
    if b0 < 0x80 then (b0, 1)
    else if b0 < 0xC2 then (runeError, 1)
    else if b0 < 0xE0 then
      match rest with
      | b1 :: _ => if isCont b1 then ((b0 % 32) * 64 + b1 % 64, 2) else (runeError, 1)
      | _ => (runeError, 1)
    else if b0 < 0xF0 then
      match rest with
      | b1 :: b2 :: _ =>
        let lo := if b0 = 0xE0 then 0xA0 else 0x80
        let hi := if b0 = 0xED then 0x9F else 0xBF
        if lo ≤ b1 && b1 ≤ hi && isCont b2 then
          ((b0 % 16) * 4096 + (b1 % 64) * 64 + b2 % 64, 3)
        else (runeError, 1)
      | _ => (runeError, 1)
    else if b0 < 0xF5 then
      match rest with
      | b1 :: b2 :: b3 :: _ =>
        let lo := if b0 = 0xF0 then 0x90 else 0x80
        let hi := if b0 = 0xF4 then 0x8F else 0xBF
        if lo ≤ b1 && b1 ≤ hi && isCont b2 && isCont b3 then
          ((b0 % 8) * 262144 + (b1 % 64) * 4096 + (b2 % 64) * 64 + b3 % 64, 4)
        else (runeError, 1)
      | _ => (runeError, 1)
    else (runeError, 1)

/-- The runes of a string, at most `fuel` of them. -/
def toRunesAux : Nat → Str → List Nat
  | 0, _ => []
  | _ + 1, [] => []
  | fuel + 1, b :: rest =>
    (decodeRune (b :: rest)).1 :: toRunesAux fuel ((b :: rest).drop (decodeRune (b :: rest)).2)

/-- The conversion `[]rune(s)`. -/
def toRunes (s : Str) : List Nat := toRunesAux s.length s

/-- The UTF-8 encoding of one rune. -/
def encodeRune (r : Nat) : Str :=
  if r < 0x80 then [r]
  else if r < 0x800 then [0xC0 + r / 64, 0x80 + r % 64]
  else if (0xD800 ≤ r && r ≤ 0xDFFF) || 0x10FFFF < r then [0xEF, 0xBF, 0xBD]
  else if r < 0x10000 then [0xE0 + r / 4096, 0x80 + (r / 64) % 64, 0x80 + r % 64]
  else [0xF0 + r / 262144, 0x80 + (r / 4096) % 64, 0x80 + (r / 64) % 64, 0x80 + r % 64]

/-- The conversion `string(r)` of a rune slice. -/
def fromRunes : List Nat → Str
  | [] => []
  | r :: rest => encodeRune r ++ fromRunes rest

/-- Reads `n` elements `r[0], r[1], ...` of a slice, as the copy loops
`for j := 0; j < n; j++ newR[j] = r[j]` do. -/
def copyRunes (r : List Nat) : Nat → Int → Option (List Nat)
  | 0, _ => some []
  | n + 1, j =>
    match idx r j with
    | none => none
    | some c =>
      match copyRunes r n (j + 1) with
      | none => none
      | some rest => some (c :: rest)

/-- The allocation `make([]rune, n)` followed by the copy of `n` runes of `r`;
a negative `n` is a panic. -/
def firstRunes (r : List Nat) (n : Int) : Option (List Nat) :=
  if n < 0 then none else copyRunes r n.toNat 0

/-- Source `getCommonPrefix`: the first `lmin` runes of `p[f[0]]`. -/
def getCommonPrefix (p : List Str) (f : List Int) (lmin : Int) : Option Str :=
  match idx f 0 with
  | none => none
  | some k =>
    match idx p k with
    | none => none
    | some w =>
      match firstRunes (toRunes w) lmin with
      | none => none
      | some newR => some (fromRunes newR)

/-- Source `trimToLength`. -/
def trimToLength : List Str → Int → Option (List Str)
  | [], _ => some []
  | w :: rest, length =>
    match firstRunes (toRunes w) length with
    | none => none
    | some newR =>
      match trimToLength rest length with
      | none => none
      | some trimmedP => some (fromRunes newR :: trimmedP)

/-- Source `reverse`: the rune slice has one slot per byte of `s` and is filled
from its end, one slot per rune of `s`, so the slots left over at its front
keep the rune 0. -/
def reverse (s : Str) : Str :=
  fromRunes (List.replicate (s.length - (toRunes s).length) 0 ++ (toRunes s).reverse)

/-- Source `reverseAll`. -/
def reverseAll (s : List Str) : List Str := s.map reverse

/-- The loop of `computeMinLength`. -/
def minLengthLoop : Int → List Str → Int
  | lmin, [] => lmin
  | lmin, w :: rest => minLengthLoop (if (w.length : Int) < lmin then (w.length : Int) else lmin) rest

/-- Source `computeMinLength`: reading `p[0]` of an empty list is a panic. -/
def computeMinLength : List Str → Option Int
  | [] => none
  | w :: rest => some (minLengthLoop (w.length : Int) rest)

/-! ## Factor oracle builder -/

/-- The walk of `buildOracleMultiple` down the supply links: while `down` exists
and has no transition on `o`, create the transition from `down` to `current`
on `o` and continue with `s[down]`. -/
def oracleDown (s : List Int) (o : Nat) (current : Int) :
    Nat → Automaton → Int → Option (Automaton × Int)
  | 0, _, _ => none
  | fuel + 1, orc, down =>
    if stateExists down orc && getTransition down o orc == -1 then
      match createTransition down o current orc with
      | none => none
      | some orc =>
        match idx s down with
        | none => none
        | some down => oracleDown s o current fuel orc down
    else some (orc, down)

/-- One round of the loop of `buildOracleMultiple`, for the state `current`. -/
def oracleStep (st : Automaton × List Int) (current : Int) : Option (Automaton × List Int) :=
  let (o, parent) := getParent current st.1
  match idx st.2 parent with
  | none => none
  | some down =>
    match oracleDown st.2 o current (st.1.length + 1) st.1 down with
    | none => none
    | some (orc, down) =>
      if stateExists down orc then
        match setIdx st.2 current (getTransition down o orc) with
        | none => none
        | some s => some (orc, s)
      else
        match setIdx st.2 current 0 with
        | none => none
        | some s => some (orc, s)

/-- The loop of `buildOracleMultiple` over the states `current, current + 1, ...`. -/
def oracleLoop : Nat → Automaton × List Int → Int → Option (Automaton × List Int)
  | 0, st, _ => some st
  | n + 1, st, current =>
    match oracleStep st current with
    | none => none
    | some st => oracleLoop n st (current + 1)

/-- The oracle together with the supply function that `buildOracleMultiple` computes. -/
def buildOracleSupply (p : List Str) : Option (Automaton × OutputSets × List Int) :=
  match constructTrie p with
  | none => none
  | some t =>
    match setIdx (List.replicate t.stateIsTerminal.length (0 : Int)) 0 (-1) with
    | none => none
    | some s =>
      match oracleLoop (t.stateIsTerminal.length - 1) (t.trie, s) 1 with
      | none => none
      | some (orc, s) => some (orc, t.f, s)

/-- Source `buildOracleMultiple`: the oracle and the output sets. -/
def buildOracleMultiple (p : List Str) : Option (Automaton × OutputSets) :=
  match buildOracleSupply p with
  | none => none
  | some (orc, f, _) => some (orc, f)

/-! ## SBOM matcher -/

/-- The backward walk of `searchSBOM` over the window: while `j >= 1` and
`current` exists, take the transition on `t[pos+j-1]` and decrement `j`. -/
def sbomBack (orc : Automaton) (t : Str) (pos : Int) : Nat → Int → Option (Int × Nat)
  | 0, current => some (current, 0)
  | j + 1, current =>
    if stateExists current orc then
      match idx t (pos + ((j + 1 : Nat) : Int) - 1) with
      | none => none
      | some c => sbomBack orc t pos j (getTransition current c orc)
    else some (current, j + 1)

/-- The loop over the candidates `f[current]` in `searchSBOM`. -/
def sbomReport (p : List Str) (t : Str) (pos : Int) : Occurrences → List Int → Option Occurrences
  | occurences, [] => some occurences
  | occurences, k :: rest =>
    match idx p k with
    | none => none
    | some w =>
      match getWord pos (pos - 1 + (w.length : Int)) t with
      | none => none
      | some word =>
        if w = word then
          match record occurences w pos with
          | none => none
          | some occurences => sbomReport p t pos occurences rest
        else sbomReport p t pos occurences rest

/-- One window of `searchSBOM` at `pos`: the occurrences and the next `pos`. -/
def sbomWindow (p : List Str) (t : Str) (lmin : Int) (orc : Automaton) (f : OutputSets)
    (pos : Int) (occurences : Occurrences) : Option (Occurrences × Int) :=
  match sbomBack orc t pos lmin.toNat 0 with
  | none => none
  | some (current, j) =>
    match getWord pos (pos + lmin - 1) t with
    | none => none
    | some word =>
      if stateExists current orc && j == 0 then
        match getCommonPrefix p (outputOf f current) lmin with
        | none => none
        | some pre =>
          if pre.isPrefixOf word then
            match sbomReport p t pos occurences (outputOf f current) with
            | none => none
            | some occurences => some (occurences, pos + 0 + 1)
          else some (occurences, pos + (j : Int) + 1)
      else some (occurences, pos + (j : Int) + 1)

/-- The loop of `searchSBOM` over the window starts. -/
def sbomScan (p : List Str) (t : Str) (lmin : Int) (orc : Automaton) (f : OutputSets) :
    Nat → Int → Occurrences → Option Occurrences
  | 0, _, _ => none
  | fuel + 1, pos, occurences =>
    if pos ≤ (t.length : Int) - lmin then
      match sbomWindow p t lmin orc f pos occurences with
      | none => none
      | some (occurences, pos) => sbomScan p t lmin orc f fuel pos occurences
    else some occurences

/-- Source `searchSBOM`. -/
def searchSBOM (p : List Str) (t : Str) : Option Occurrences :=
  match computeMinLength p with
  | none => none
  | some lmin =>
    match trimToLength p lmin with
    | none => none
    | some trimmed =>
      match buildOracleMultiple (reverseAll trimmed) with
      | none => none
      | some (orc, f) => sbomScan p t lmin orc f (t.length + 2) 0 []

end Jsonizer

/-! ## The standalone matcher (ac.go) -/

namespace AcMain

/-- The pre-check loop of `main` in ac.go, from pattern number `i + 1` on:
`log.Fatal` with the pattern number as soon as a pattern is longer than the
text, and the call of the matcher (`ok`) only when no pattern is. -/
def preCheck (textLen : Nat) : Nat → List Jsonizer.Str → Except Nat Unit
  | _, [] => Except.ok ()
  | i, w :: rest => if w.length > textLen then Except.error (i + 1) else preCheck textLen (i + 1) rest

end AcMain

/-! ## Specification predicates -/

namespace Jsonizer

/-- The pattern `w` of the list `p` occurs in the text `t` at the offset `o`:
`0 <= o`, `o + len(w) <= len(t)` and `t[o .. o+len(w)) == w`. -/
def IsOccurrence (p : List Str) (t : Str) (w : Str) (o : Int) : Prop :=
  0 ≤ o ∧ o + (w.length : Int) ≤ (t.length : Int) ∧ (t.drop o.toNat).take w.length = w ∧ w ∈ p

/-- Every offset stored in the occurrence index, under every key, satisfies `P`. -/
def AllOcc (P : Str → Int → Prop) (m : Occurrences) : Prop :=
  ∀ w l, m.get? w = some l → ∀ o ∈ l, P w o

/-- Every offset list of the occurrence index is strictly ascending, and the
offsets stored under a key `w` are below `B w`. -/
def AscBelow (B : Str → Int) (m : Occurrences) : Prop :=
  ∀ w l, m.get? w = some l → l.Sorted (fun a b => a < b) ∧ ∀ o ∈ l, o < B w

/-- No output set holds a pattern index twice. -/
def OutputsNodup (f : OutputSets) : Prop :=
  ∀ q l, f.get? q = some l → l.Nodup

/-- The patterns that the candidate indices `cands` stand for. -/
def keysOf (p : List Str) (cands : List Int) : List Str :=
  cands.filterMap (fun k => idx p k)

/-- The bound on the offsets stored under `w` while the candidates `cands` of
the current position are still to be reported: below `b w` for the keys to
come, at most `b w` for the others. -/
def pendingBound (p : List Str) (b : Str → Int) (cands : List Int) (w : Str) : Int :=
  if w ∈ keysOf p cands then b w else b w + 1

/-- A depth function of the automaton: 0 at the root, at least 1 and at most
the state number elsewhere, and every stored transition leads from a state
of the automaton to one that is one deeper. -/
structure DepthInv (n : Int) (aut : Automaton) (d : Int → Nat) : Prop where
  root : d 0 = 0
  nonroot : ∀ q : Int, 1 ≤ q → q < n → 1 ≤ d q
  bound : ∀ q : Int, 0 ≤ q → q < n → (d q : Int) ≤ q
  edges : ∀ (b : Int) (trs : GoMap Nat Int), (b, trs) ∈ aut → 0 ≤ b ∧ b < n ∧
    ∀ (c : Nat) (q' : Int), (c, q') ∈ trs → 0 ≤ q' ∧ q' < n ∧ d q' = d b + 1

/-- Well-formedness of the trie under construction: the terminal markers have
one entry per state, the states are the keys `0 .. state - 1` of the trie and
every transition leads to one of them. -/
structure TrieInv (st : TrieState) : Prop where
  len : (st.stateIsTerminal.length : Int) = st.state
  pos : 1 ≤ st.state
  keys : ∀ q : Int, 0 ≤ q → q < st.state → ∃ tr, st.trie.get? q = some tr
  targets : ∀ (q : Int) (tr : GoMap Nat Int) (c : Nat) (q' : Int),
    st.trie.get? q = some tr → tr.get? c = some q' → 0 ≤ q' ∧ q' < st.state
  keysOnly : ∀ (q : Int) (tr : GoMap Nat Int), st.trie.get? q = some tr → 0 ≤ q ∧ q < st.state
  size : (st.trie.length : Int) = st.state
  depth : ∃ d : Int → Nat, DepthInv st.state st.trie d

/-- Well-formedness of an automaton with the states `0 .. n - 1`: they are its
keys, one entry each, and every transition leads to one of them. -/
structure AutInv (n : Int) (aut : Automaton) : Prop where
  size : (aut.length : Int) = n
  pos : 1 ≤ n
  keys : ∀ q : Int, 0 ≤ q → q < n → ∃ tr, aut.get? q = some tr
  keysOnly : ∀ (q : Int) (tr : GoMap Nat Int), aut.get? q = some tr → 0 ≤ q ∧ q < n
  targets : ∀ (q : Int) (tr : GoMap Nat Int) (c : Nat) (q' : Int),
    aut.get? q = some tr → tr.get? c = some q' → 0 ≤ q' ∧ q' < n

/-- Well-formedness of a supply array over the states `0 .. n - 1`: one entry
per state, each entry -1 or a state. -/
def SupplyInv (n : Int) (s : List Int) : Prop :=
  (s.length : Int) = n ∧ ∀ (q x : Int), idx s q = some x → -1 ≤ x ∧ x < n

/-- Well-formedness of the supply array of `buildAc` with respect to the depth
function `d`: -1 at the root, elsewhere a state that is strictly less deep. -/
def AcSupply (n : Int) (d : Int → Nat) (s : List Int) : Prop :=
  (s.length : Int) = n ∧ idx s 0 = some (-1) ∧
  ∀ q x : Int, 1 ≤ q → idx s q = some x → 0 ≤ x ∧ x < n ∧ d x < d q

/-- The number of states that have no transition on the byte `o`. -/
def lacking (aut : Automaton) (o : Nat) : Nat :=
  (List.range aut.length).countP (fun (q : Nat) => getTransition (q : Int) o aut == -1)

/-- The root is marked terminal and carries the pattern index `i` in its output set. -/
def RootOutput (i : Int) (st : TrieState) : Prop :=
  idx st.stateIsTerminal 0 = some true ∧ i ∈ outputOf st.f 0

/-- A state is marked terminal exactly when its output set is not empty. -/
def TerminalIff (stateIsTerminal : List Bool) (f : OutputSets) : Prop :=
  ∀ q : Int, idx stateIsTerminal q = some true ↔ outputOf f q ≠ []

/-- The automaton holds one entry per state and each state one entry per byte. -/
def KeysNodup (aut : Automaton) : Prop :=
  (aut.map Prod.fst).Nodup ∧ ∀ (b : Int) (trs : GoMap Nat Int), (b, trs) ∈ aut → (trs.map Prod.fst).Nodup

/-- The trie is a tree: `path q` is the string that leads from the root to the
state `q`; every transition appends its byte to the path, distinct states
have distinct paths, every state but the root has an incoming transition,
and a path is no longer than the number of its state. -/
structure TrieInv2 (st : TrieState) (path : Int → Str) : Prop where
  terminalIff : TerminalIff st.stateIsTerminal st.f
  nodupKeys : KeysNodup st.trie
  root : path 0 = []
  edges : ∀ (q : Int) (c : Nat), getTransition q c st.trie ≠ -1 →
    path (getTransition q c st.trie) = path q ++ [c]
  inj : ∀ q q' : Int, 0 ≤ q → q < st.state → 0 ≤ q' → q' < st.state → path q = path q' → q = q'
  incoming : ∀ q : Int, 1 ≤ q → q < st.state → ∃ (b : Int) (c : Nat), getTransition b c st.trie = q
  bound : ∀ q : Int, 0 ≤ q → q < st.state → ((path q).length : Int) ≤ q

/-- Follows the transitions on the bytes of `u` from `state` and returns the
state reached, -1 once a transition is missing. -/
def walk (aut : Automaton) : Int → Str → Int
  | state, [] => state
  | state, c :: u => walk aut (getTransition state c aut) u

/-- The depth of a state, the length of its path from the root: the number of
`getParent` steps that lead from the state up to the root (at most `fuel`). -/
def depthOf (aut : Automaton) : Nat → Int → Nat
  | 0, _ => 0
  | fuel + 1, q => if q = 0 then 0 else depthOf aut fuel (getParent q aut).2 + 1

/-- The loop of `searchSBOM` as in `sbomScan`, returning with the occurrence
index the window starts `pos` that the loop examines, in order. -/
def sbomTrace (p : List Str) (t : Str) (lmin : Int) (orc : Automaton) (f : OutputSets) :
    Nat → Int → Occurrences → Option (Occurrences × List Int)
  | 0, _, _ => none
  | fuel + 1, pos, occurences =>
    if pos ≤ (t.length : Int) - lmin then
      match sbomWindow p t lmin orc f pos occurences with
      | none => none
      | some (occurences, pos') =>
        match sbomTrace p t lmin orc f fuel pos' occurences with
        | none => none
        | some (m, starts) => some (m, pos :: starts)
    else some (occurences, [])

/-- Source `searchSBOM`, returning the window starts as well. -/
def searchSBOMTrace (p : List Str) (t : Str) : Option (Occurrences × List Int) :=
  match computeMinLength p with
  | none => none
  | some lmin =>
    match trimToLength p lmin with
    | none => none
    | some trimmed =>
      match buildOracleMultiple (reverseAll trimmed) with
      | none => none
      | some (orc, f) => sbomTrace p t lmin orc f (t.length + 2) 0 []

/-- Source `buildAc` up to the end of its loop: the automaton and the loop
state, which holds `stateIsTerminal` besides the `f` and `s` returned. -/
def buildAcState (p : List Str) : Option (Automaton × AcState) :=
  match constructTrie p with
  | none => none
  | some t =>
    match setIdx (List.replicate t.stateIsTerminal.length (0 : Int)) 0 (-1) with
    | none => none
    | some s =>
      match acLoop t.trie (t.stateIsTerminal.length - 1)
          { stateIsTerminal := t.stateIsTerminal, f := t.f, s := s } 1 with
      | none => none
      | some st => some (t.trie, st)

/-- What `constructTrie` has built once the patterns `done` are inserted: every
pattern leads from the root to a terminal state, the output set of a state
holds exactly the indices of the patterns that lead to it, and it holds them
in increasing order. -/
structure TrieSpec (done : List Str) (st : TrieState) : Prop where
  ends : ∀ (j : Nat) (w : Str), done[j]? = some w →
    0 ≤ walk st.trie 0 w ∧ walk st.trie 0 w < st.state ∧
      idx st.stateIsTerminal (walk st.trie 0 w) = some true
  outputs : ∀ (q x : Int), x ∈ outputOf st.f q ↔
    ∃ (j : Nat) (w : Str), x = (j : Int) ∧ done[j]? = some w ∧ walk st.trie 0 w = q
  sorted : ∀ q : Int, (outputOf st.f q).Sorted (fun a b => a < b)

/-- Follows `k` supply links from the state `q`: `q, s[q], s[s[q]], ...`. -/
def followSupply (s : List Int) : Nat → Int → Option Int
  | 0, q => some q
  | k + 1, q =>
    match idx s q with
    | none => none
    | some x => followSupply s k x

/-- The automaton that `buildOracleMultiple` holds at the start of the round of
the state `r`, compared with the trie it started from: it has the same
states, every transition of the trie is still there, and a transition that
was added leads to a state below `r`. -/
structure OrcInv (n r : Int) (trie orc : Automaton) : Prop where
  aut : AutInv n orc
  nodup : KeysNodup orc
  kept : ∀ (b : Int) (c : Nat), getTransition b c trie ≠ -1 →
    getTransition b c orc = getTransition b c trie
  added : ∀ (b : Int) (c : Nat), getTransition b c orc ≠ getTransition b c trie →
    1 ≤ getTransition b c orc ∧ getTransition b c orc < r

/-- The loop of `searchAC` as in `acScan`, returning with the occurrence index
the pairs `(pos, current)` at which the loop looks up the candidates
`f[current]`, in order. -/
def acTrace (p : List Str) (t : Str) (ac : Automaton) (f : OutputSets) (s : List Int) :
    Str → Int → Int → Occurrences → Option (Occurrences × List (Int × Int))
  | [], _, _, occurences => some (occurences, [])
  | c :: rest, pos, current, occurences =>
    match acFail ac s c (ac.length + 1) current with
    | none => none
    | some current =>
      let current := if getTransition current c ac != -1 then getTransition current c ac else 0
      match f.get? current with
      | none =>
        match acTrace p t ac f s rest (pos + 1) current occurences with
        | none => none
        | some (m, visited) => some (m, (pos, current) :: visited)
      | some l =>
        match acReport p t pos occurences l with
        | none => none
        | some occurences =>
          match acTrace p t ac f s rest (pos + 1) current occurences with
          | none => none
          | some (m, visited) => some (m, (pos, current) :: visited)

/-- Source `searchAC`, returning the pairs `(pos, current)` as well. -/
def searchACTrace (p : List Str) (t : Str) : Option (Occurrences × List (Int × Int)) :=
  match buildAc p with
  | none => none
  | some (ac, f, s) => acTrace p t ac f s t 0 0 []

/-- The supply array and the output sets of `buildAc` with respect to the paths
of the trie: the path of the supply of a state is a suffix of the path of
the state, and every pattern of the output set of a state is a suffix of the
path of the state. -/
structure AcSuffix (p : List Str) (path : Int → Str) (st : AcState) : Prop where
  supply : ∀ q x : Int, 1 ≤ q → idx st.s q = some x → List.IsSuffix (path x) (path q)
  outputs : ∀ q i : Int, i ∈ outputOf st.f q → ∃ w, idx p i = some w ∧ List.IsSuffix w (path q)

/-- Follows the transitions on the bytes of `u` from `state`: false as soon as
a transition is missing. -/
def accepts (aut : Automaton) : Int → Str → Bool
  | _, [] => true
  | state, c :: u =>
    if getTransition state c aut == -1 then false else accepts aut (getTransition state c aut) u

end Jsonizer

/-! ## Basic facts on maps and slices -/

namespace Jsonizer

set_option maxRecDepth 100000

theorem GoMap.get?_set_eq {κ ν : Type} [DecidableEq κ] (m : GoMap κ ν) (k : κ) (v : ν) :
    (m.set k v).get? k = some v := by
  induction m with
  | nil => simp [GoMap.set, GoMap.get?]
  | cons e m ih =>
    obtain ⟨k', v'⟩ := e
    by_cases h : k' = k
    · simp [GoMap.set, GoMap.get?, h]
    · simp [GoMap.set, GoMap.get?, h, ih]

theorem GoMap.get?_set_ne {κ ν : Type} [DecidableEq κ] (m : GoMap κ ν) (k k' : κ) (v : ν)
    (hne : k' ≠ k) : (m.set k v).get? k' = m.get? k' := by
  induction m with
  | nil =>
    have : ¬ k = k' := fun h => hne h.symm
    simp [GoMap.set, GoMap.get?, this]
  | cons e m ih =>
    obtain ⟨k1, v1⟩ := e
    by_cases h : k1 = k
    · subst h
      have : ¬ k1 = k' := fun h => hne h.symm
      simp [GoMap.set, GoMap.get?, this]
    · by_cases h2 : k1 = k'
      · subst h2
        simp [GoMap.set, GoMap.get?, h]
      · simp [GoMap.set, GoMap.get?, h, h2, ih]

theorem GoMap.length_set_of_some {κ ν : Type} [DecidableEq κ] (m : GoMap κ ν) (k : κ) (v v' : ν)
    (h : m.get? k = some v') : (m.set k v).length = m.length := by
  induction m with
  | nil => simp [GoMap.get?] at h
  | cons e m ih =>
    obtain ⟨k1, v1⟩ := e
    by_cases hk : k1 = k
    · simp [GoMap.set, hk]
    · simp only [GoMap.get?, if_neg hk] at h
      simp [GoMap.set, hk, ih h]

theorem GoMap.length_set_of_none {κ ν : Type} [DecidableEq κ] (m : GoMap κ ν) (k : κ) (v : ν)
    (h : m.get? k = none) : (m.set k v).length = m.length + 1 := by
  induction m with
  | nil => simp [GoMap.set]
  | cons e m ih =>
    obtain ⟨k1, v1⟩ := e
    by_cases hk : k1 = k
    · simp [GoMap.get?, hk] at h
    · simp only [GoMap.get?, if_neg hk] at h
      simp [GoMap.set, hk, ih h]

theorem setLast_capUp (xs : List Int) (v : Int) :
    setLast (intArrayCapUp xs) v = some (xs ++ [v]) := by
  unfold setLast intArrayCapUp setIdx
  have h1 : (0 : Int) ≤ ((xs ++ [0]).length : Int) - 1 := by simp
  have h2 : (((xs ++ [0]).length : Int) - 1).toNat = xs.length := by simp
  rw [if_pos ⟨h1, by rw [h2]; simp⟩, h2]
  simp

theorem record_eq (occ : Occurrences) (w : Str) (o : Int) :
    record occ w o = some (occ.set w ((occ.get? w).getD [] ++ [o])) := by
  unfold record
  rw [setLast_capUp]

theorem contains_iff (s : List Int) (e : Int) : contains s e = true ↔ e ∈ s := by
  induction s with
  | nil => simp [contains]
  | cons a rest ih =>
    unfold contains
    by_cases h : a = e
    · simp [h]
    · have h' : ¬ e = a := fun h2 => h h2.symm
      simp [h, h', ih]

theorem idx_some_iff {α : Type} (xs : List α) (i : Int) (x : α) :
    idx xs i = some x ↔ 0 ≤ i ∧ xs[i.toNat]? = some x := by
  unfold idx
  split <;> simp [*]

theorem idx_lt {α : Type} (xs : List α) (i : Int) (x : α) (h : idx xs i = some x) :
    0 ≤ i ∧ i.toNat < xs.length := by
  obtain ⟨h0, h1⟩ := (idx_some_iff xs i x).1 h
  obtain ⟨h2, _⟩ := List.getElem?_eq_some.1 h1
  exact ⟨h0, h2⟩

theorem idx_mem {α : Type} (xs : List α) (i : Int) (x : α) (h : idx xs i = some x) : x ∈ xs :=
  List.getElem?_mem ((idx_some_iff xs i x).1 h).2

theorem readFrom_spec (t : Str) : ∀ (n : Nat) (i : Int) (w : Str), readFrom t n i = some w →
    w.length = n ∧ (0 ≤ i → w = (t.drop i.toNat).take n) ∧
      (0 < n → 0 ≤ i ∧ i.toNat + n ≤ t.length) := by
  intro n
  induction n with
  | zero =>
    intro i w h
    simp [readFrom] at h
    subst h
    simp
  | succ n ih =>
    intro i w h
    unfold readFrom at h
    cases hc : idx t i with
    | none => simp [hc] at h
    | some c =>
      rw [hc] at h
      cases hr : readFrom t n (i + 1) with
      | none => simp [hr] at h
      | some rest =>
        rw [hr] at h
        simp at h
        subst h
        obtain ⟨hi, hget⟩ := (idx_some_iff t i c).1 hc
        obtain ⟨hlt, hc'⟩ := List.getElem?_eq_some.1 hget
        obtain ⟨hlen, hrest, hbound⟩ := ih (i + 1) rest hr
        have hi1 : (0 : Int) ≤ i + 1 := by omega
        have htn : (i + 1).toNat = i.toNat + 1 := by omega
        refine ⟨by simp [hlen], fun _ => ?_, fun _ => ⟨hi, ?_⟩⟩
        · rw [List.drop_eq_getElem_cons hlt, List.take_succ_cons, hc', hrest hi1, htn]
        · rcases Nat.eq_zero_or_pos n with h0 | hpos
          · omega
          · have := (hbound hpos).2
            omega

/-! ## No false positives -/

theorem record_allOcc (P : Str → Int → Prop) (occ occ' : Occurrences) (w : Str) (o : Int)
    (hocc : AllOcc P occ) (hP : P w o) (h : record occ w o = some occ') : AllOcc P occ' := by
  rw [record_eq] at h
  simp at h
  subst h
  intro w' l hl o' ho'
  by_cases hw : w' = w
  · subst hw
    rw [GoMap.get?_set_eq] at hl
    simp at hl
    subst hl
    rcases List.mem_append.1 ho' with h1 | h1
    · cases hg : GoMap.get? occ w' with
      | none => simp [hg] at h1
      | some old =>
        simp [hg] at h1
        exact hocc w' old hg o' h1
    · simp at h1
      subst h1
      exact hP
  · rw [GoMap.get?_set_ne _ _ _ _ hw] at hl
    exact hocc w' l hl o' ho'

theorem getWord_ac_spec (p : List Str) (t w : Str) (pos k : Int) (hpos : 0 ≤ pos)
    (hlt : pos < (t.length : Int)) (hk : idx p k = some w)
    (h : getWord (pos - (w.length : Int) + 1) pos t = some w) :
    IsOccurrence p t w (pos - (w.length : Int) + 1) := by
  unfold getWord at h
  rw [if_neg (by omega), if_neg (by omega)] at h
  have hsz : (pos - (pos - (w.length : Int) + 1) + 1).toNat = w.length := by omega
  rw [hsz] at h
  obtain ⟨_, htake, hbound⟩ := readFrom_spec t _ _ _ h
  have hmem := idx_mem p k w hk
  rcases Nat.eq_zero_or_pos w.length with h0 | hpos'
  · have hw : w = [] := List.length_eq_zero.1 h0
    subst hw
    exact ⟨by simp; omega, by simp; omega, by simp, hmem⟩
  · obtain ⟨hb, hb2⟩ := hbound hpos'
    exact ⟨hb, by omega, (htake hb).symm, hmem⟩

theorem acReport_allOcc (p : List Str) (t : Str) (pos : Int) (hpos : 0 ≤ pos)
    (hlt : pos < (t.length : Int)) :
    ∀ (cands : List Int) (occ m : Occurrences), AllOcc (IsOccurrence p t) occ →
      acReport p t pos occ cands = some m → AllOcc (IsOccurrence p t) m := by
  intro cands
  induction cands with
  | nil =>
    intro occ m hocc h
    simp [acReport] at h
    subst h
    exact hocc
  | cons k rest ih =>
    intro occ m hocc h
    unfold acReport at h
    cases hk : idx p k with
    | none => simp [hk] at h
    | some w =>
      rw [hk] at h
      dsimp only at h
      cases hg : getWord (pos - (w.length : Int) + 1) pos t with
      | none => simp [hg] at h
      | some word =>
        rw [hg] at h
        dsimp only at h
        by_cases hw : w = word
        · rw [if_pos hw] at h
          subst hw
          cases hr : record occ w (pos - (w.length : Int) + 1) with
          | none => simp [hr] at h
          | some occ' =>
            rw [hr] at h
            dsimp only at h
            exact ih occ' m
              (record_allOcc _ occ occ' w _ hocc (getWord_ac_spec p t w pos k hpos hlt hk hg) hr) h
        · rw [if_neg hw] at h
          exact ih occ m hocc h

theorem acScan_allOcc (p : List Str) (t : Str) (ac : Automaton) (f : OutputSets) (s : List Int) :
    ∀ (rest : Str) (pos current : Int) (occ m : Occurrences), 0 ≤ pos →
      pos + (rest.length : Int) = (t.length : Int) → AllOcc (IsOccurrence p t) occ →
      acScan p t ac f s rest pos current occ = some m → AllOcc (IsOccurrence p t) m := by
  intro rest
  induction rest with
  | nil =>
    intro pos current occ m _ _ hocc h
    simp [acScan] at h
    subst h
    exact hocc
  | cons c rest ih =>
    intro pos current occ m hpos hlen hocc h
    unfold acScan at h
    simp only [List.length_cons, Nat.cast_add, Nat.cast_one] at hlen
    cases hf : acFail ac s c (ac.length + 1) current with
    | none => simp [hf] at h
    | some cur =>
      rw [hf] at h
      simp only at h
      split at h
      · exact ih _ _ occ m (by omega) (by omega) hocc h
      · rename_i l hl
        split at h
        · cases h
        · rename_i occ' hrep
          exact ih _ _ occ' m (by omega) (by omega)
            (acReport_allOcc p t pos hpos (by omega) l occ occ' hocc hrep) h

theorem allOcc_nil (P : Str → Int → Prop) : AllOcc P [] := by
  intro w l h
  simp [GoMap.get?] at h

theorem getWord_sbom_spec (p : List Str) (t w : Str) (pos k : Int) (hpos : 0 ≤ pos)
    (hle : pos ≤ (t.length : Int)) (hk : idx p k = some w)
    (h : getWord pos (pos - 1 + (w.length : Int)) t = some w) : IsOccurrence p t w pos := by
  have hmem := idx_mem p k w hk
  unfold getWord at h
  split at h
  · simp at h
    subst h
    exact ⟨hpos, by simpa using hle, by simp, hmem⟩
  · rename_i hend
    rw [if_neg (by omega)] at h
    have hsz : (pos - 1 + (w.length : Int) - pos + 1).toNat = w.length := by omega
    rw [hsz] at h
    obtain ⟨_, htake, hbound⟩ := readFrom_spec t _ _ _ h
    rcases Nat.eq_zero_or_pos w.length with h0 | hpos'
    · have hw : w = [] := List.length_eq_zero.1 h0
      subst hw
      exact ⟨hpos, by simpa using hle, by simp, hmem⟩
    · obtain ⟨_, hb2⟩ := hbound hpos'
      exact ⟨hpos, by omega, (htake hpos).symm, hmem⟩

theorem sbomReport_allOcc (p : List Str) (t : Str) (pos : Int) (hpos : 0 ≤ pos)
    (hle : pos ≤ (t.length : Int)) :
    ∀ (cands : List Int) (occ m : Occurrences), AllOcc (IsOccurrence p t) occ →
      sbomReport p t pos occ cands = some m → AllOcc (IsOccurrence p t) m := by
  intro cands
  induction cands with
  | nil =>
    intro occ m hocc h
    simp [sbomReport] at h
    subst h
    exact hocc
  | cons k rest ih =>
    intro occ m hocc h
    unfold sbomReport at h
    cases hk : idx p k with
    | none => simp [hk] at h
    | some w =>
      rw [hk] at h
      dsimp only at h
      cases hg : getWord pos (pos - 1 + (w.length : Int)) t with
      | none => simp [hg] at h
      | some word =>
        rw [hg] at h
        dsimp only at h
        by_cases hw : w = word
        · rw [if_pos hw] at h
          subst hw
          cases hr : record occ w pos with
          | none => simp [hr] at h
          | some occ' =>
            rw [hr] at h
            dsimp only at h
            exact ih occ' m
              (record_allOcc _ occ occ' w _ hocc (getWord_sbom_spec p t w pos k hpos hle hk hg) hr) h
        · rw [if_neg hw] at h
          exact ih occ m hocc h

/-- A window of `searchSBOM` moves `pos` forward by at least one. -/
theorem sbomWindow_pos (p : List Str) (t : Str) (lmin : Int) (orc : Automaton) (f : OutputSets)
    (pos pos' : Int) (occ occ' : Occurrences)
    (h : sbomWindow p t lmin orc f pos occ = some (occ', pos')) : pos < pos' := by
  unfold sbomWindow at h
  split at h
  · cases h
  · split at h
    · cases h
    · split at h
      · split at h
        · cases h
        · split at h
          · split at h
            · cases h
            · simp at h
              omega
          · simp at h
            omega
      · simp at h
        omega

theorem sbomWindow_allOcc (p : List Str) (t : Str) (lmin : Int) (orc : Automaton) (f : OutputSets)
    (pos pos' : Int) (occ occ' : Occurrences) (hpos : 0 ≤ pos) (hle : pos ≤ (t.length : Int))
    (hocc : AllOcc (IsOccurrence p t) occ)
    (h : sbomWindow p t lmin orc f pos occ = some (occ', pos')) :
    AllOcc (IsOccurrence p t) occ' := by
  unfold sbomWindow at h
  split at h
  · cases h
  · split at h
    · cases h
    · split at h
      · split at h
        · cases h
        · split at h
          · split at h
            · cases h
            · rename_i m hrep
              simp at h
              rw [← h.1]
              exact sbomReport_allOcc p t pos hpos hle _ occ m hocc hrep
          · simp at h
            rw [← h.1]
            exact hocc
      · simp at h
        rw [← h.1]
        exact hocc

theorem sbomScan_allOcc (p : List Str) (t : Str) (lmin : Int) (orc : Automaton) (f : OutputSets)
    (hlmin : 0 ≤ lmin) :
    ∀ (fuel : Nat) (pos : Int) (occ m : Occurrences), 0 ≤ pos → AllOcc (IsOccurrence p t) occ →
      sbomScan p t lmin orc f fuel pos occ = some m → AllOcc (IsOccurrence p t) m := by
  intro fuel
  induction fuel with
  | zero =>
    intro pos occ m _ _ h
    simp [sbomScan] at h
  | succ fuel ih =>
    intro pos occ m hpos hocc h
    unfold sbomScan at h
    split at h
    · rename_i hcond
      split at h
      · cases h
      · rename_i occ' pos' hwin
        have h1 := sbomWindow_pos p t lmin orc f pos pos' occ occ' hwin
        exact ih pos' occ' m (by omega)
          (sbomWindow_allOcc p t lmin orc f pos pos' occ occ' hpos (by omega) hocc hwin) h
    · simp at h
      subst h
      exact hocc

theorem minLengthLoop_nonneg : ∀ (ws : List Str) (lmin : Int), 0 ≤ lmin → 0 ≤ minLengthLoop lmin ws := by
  intro ws
  induction ws with
  | nil => intro lmin h; simpa [minLengthLoop] using h
  | cons w rest ih =>
    intro lmin h
    unfold minLengthLoop
    apply ih
    split <;> omega

theorem computeMinLength_nonneg (p : List Str) (lmin : Int) (h : computeMinLength p = some lmin) :
    0 ≤ lmin := by
  cases p with
  | nil => simp [computeMinLength] at h
  | cons w rest =>
    simp [computeMinLength] at h
    subst h
    exact minLengthLoop_nonneg rest _ (by omega)

/-! ## Output sets without repetition -/

theorem arrayUnion_nodup : ∀ (src dst u : List Int), dst.Nodup → arrayUnion dst src = some u →
    u.Nodup := by
  intro src
  induction src with
  | nil =>
    intro dst u hd h
    simp [arrayUnion] at h
    subst h
    exact hd
  | cons x rest ih =>
    intro dst u hd h
    unfold arrayUnion at h
    cases hc : contains dst x with
    | true =>
      simp [hc] at h
      exact ih dst u hd h
    | false =>
      simp only [hc, Bool.not_false, if_true] at h
      rw [setLast_capUp] at h
      dsimp only at h
      refine ih (dst ++ [x]) u ?_ h
      have hx : x ∉ dst := by
        intro hx
        rw [(contains_iff dst x).2 hx] at hc
        cases hc
      rw [List.nodup_append]
      refine ⟨hd, by simp, ?_⟩
      intro a ha hb
      simp at hb
      subst hb
      exact hx ha

theorem outputOf_nodup (f : OutputSets) (hf : OutputsNodup f) (q : Int) : (outputOf f q).Nodup := by
  unfold outputOf
  cases h : GoMap.get? f q with
  | none => simp
  | some l => simpa using hf q l h

theorem outputsNodup_set (f : OutputSets) (hf : OutputsNodup f) (q : Int) (l : List Int)
    (hl : l.Nodup) : OutputsNodup (f.set q l) := by
  intro q' l' h
  by_cases hq : q' = q
  · subst hq
    rw [GoMap.get?_set_eq] at h
    simp at h
    subst h
    exact hl
  · rw [GoMap.get?_set_ne _ _ _ _ hq] at h
    exact hf q' l' h

theorem extendTrie_f : ∀ (w : Str) (st st' : TrieState) (current current' : Int),
    extendTrie st current w = some (st', current') → st'.f = st.f := by
  intro w
  induction w with
  | nil =>
    intro st st' current current' h
    simp [extendTrie] at h
    rw [← h.1]
  | cons c rest ih =>
    intro st st' current current' h
    unfold extendTrie at h
    dsimp only at h
    split at h
    · cases h
    · split at h
      · cases h
      · rw [ih _ _ _ _ h]

/-- The output sets built from the patterns of index below `i` hold indices
below `i`, none twice. -/
theorem insertPattern_outputs (st st' : TrieState) (i : Int) (w : Str)
    (hf : ∀ q l, st.f.get? q = some l → l.Nodup ∧ ∀ x ∈ l, x < i)
    (h : insertPattern st i w = some st') :
    ∀ q l, st'.f.get? q = some l → l.Nodup ∧ ∀ x ∈ l, x < i + 1 := by
  have hmono : ∀ q l, st.f.get? q = some l → l.Nodup ∧ ∀ x ∈ l, x < i + 1 := by
    intro q l hl
    obtain ⟨h1, h2⟩ := hf q l hl
    exact ⟨h1, fun x hx => by have := h2 x hx; omega⟩
  unfold insertPattern at h
  dsimp only at h
  split at h
  · cases h
  · rename_i st1 current hext
    have hf1 : st1.f = st.f := extendTrie_f _ _ _ _ _ hext
    split at h
    · cases h
    · rw [setLast_capUp] at h
      simp at h
      subst h
      intro q l hl
      dsimp only at hl
      by_cases hq : q = current
      · subst hq
        rw [GoMap.get?_set_eq] at hl
        simp at hl
        subst hl
        have hold : (outputOf st1.f q).Nodup ∧ ∀ x ∈ outputOf st1.f q, x < i := by
          unfold outputOf
          rw [hf1]
          cases hg : GoMap.get? st.f q with
          | none => simp
          | some l0 => simpa using hf q l0 hg
        constructor
        · rw [List.nodup_append]
          refine ⟨hold.1, by simp, ?_⟩
          intro a ha hb
          simp at hb
          subst hb
          have := hold.2 a ha
          omega
        · intro x hx
          rcases List.mem_append.1 hx with h1 | h1
          · have := hold.2 x h1
            omega
          · simp at h1
            omega
      · rw [GoMap.get?_set_ne _ _ _ _ hq, hf1] at hl
        exact hmono q l hl
    · split at h
      · cases h
      · simp at h
        subst h
        intro q l hl
        dsimp only at hl
        by_cases hq : q = current
        · subst hq
          rw [GoMap.get?_set_eq] at hl
          simp at hl
          subst hl
          simp
        · rw [GoMap.get?_set_ne _ _ _ _ hq, hf1] at hl
          exact hmono q l hl

theorem insertAll_outputs : ∀ (ws : List Str) (st st' : TrieState) (i : Int),
    (∀ q l, st.f.get? q = some l → l.Nodup ∧ ∀ x ∈ l, x < i) →
    insertAll st i ws = some st' → OutputsNodup st'.f := by
  intro ws
  induction ws with
  | nil =>
    intro st st' i hf h
    simp [insertAll] at h
    subst h
    exact fun q l hl => (hf q l hl).1
  | cons w rest ih =>
    intro st st' i hf h
    unfold insertAll at h
    split at h
    · cases h
    · rename_i st1 hins
      exact ih st1 st' (i + 1) (insertPattern_outputs st st1 i w hf hins) h

theorem constructTrie_outputsNodup (p : List Str) (st : TrieState) (h : constructTrie p = some st) :
    OutputsNodup st.f := by
  unfold constructTrie at h
  refine insertAll_outputs p _ st 0 ?_ h
  intro q l hl
  simp [GoMap.get?] at hl

theorem acStep_outputsNodup (aut : Automaton) (st st' : AcState) (current : Int)
    (hf : OutputsNodup st.f) (h : acStep aut st current = some st') : OutputsNodup st'.f := by
  unfold acStep at h
  dsimp only at h
  split at h
  · cases h
  · split at h
    · cases h
    · split at h
      · split at h
        · cases h
        · split at h
          · cases h
          · split at h
            · cases h
            · split at h
              · cases h
              · split at h
                · cases h
                · rename_i u hu
                  simp at h
                  subst h
                  exact outputsNodup_set _ hf _ _
                    (arrayUnion_nodup _ _ _ (outputOf_nodup _ hf _) hu)
            · simp at h
              subst h
              exact hf
      · split at h
        · cases h
        · simp at h
          subst h
          exact hf

theorem acLoop_outputsNodup (aut : Automaton) : ∀ (n : Nat) (st st' : AcState) (current : Int),
    OutputsNodup st.f → acLoop aut n st current = some st' → OutputsNodup st'.f := by
  intro n
  induction n with
  | zero =>
    intro st st' current hf h
    simp [acLoop] at h
    subst h
    exact hf
  | succ n ih =>
    intro st st' current hf h
    unfold acLoop at h
    split at h
    · cases h
    · rename_i st1 hstep
      exact ih st1 st' _ (acStep_outputsNodup aut st st1 current hf hstep) h

theorem buildAc_outputsNodup (p : List Str) (ac : Automaton) (f : OutputSets) (s : List Int)
    (h : buildAc p = some (ac, f, s)) : OutputsNodup f := by
  unfold buildAc at h
  split at h
  · cases h
  · rename_i t ht
    split at h
    · cases h
    · split at h
      · cases h
      · rename_i st hloop
        simp at h
        rw [← h.2.1]
        exact acLoop_outputsNodup _ _ _ st _ (constructTrie_outputsNodup p t ht) hloop

theorem buildOracleMultiple_outputsNodup (q : List Str) (orc : Automaton) (f : OutputSets)
    (h : buildOracleMultiple q = some (orc, f)) : OutputsNodup f := by
  unfold buildOracleMultiple at h
  split at h
  · cases h
  · rename_i orc1 f1 s1 hb
    simp at h
    rw [← h.2]
    unfold buildOracleSupply at hb
    split at hb
    · cases hb
    · rename_i t ht
      split at hb
      · cases hb
      · split at hb
        · cases hb
        · simp at hb
          rw [← hb.2.1]
          exact constructTrie_outputsNodup q t ht

/-! ## Ascending offsets -/

theorem idx_inj (p : List Str) (hp : p.Nodup) (k k' : Int) (w : Str) (hk : idx p k = some w)
    (hk' : idx p k' = some w) : k = k' := by
  obtain ⟨h0, h1⟩ := (idx_some_iff p k w).1 hk
  obtain ⟨h0', h1'⟩ := (idx_some_iff p k' w).1 hk'
  obtain ⟨hl, he⟩ := List.getElem?_eq_some.1 h1
  obtain ⟨hl', he'⟩ := List.getElem?_eq_some.1 h1'
  have := (@List.Nodup.getElem_inj_iff _ p hp _ hl _ hl').1 (he.trans he'.symm)
  omega

theorem not_mem_keysOf (p : List Str) (hp : p.Nodup) (k : Int) (rest : List Int)
    (hc : (k :: rest).Nodup) (w : Str) (hk : idx p k = some w) : w ∉ keysOf p rest := by
  intro hmem
  unfold keysOf at hmem
  obtain ⟨k', hk'mem, hk'⟩ := List.mem_filterMap.1 hmem
  have := idx_inj p hp k k' w hk hk'
  subst this
  exact (List.nodup_cons.1 hc).1 hk'mem

theorem ascBelow_mono (B B' : Str → Int) (m : Occurrences) (hB : ∀ w, B w ≤ B' w)
    (h : AscBelow B m) : AscBelow B' m := by
  intro w l hl
  obtain ⟨h1, h2⟩ := h w l hl
  exact ⟨h1, fun o ho => lt_of_lt_of_le (h2 o ho) (hB w)⟩

theorem pendingBound_skip (p : List Str) (b : Str → Int) (k : Int) (rest : List Int) (w : Str) :
    pendingBound p b (k :: rest) w ≤ pendingBound p b rest w := by
  unfold pendingBound
  by_cases h : w ∈ keysOf p rest
  · have h' : w ∈ keysOf p (k :: rest) := by
      unfold keysOf at h ⊢
      obtain ⟨k', hk'mem, hk'⟩ := List.mem_filterMap.1 h
      exact List.mem_filterMap.2 ⟨k', List.mem_cons_of_mem _ hk'mem, hk'⟩
    rw [if_pos h, if_pos h']
  · rw [if_neg h]
    split <;> omega

theorem record_ascBelow (p : List Str) (b : Str → Int) (k : Int) (rest : List Int)
    (occ occ' : Occurrences) (w : Str) (hk : idx p k = some w) (hw : w ∉ keysOf p rest)
    (hocc : AscBelow (pendingBound p b (k :: rest)) occ) (h : record occ w (b w) = some occ') :
    AscBelow (pendingBound p b rest) occ' := by
  rw [record_eq] at h
  simp at h
  subst h
  intro w' l hl
  by_cases hww : w' = w
  · subst hww
    rw [GoMap.get?_set_eq] at hl
    simp at hl
    subst hl
    have hin : w' ∈ keysOf p (k :: rest) := by
      unfold keysOf
      exact List.mem_filterMap.2 ⟨k, List.mem_cons_self _ _, hk⟩
    have hold : ((GoMap.get? occ w').getD []).Sorted (fun a b => a < b) ∧
        ∀ o ∈ (GoMap.get? occ w').getD [], o < b w' := by
      cases hg : GoMap.get? occ w' with
      | none => simp
      | some l0 =>
        obtain ⟨h1, h2⟩ := hocc w' l0 hg
        simp only [pendingBound, if_pos hin] at h2
        simpa using ⟨h1, h2⟩
    constructor
    · unfold List.Sorted
      rw [List.pairwise_append]
      refine ⟨hold.1, by simp, ?_⟩
      intro a ha c hc
      simp at hc
      subst hc
      exact hold.2 a ha
    · intro o ho
      simp only [pendingBound, if_neg hw]
      rcases List.mem_append.1 ho with h1 | h1
      · have := hold.2 o h1
        omega
      · simp at h1
        omega
  · rw [GoMap.get?_set_ne _ _ _ _ hww] at hl
    exact ascBelow_mono _ _ occ (pendingBound_skip p b k rest) hocc w' l hl

theorem pendingBound_nil (p : List Str) (b : Str → Int) (w : Str) :
    pendingBound p b [] w = b w + 1 := by
  simp [pendingBound, keysOf]

theorem pendingBound_ge (p : List Str) (b : Str → Int) (cands : List Int) (w : Str) :
    b w ≤ pendingBound p b cands w := by
  unfold pendingBound
  split <;> omega

theorem acReport_asc (p : List Str) (hp : p.Nodup) (t : Str) (pos : Int) :
    ∀ (cands : List Int) (occ m : Occurrences), cands.Nodup →
      AscBelow (pendingBound p (fun w => pos - (w.length : Int) + 1) cands) occ →
      acReport p t pos occ cands = some m →
      AscBelow (pendingBound p (fun w => pos - (w.length : Int) + 1) []) m := by
  intro cands
  induction cands with
  | nil =>
    intro occ m _ hocc h
    simp [acReport] at h
    subst h
    exact hocc
  | cons k rest ih =>
    intro occ m hc hocc h
    have hrest : rest.Nodup := (List.nodup_cons.1 hc).2
    have hskip := ascBelow_mono _ _ occ
      (pendingBound_skip p (fun w => pos - (w.length : Int) + 1) k rest) hocc
    unfold acReport at h
    cases hk : idx p k with
    | none => simp [hk] at h
    | some w =>
      rw [hk] at h
      dsimp only at h
      cases hg : getWord (pos - (w.length : Int) + 1) pos t with
      | none => simp [hg] at h
      | some word =>
        rw [hg] at h
        dsimp only at h
        by_cases hw : w = word
        · rw [if_pos hw] at h
          cases hr : record occ w (pos - (w.length : Int) + 1) with
          | none => simp [hr] at h
          | some occ' =>
            rw [hr] at h
            dsimp only at h
            exact ih occ' m hrest
              (record_ascBelow p (fun w => pos - (w.length : Int) + 1) k rest occ occ' w hk
                (not_mem_keysOf p hp k rest hc w hk) hocc hr) h
        · rw [if_neg hw] at h
          exact ih occ m hrest hskip h

theorem acScan_asc (p : List Str) (hp : p.Nodup) (t : Str) (ac : Automaton) (f : OutputSets)
    (hf : OutputsNodup f) (s : List Int) :
    ∀ (rest : Str) (pos current : Int) (occ m : Occurrences),
      AscBelow (fun w => pos - (w.length : Int) + 1) occ →
      acScan p t ac f s rest pos current occ = some m →
      AscBelow (fun w => pos + (rest.length : Int) - (w.length : Int) + 1) m := by
  intro rest
  induction rest with
  | nil =>
    intro pos current occ m hocc h
    simp [acScan] at h
    subst h
    simpa using hocc
  | cons c rest ih =>
    intro pos current occ m hocc h
    unfold acScan at h
    have hB : ∀ w : Str, pos + 1 + (rest.length : Int) - (w.length : Int) + 1
        = pos + ((c :: rest).length : Int) - (w.length : Int) + 1 := by
      intro w
      simp only [List.length_cons, Nat.cast_add, Nat.cast_one]
      omega
    have hnext : ∀ occ' : Occurrences,
        AscBelow (pendingBound p (fun w => pos - (w.length : Int) + 1) []) occ' →
        AscBelow (fun w => pos + 1 - (w.length : Int) + 1) occ' := by
      intro occ' h'
      refine ascBelow_mono _ _ occ' ?_ h'
      intro w
      rw [pendingBound_nil]
      omega
    cases hfail : acFail ac s c (ac.length + 1) current with
    | none => simp [hfail] at h
    | some cur =>
      rw [hfail] at h
      dsimp only at h
      split at h
      · have := ih _ _ occ m (ascBelow_mono _ _ occ (fun w => by omega) hocc) h
        exact ascBelow_mono _ _ m (fun w => le_of_eq (hB w)) this
      · rename_i l hl
        split at h
        · cases h
        · rename_i occ' hrep
          have h1 := acReport_asc p hp t pos l occ occ' (hf _ l hl)
            (ascBelow_mono _ _ occ (fun w => pendingBound_ge p _ l w) hocc) hrep
          have := ih _ _ occ' m (hnext occ' h1) h
          exact ascBelow_mono _ _ m (fun w => le_of_eq (hB w)) this

theorem sbomReport_asc (p : List Str) (hp : p.Nodup) (t : Str) (pos : Int) :
    ∀ (cands : List Int) (occ m : Occurrences), cands.Nodup →
      AscBelow (pendingBound p (fun _ => pos) cands) occ →
      sbomReport p t pos occ cands = some m →
      AscBelow (pendingBound p (fun _ => pos) []) m := by
  intro cands
  induction cands with
  | nil =>
    intro occ m _ hocc h
    simp [sbomReport] at h
    subst h
    exact hocc
  | cons k rest ih =>
    intro occ m hc hocc h
    have hrest : rest.Nodup := (List.nodup_cons.1 hc).2
    have hskip := ascBelow_mono _ _ occ (pendingBound_skip p (fun _ => pos) k rest) hocc
    unfold sbomReport at h
    cases hk : idx p k with
    | none => simp [hk] at h
    | some w =>
      rw [hk] at h
      dsimp only at h
      cases hg : getWord pos (pos - 1 + (w.length : Int)) t with
      | none => simp [hg] at h
      | some word =>
        rw [hg] at h
        dsimp only at h
        by_cases hw : w = word
        · rw [if_pos hw] at h
          cases hr : record occ w pos with
          | none => simp [hr] at h
          | some occ' =>
            rw [hr] at h
            dsimp only at h
            exact ih occ' m hrest
              (record_ascBelow p (fun _ => pos) k rest occ occ' w hk
                (not_mem_keysOf p hp k rest hc w hk) hocc hr) h
        · rw [if_neg hw] at h
          exact ih occ m hrest hskip h

theorem sbomWindow_asc (p : List Str) (hp : p.Nodup) (t : Str) (lmin : Int) (orc : Automaton)
    (f : OutputSets) (hf : OutputsNodup f) (pos pos' : Int) (occ occ' : Occurrences)
    (hocc : AscBelow (fun _ => pos) occ)
    (h : sbomWindow p t lmin orc f pos occ = some (occ', pos')) :
    AscBelow (fun _ => pos') occ' := by
  have hlt := sbomWindow_pos p t lmin orc f pos pos' occ occ' h
  have hkeep : AscBelow (fun _ => pos') occ := ascBelow_mono _ _ occ (fun _ => by omega) hocc
  unfold sbomWindow at h
  split at h
  · cases h
  · split at h
    · cases h
    · split at h
      · split at h
        · cases h
        · split at h
          · split at h
            · cases h
            · rename_i m hrep
              simp at h
              rw [← h.1]
              have h1 := sbomReport_asc p hp t pos _ occ m (outputOf_nodup f hf _)
                (ascBelow_mono _ _ occ (fun w => pendingBound_ge p _ _ w) hocc) hrep
              refine ascBelow_mono _ _ m ?_ h1
              intro w
              rw [pendingBound_nil]
              omega
          · simp at h
            rw [← h.1]
            exact hkeep
      · simp at h
        rw [← h.1]
        exact hkeep

theorem sbomScan_asc (p : List Str) (hp : p.Nodup) (t : Str) (lmin : Int) (orc : Automaton)
    (f : OutputSets) (hf : OutputsNodup f) :
    ∀ (fuel : Nat) (pos : Int) (occ m : Occurrences), AscBelow (fun _ => pos) occ →
      sbomScan p t lmin orc f fuel pos occ = some m →
      ∀ w l, m.get? w = some l → l.Sorted (fun a b => a < b) := by
  intro fuel
  induction fuel with
  | zero =>
    intro pos occ m _ h
    simp [sbomScan] at h
  | succ fuel ih =>
    intro pos occ m hocc h
    unfold sbomScan at h
    split at h
    · split at h
      · cases h
      · rename_i occ' pos' hwin
        exact ih pos' occ' m (sbomWindow_asc p hp t lmin orc f hf pos pos' occ occ' hocc hwin) h
    · simp at h
      subst h
      exact fun w l hl => (hocc w l hl).1

theorem ascBelow_nil (B : Str → Int) : AscBelow B [] := by
  intro w l h
  simp [GoMap.get?] at h

/-! ## The trie builder never fails -/

theorem getTransition_ne (aut : Automaton) (q : Int) (c : Nat) (h : getTransition q c aut ≠ -1) :
    ∃ tr, aut.get? q = some tr ∧ tr.get? c = some (getTransition q c aut) := by
  unfold getTransition at h ⊢
  split at h
  · exact absurd rfl h
  · split at h
    · exact absurd rfl h
    · rename_i tr htr
      split at h
      · exact absurd rfl h
      · rename_i q' hq'
        refine ⟨tr, htr, ?_⟩
        rw [if_neg (by assumption)]
        simp [htr, hq']

theorem followTrie_valid (st : TrieState) (hinv : TrieInv st) : ∀ (w : Str) (current : Int),
    0 ≤ current → current < st.state →
    0 ≤ (followTrie st.trie current w).1 ∧ (followTrie st.trie current w).1 < st.state := by
  intro w
  induction w with
  | nil =>
    intro current h0 h1
    exact ⟨h0, h1⟩
  | cons c rest ih =>
    intro current h0 h1
    unfold followTrie
    split
    · rename_i hne
      have hne' : getTransition current c st.trie ≠ -1 := by simpa using hne
      obtain ⟨tr, htr, hc⟩ := getTransition_ne _ _ _ hne'
      obtain ⟨h2, h3⟩ := hinv.targets current tr c _ htr hc
      exact ih _ h2 h3
    · exact ⟨h0, h1⟩

theorem setIdx_some {α : Type} (xs : List α) (i : Int) (v : α) (h0 : 0 ≤ i)
    (h1 : i.toNat < xs.length) : setIdx xs i v = some (xs.set i.toNat v) := by
  unfold setIdx
  rw [if_pos ⟨h0, h1⟩]

theorem idx_set_ne {α : Type} (xs : List α) (i j : Int) (v : α) (hi : 0 ≤ i) (hj : 0 ≤ j)
    (hne : i ≠ j) : idx (xs.set i.toNat v) j = idx xs j := by
  unfold idx
  rw [if_pos hj, if_pos hj]
  exact List.getElem?_set_ne (by omega)

theorem idx_append_lt {α : Type} (xs ys : List α) (j : Int) (hj : 0 ≤ j)
    (hlt : j.toNat < xs.length) : idx (xs ++ ys) j = idx xs j := by
  unfold idx
  rw [if_pos hj, if_pos hj]
  exact List.getElem?_append_left hlt

theorem GoMap.mem_set {κ ν : Type} [DecidableEq κ] (m : GoMap κ ν) (k : κ) (v : ν) (e : κ × ν)
    (h : e ∈ m.set k v) : e = (k, v) ∨ e ∈ m := by
  induction m with
  | nil =>
    simp [GoMap.set] at h
    exact Or.inl h
  | cons e' m ih =>
    obtain ⟨k', v'⟩ := e'
    by_cases hk : k' = k
    · simp only [GoMap.set, if_pos hk] at h
      rcases List.mem_cons.1 h with h1 | h1
      · exact Or.inl h1
      · exact Or.inr (List.mem_cons_of_mem _ h1)
    · simp only [GoMap.set, if_neg hk] at h
      rcases List.mem_cons.1 h with h1 | h1
      · exact Or.inr (by rw [h1]; exact List.mem_cons_self _ _)
      · rcases ih h1 with h2 | h2
        · exact Or.inl h2
        · exact Or.inr (List.mem_cons_of_mem _ h2)

theorem GoMap.mem_of_get? {κ ν : Type} [DecidableEq κ] (m : GoMap κ ν) (k : κ) (v : ν)
    (h : m.get? k = some v) : (k, v) ∈ m := by
  induction m with
  | nil => simp [GoMap.get?] at h
  | cons e' m ih =>
    obtain ⟨k', v'⟩ := e'
    by_cases hk : k' = k
    · simp only [GoMap.get?, if_pos hk] at h
      simp at h
      subst h
      subst hk
      exact List.mem_cons_self _ _
    · simp only [GoMap.get?, if_neg hk] at h
      exact List.mem_cons_of_mem _ (ih h)

/-- One byte of the second inner loop of `constructTrie` keeps a depth function:
the new state lies one deeper than `current`. -/
theorem extendStep_depth (n : Int) (aut : Automaton) (d : Int → Nat) (hd : DepthInv n aut d)
    (hn : 1 ≤ n) (current : Int) (c : Nat) (tr : GoMap Nat Int) (h0 : 0 ≤ current)
    (h1 : current < n) (htr : aut.get? current = some tr) :
    DepthInv (n + 1) ((createNewState n aut).set current (tr.set c n))
      (Function.update d n (d current + 1)) := by
  have hcn : current ≠ n := by omega
  have hold : ∀ q : Int, q < n → Function.update d n (d current + 1) q = d q := by
    intro q hq
    exact Function.update_noteq (by omega) _ _
  have hnew : Function.update d n (d current + 1) n = d current + 1 := Function.update_same _ _ _
  constructor
  · rw [hold 0 (by omega)]
    exact hd.root
  · intro q hq0 hq1
    by_cases hqn : q = n
    · rw [hqn, hnew]
      omega
    · rw [hold q (by omega)]
      exact hd.nonroot q hq0 (by omega)
  · intro q hq0 hq1
    by_cases hqn : q = n
    · rw [hqn, hnew]
      have := hd.bound current h0 h1
      push_cast
      omega
    · rw [hold q (by omega)]
      exact hd.bound q hq0 (by omega)
  · intro b trs hmem
    rcases GoMap.mem_set _ _ _ _ hmem with h2 | h2
    · simp only [Prod.mk.injEq] at h2
      obtain ⟨hb, htrs⟩ := h2
      subst hb
      subst htrs
      refine ⟨h0, by omega, ?_⟩
      intro c' q' hq'
      rcases GoMap.mem_set _ _ _ _ hq' with h3 | h3
      · simp only [Prod.mk.injEq] at h3
        obtain ⟨_, hq'n⟩ := h3
        subst hq'n
        refine ⟨by omega, by omega, ?_⟩
        rw [hnew, hold b h1]
      · obtain ⟨_, _, he⟩ := hd.edges b tr (GoMap.mem_of_get? _ _ _ htr)
        obtain ⟨hq0, hq1, hdq⟩ := he c' q' h3
        refine ⟨hq0, by omega, ?_⟩
        rw [hold q' hq1, hold b h1]
        exact hdq
    · unfold createNewState at h2
      rcases GoMap.mem_set _ _ _ _ h2 with h3 | h3
      · simp only [Prod.mk.injEq] at h3
        obtain ⟨hb, htrs⟩ := h3
        subst hb
        subst htrs
        refine ⟨by omega, by omega, ?_⟩
        intro c' q' hq'
        cases hq'
      · obtain ⟨hb0, hb1, he⟩ := hd.edges b trs h3
        refine ⟨hb0, by omega, ?_⟩
        intro c' q' hq'
        obtain ⟨hq0, hq1, hdq⟩ := he c' q' hq'
        refine ⟨hq0, by omega, ?_⟩
        rw [hold q' hq1, hold b hb1]
        exact hdq

/-- One byte of the second inner loop of `constructTrie` keeps the trie well formed. -/
theorem extendStep_inv (st : TrieState) (hinv : TrieInv st) (current : Int) (c : Nat)
    (h0 : 0 ≤ current) (h1 : current < st.state) :
    ∃ trie, createTransition current c st.state (createNewState st.state st.trie) = some trie ∧
      setIdx (boolArrayCapUp st.stateIsTerminal) st.state false
        = some ((boolArrayCapUp st.stateIsTerminal).set st.state.toNat false) ∧
      TrieInv { st with trie := trie,
                        stateIsTerminal := (boolArrayCapUp st.stateIsTerminal).set st.state.toNat false,
                        state := st.state + 1 } := by
  obtain ⟨tr, htr⟩ := hinv.keys current h0 h1
  have hlen := hinv.len
  have hpos := hinv.pos
  have hne : current ≠ st.state := by omega
  have hget : GoMap.get? (createNewState st.state st.trie) current = some tr := by
    unfold createNewState
    rw [GoMap.get?_set_ne _ _ _ _ hne, htr]
  refine ⟨(createNewState st.state st.trie).set current (tr.set c st.state), ?_, ?_, ?_⟩
  · unfold createTransition
    rw [hget]
  · apply setIdx_some
    · omega
    · simp [boolArrayCapUp]
      omega
  · constructor
    · simp [boolArrayCapUp]
      omega
    · show 1 ≤ st.state + 1
      omega
    · intro q hq0 hq1
      show ∃ tr', GoMap.get? ((createNewState st.state st.trie).set current (tr.set c st.state)) q
        = some tr'
      by_cases hqc : q = current
      · subst hqc
        exact ⟨_, GoMap.get?_set_eq _ _ _⟩
      · rw [GoMap.get?_set_ne _ _ _ _ hqc]
        unfold createNewState
        by_cases hqs : q = st.state
        · subst hqs
          exact ⟨_, GoMap.get?_set_eq _ _ _⟩
        · rw [GoMap.get?_set_ne _ _ _ _ hqs]
          exact hinv.keys q hq0 (by
            have : q < st.state + 1 := hq1
            omega)
    · intro q tr' c' q' hq hc'
      show 0 ≤ q' ∧ q' < st.state + 1
      have hq : GoMap.get? ((createNewState st.state st.trie).set current (tr.set c st.state)) q
          = some tr' := hq
      by_cases hqc : q = current
      · subst hqc
        rw [GoMap.get?_set_eq] at hq
        simp at hq
        subst hq
        by_cases hcc : c' = c
        · subst hcc
          rw [GoMap.get?_set_eq] at hc'
          simp at hc'
          omega
        · rw [GoMap.get?_set_ne _ _ _ _ hcc] at hc'
          have := hinv.targets q tr c' q' htr hc'
          omega
      · rw [GoMap.get?_set_ne _ _ _ _ hqc] at hq
        unfold createNewState at hq
        by_cases hqs : q = st.state
        · subst hqs
          rw [GoMap.get?_set_eq] at hq
          simp at hq
          subst hq
          simp [GoMap.get?] at hc'
        · rw [GoMap.get?_set_ne _ _ _ _ hqs] at hq
          have := hinv.targets q tr' c' q' hq hc'
          omega
    · intro q tr' hq
      show 0 ≤ q ∧ q < st.state + 1
      have hq : GoMap.get? ((createNewState st.state st.trie).set current (tr.set c st.state)) q
          = some tr' := hq
      by_cases hqc : q = current
      · subst hqc
        omega
      · rw [GoMap.get?_set_ne _ _ _ _ hqc] at hq
        unfold createNewState at hq
        by_cases hqs : q = st.state
        · subst hqs
          omega
        · rw [GoMap.get?_set_ne _ _ _ _ hqs] at hq
          have := hinv.keysOnly q tr' hq
          omega
    · show ((GoMap.set (createNewState st.state st.trie) current (tr.set c st.state)).length : Int)
        = st.state + 1
      rw [GoMap.length_set_of_some _ _ _ _ hget]
      unfold createNewState
      have hnone : GoMap.get? st.trie st.state = none := by
        cases hg : GoMap.get? st.trie st.state with
        | none => rfl
        | some tr0 =>
          have := hinv.keysOnly _ tr0 hg
          omega
      rw [GoMap.length_set_of_none _ _ _ hnone]
      have := hinv.size
      push_cast
      omega
    · obtain ⟨d, hd⟩ := hinv.depth
      exact ⟨_, extendStep_depth st.state st.trie d hd hinv.pos current c tr h0 h1 htr⟩

theorem extendTrie_total : ∀ (w : Str) (st : TrieState) (current : Int), TrieInv st →
    0 ≤ current → current < st.state →
    ∃ st' current', extendTrie st current w = some (st', current') ∧ TrieInv st' ∧
      0 ≤ current' ∧ current' < st'.state ∧
      idx st'.stateIsTerminal 0 = idx st.stateIsTerminal 0 := by
  intro w
  induction w with
  | nil =>
    intro st current hinv h0 h1
    exact ⟨st, current, rfl, hinv, h0, h1, rfl⟩
  | cons c rest ih =>
    intro st current hinv h0 h1
    obtain ⟨trie, hct, hset, hinv'⟩ := extendStep_inv st hinv current c h0 h1
    have hpos := hinv.pos
    have hlen := hinv.len
    obtain ⟨st', current', hext, hinv'', h0', h1', hroot⟩ :=
      ih _ st.state hinv' (by omega) (by show st.state < st.state + 1; omega)
    refine ⟨st', current', ?_, hinv'', h0', h1', ?_⟩
    · unfold extendTrie
      dsimp only
      rw [hset]
      dsimp only
      rw [hct]
      exact hext
    · rw [hroot]
      show idx ((boolArrayCapUp st.stateIsTerminal).set st.state.toNat false) 0 = _
      rw [idx_set_ne _ _ _ _ (by omega) (by omega) (by omega)]
      unfold boolArrayCapUp
      exact idx_append_lt _ _ 0 (by omega) (by
        have : 0 < st.stateIsTerminal.length := by omega
        simpa using this)

theorem idx_set_eq {α : Type} (xs : List α) (i : Int) (v : α) (hi : 0 ≤ i)
    (hlt : i.toNat < xs.length) : idx (xs.set i.toNat v) i = some v := by
  unfold idx
  rw [if_pos hi]
  simp [hlt]

theorem idx_isSome {α : Type} (xs : List α) (i : Int) (hi : 0 ≤ i) (hlt : i.toNat < xs.length) :
    ∃ x, idx xs i = some x := by
  unfold idx
  rw [if_pos hi]
  exact ⟨xs[i.toNat], List.getElem?_eq_getElem hlt⟩

theorem outputOf_set_eq (f : OutputSets) (q : Int) (l : List Int) : outputOf (f.set q l) q = l := by
  unfold outputOf
  rw [GoMap.get?_set_eq]
  rfl

theorem outputOf_set_ne (f : OutputSets) (q q' : Int) (l : List Int) (h : q' ≠ q) :
    outputOf (f.set q l) q' = outputOf f q' := by
  unfold outputOf
  rw [GoMap.get?_set_ne _ _ _ _ h]

/-- One round of the outer loop of `constructTrie` succeeds, keeps the trie
well formed and keeps what the root already puts out. -/
theorem insertPattern_total (st : TrieState) (i : Int) (w : Str) (hinv : TrieInv st) :
    ∃ st', insertPattern st i w = some st' ∧ TrieInv st' ∧
      ∀ j, RootOutput j st → RootOutput j st' := by
  have hpos := hinv.pos
  obtain ⟨hf0, hf1⟩ := followTrie_valid st hinv w 0 (by omega) (by omega)
  rcases hfw : followTrie st.trie 0 w with ⟨current, rest⟩
  rw [hfw] at hf0 hf1
  obtain ⟨st1, cur1, hext, hinv1, h0, h1, hroot⟩ := extendTrie_total rest st current hinv hf0 hf1
  have hfeq : st1.f = st.f := extendTrie_f _ _ _ _ _ hext
  have hlen1 := hinv1.len
  have hlt : cur1.toNat < st1.stateIsTerminal.length := by omega
  obtain ⟨b, hb⟩ := idx_isSome st1.stateIsTerminal cur1 h0 hlt
  cases b with
  | true =>
    refine ⟨{ st1 with f := st1.f.set cur1 (outputOf st1.f cur1 ++ [i]) }, ?_, ?_, ?_⟩
    · unfold insertPattern
      rw [hfw]
      dsimp only
      rw [hext]
      dsimp only
      rw [hb]
      dsimp only
      rw [setLast_capUp]
    · exact ⟨hinv1.len, hinv1.pos, hinv1.keys, hinv1.targets, hinv1.keysOnly, hinv1.size,
        hinv1.depth⟩
    · intro j hj
      obtain ⟨hj1, hj2⟩ := hj
      refine ⟨by show idx st1.stateIsTerminal 0 = some true; rw [hroot]; exact hj1, ?_⟩
      show j ∈ outputOf (st1.f.set cur1 (outputOf st1.f cur1 ++ [i])) 0
      by_cases hc : (0 : Int) = cur1
      · subst hc
        rw [outputOf_set_eq, hfeq]
        exact List.mem_append_left _ hj2
      · rw [outputOf_set_ne _ _ _ _ hc, hfeq]
        exact hj2
  | false =>
    refine ⟨{ st1 with stateIsTerminal := st1.stateIsTerminal.set cur1.toNat true,
                       f := st1.f.set cur1 [i] }, ?_, ?_, ?_⟩
    · unfold insertPattern
      rw [hfw]
      dsimp only
      rw [hext]
      dsimp only
      rw [hb]
      dsimp only
      rw [setIdx_some _ _ _ h0 hlt]
    · refine ⟨?_, hinv1.pos, hinv1.keys, hinv1.targets, hinv1.keysOnly, hinv1.size, hinv1.depth⟩
      show ((st1.stateIsTerminal.set cur1.toNat true).length : Int) = st1.state
      simpa using hinv1.len
    · intro j hj
      obtain ⟨hj1, hj2⟩ := hj
      have hc : (0 : Int) ≠ cur1 := by
        intro hc
        subst hc
        rw [hroot, hj1] at hb
        cases hb
      refine ⟨?_, ?_⟩
      · show idx (st1.stateIsTerminal.set cur1.toNat true) 0 = some true
        rw [idx_set_ne _ _ _ _ h0 (by omega) (fun h => hc h.symm), hroot]
        exact hj1
      · show j ∈ outputOf (st1.f.set cur1 [i]) 0
        rw [outputOf_set_ne _ _ _ _ hc, hfeq]
        exact hj2

/-- A zero-length pattern of index `i` ends in the root: the root becomes
terminal and `i` enters its output set. -/
theorem insertPattern_nil (st st' : TrieState) (i : Int) (hinv : TrieInv st)
    (h : insertPattern st i [] = some st') : RootOutput i st' := by
  have hpos := hinv.pos
  have hlen := hinv.len
  have hlt : (0 : Int).toNat < st.stateIsTerminal.length := by
    have : 0 < st.stateIsTerminal.length := by omega
    simpa using this
  unfold insertPattern at h
  simp only [followTrie, extendTrie] at h
  split at h
  · cases h
  · rename_i hb
    rw [setLast_capUp] at h
    simp at h
    subst h
    exact ⟨hb, by show i ∈ outputOf (st.f.set 0 (outputOf st.f 0 ++ [i])) 0; rw [outputOf_set_eq]; simp⟩
  · rw [setIdx_some _ _ _ (by omega) hlt] at h
    simp at h
    subst h
    refine ⟨?_, ?_⟩
    · show idx (st.stateIsTerminal.set (0 : Int).toNat true) 0 = some true
      exact idx_set_eq _ _ _ (by omega) hlt
    · show i ∈ outputOf (st.f.set 0 [i]) 0
      rw [outputOf_set_eq]
      simp

theorem insertAll_total : ∀ (ws : List Str) (st : TrieState) (i : Int), TrieInv st →
    ∃ st', insertAll st i ws = some st' ∧ TrieInv st' ∧ ∀ j, RootOutput j st → RootOutput j st' := by
  intro ws
  induction ws with
  | nil =>
    intro st i hinv
    exact ⟨st, rfl, hinv, fun _ h => h⟩
  | cons w rest ih =>
    intro st i hinv
    obtain ⟨st1, h1, hinv1, hroot1⟩ := insertPattern_total st i w hinv
    obtain ⟨st2, h2, hinv2, hroot2⟩ := ih st1 (i + 1) hinv1
    refine ⟨st2, ?_, hinv2, fun j hj => hroot2 j (hroot1 j hj)⟩
    unfold insertAll
    rw [h1]
    exact h2

theorem insertAll_append : ∀ (ws vs : List Str) (st : TrieState) (i : Int),
    insertAll st i (ws ++ vs) =
      match insertAll st i ws with
      | none => none
      | some st' => insertAll st' (i + (ws.length : Int)) vs := by
  intro ws
  induction ws with
  | nil =>
    intro vs st i
    simp [insertAll]
  | cons w rest ih =>
    intro vs st i
    simp only [List.cons_append, insertAll]
    cases insertPattern st i w with
    | none => rfl
    | some st1 =>
      have : i + 1 + (rest.length : Int) = i + ((w :: rest).length : Int) := by
        simp only [List.length_cons, Nat.cast_add, Nat.cast_one]
        omega
      show insertAll st1 (i + 1) (rest ++ vs) = _
      rw [ih, this]

theorem trieInv_init :
    TrieInv { trie := createNewState 0 [], stateIsTerminal := [false], f := [], state := 1 } := by
  constructor
  · rfl
  · show (1 : Int) ≤ 1
    omega
  · intro q h0 h1
    have h1 : q < 1 := h1
    have : q = 0 := by omega
    subst this
    exact ⟨[], by simp [createNewState, GoMap.set, GoMap.get?]⟩
  · intro q tr c q' hq hc
    have hq : GoMap.get? (createNewState 0 []) q = some tr := hq
    simp only [createNewState, GoMap.set, GoMap.get?] at hq
    split at hq
    · simp at hq
      subst hq
      simp [GoMap.get?] at hc
    · cases hq
  · intro q tr hq
    have hq : GoMap.get? (createNewState 0 []) q = some tr := hq
    simp only [createNewState, GoMap.set, GoMap.get?] at hq
    split at hq
    · rename_i h0
      show 0 ≤ q ∧ q < 1
      omega
    · cases hq
  · rfl
  · refine ⟨fun _ => 0, rfl, ?_, ?_, ?_⟩
    · intro q hq0 hq1
      have hq1 : q < 1 := hq1
      omega
    · intro q hq0 hq1
      have hq1 : q < 1 := hq1
      simp
      omega
    · intro b trs hmem
      have hmem : (b, trs) ∈ createNewState 0 [] := hmem
      simp only [createNewState, GoMap.set, List.mem_singleton, Prod.mk.injEq] at hmem
      obtain ⟨hb, htrs⟩ := hmem
      subst hb
      subst htrs
      refine ⟨by omega, by show (0 : Int) < 1; omega, ?_⟩
      intro c q' hq'
      cases hq'

/-! ## The oracle builder never fails -/

theorem autInv_of_trieInv (st : TrieState) (h : TrieInv st) : AutInv st.state st.trie :=
  ⟨h.size, h.pos, h.keys, h.keysOnly, h.targets⟩

theorem stateExists_iff (n : Int) (aut : Automaton) (h : AutInv n aut) (q : Int) :
    stateExists q aut = true ↔ 0 ≤ q ∧ q < n := by
  unfold stateExists
  constructor
  · intro hq
    split at hq
    · cases hq
    · rename_i tr htr
      exact h.keysOnly q tr htr
  · intro hq
    obtain ⟨tr, htr⟩ := h.keys q hq.1 hq.2
    rw [htr]
    have : ¬ q = -1 := by omega
    simp [this]

theorem getTransition_range (n : Int) (aut : Automaton) (h : AutInv n aut) (q : Int) (c : Nat) :
    getTransition q c aut = -1 ∨ (0 ≤ getTransition q c aut ∧ getTransition q c aut < n) := by
  by_cases hne : getTransition q c aut = -1
  · exact Or.inl hne
  · obtain ⟨tr, htr, hc⟩ := getTransition_ne aut q c hne
    exact Or.inr (h.targets q tr c _ htr hc)

theorem getTransition_of_get (n : Int) (aut : Automaton) (h : AutInv n aut) (q : Int)
    (tr : GoMap Nat Int) (c : Nat) (htr : aut.get? q = some tr) :
    getTransition q c aut = (tr.get? c).getD (-1) := by
  have hq := h.keysOnly q tr htr
  have hex := (stateExists_iff n aut h q).2 hq
  unfold getTransition
  rw [hex, htr]
  cases hc : tr.get? c <;> simp [hc]

theorem getTransition_of_none (aut : Automaton) (q : Int) (c : Nat) (htr : aut.get? q = none) :
    getTransition q c aut = -1 := by
  unfold getTransition stateExists
  rw [htr]
  rfl

/-- A new transition in a well-formed automaton: the write succeeds, the
automaton stays well formed and only the transition written changes. -/
theorem createTransition_inv (n : Int) (aut : Automaton) (h : AutInv n aut) (down current : Int)
    (o : Nat) (hd0 : 0 ≤ down) (hd1 : down < n) (hc0 : 0 ≤ current) (hc1 : current < n) :
    ∃ aut', createTransition down o current aut = some aut' ∧ AutInv n aut' ∧
      getTransition down o aut' = current ∧
      ∀ q, q ≠ down → getTransition q o aut' = getTransition q o aut := by
  obtain ⟨tr, htr⟩ := h.keys down hd0 hd1
  have hinv : AutInv n (aut.set down (tr.set o current)) := by
    constructor
    · rw [GoMap.length_set_of_some _ _ _ _ htr]
      exact h.size
    · exact h.pos
    · intro q hq0 hq1
      by_cases hqd : q = down
      · subst hqd
        exact ⟨_, GoMap.get?_set_eq _ _ _⟩
      · rw [GoMap.get?_set_ne _ _ _ _ hqd]
        exact h.keys q hq0 hq1
    · intro q tr' hq
      by_cases hqd : q = down
      · subst hqd
        exact ⟨hd0, hd1⟩
      · rw [GoMap.get?_set_ne _ _ _ _ hqd] at hq
        exact h.keysOnly q tr' hq
    · intro q tr' c q' hq hc
      by_cases hqd : q = down
      · subst hqd
        rw [GoMap.get?_set_eq] at hq
        simp at hq
        subst hq
        by_cases hco : c = o
        · subst hco
          rw [GoMap.get?_set_eq] at hc
          simp at hc
          omega
        · rw [GoMap.get?_set_ne _ _ _ _ hco] at hc
          exact h.targets q tr c q' htr hc
      · rw [GoMap.get?_set_ne _ _ _ _ hqd] at hq
        exact h.targets q tr' c q' hq hc
  refine ⟨aut.set down (tr.set o current), ?_, hinv, ?_, ?_⟩
  · unfold createTransition
    rw [htr]
  · rw [getTransition_of_get n _ hinv down _ o (GoMap.get?_set_eq _ _ _), GoMap.get?_set_eq]
    rfl
  · intro q hq
    cases hg : GoMap.get? aut q with
    | none =>
      rw [getTransition_of_none aut q o hg, getTransition_of_none]
      rw [GoMap.get?_set_ne _ _ _ _ hq]
      exact hg
    | some tr' =>
      rw [getTransition_of_get n aut h q tr' o hg,
        getTransition_of_get n _ hinv q tr' o (by rw [GoMap.get?_set_ne _ _ _ _ hq]; exact hg)]

theorem countP_lt_of_imp {α : Type} (p p' : α → Bool) : ∀ (l : List α) (a : α),
    (∀ x ∈ l, p' x = true → p x = true) → a ∈ l → p a = true → p' a = false →
    l.countP p' < l.countP p := by
  intro l
  induction l with
  | nil =>
    intro a _ ha
    cases ha
  | cons x rest ih =>
    intro a himp ha hpa hp'a
    have hle : rest.countP p' ≤ rest.countP p :=
      List.countP_mono_left (fun y hy => himp y (List.mem_cons_of_mem _ hy))
    rcases List.mem_cons.1 ha with h1 | h1
    · subst h1
      rw [List.countP_cons_of_pos _ _ hpa, List.countP_cons_of_neg _ _ (by simp [hp'a])]
      omega
    · have hlt := ih a (fun y hy => himp y (List.mem_cons_of_mem _ hy)) h1 hpa hp'a
      by_cases hx' : p' x = true
      · rw [List.countP_cons_of_pos _ _ hx', List.countP_cons_of_pos _ _ (himp x (List.mem_cons_self _ _) hx')]
        omega
      · rw [List.countP_cons_of_neg _ _ hx']
        by_cases hx : p x = true
        · rw [List.countP_cons_of_pos _ _ hx]
          omega
        · rw [List.countP_cons_of_neg _ _ hx]
          exact hlt

theorem lacking_le (aut : Automaton) (o : Nat) : lacking aut o ≤ aut.length := by
  unfold lacking
  have := @List.countP_le_length _ (fun (q : Nat) => getTransition (q : Int) o aut == -1)
    (List.range aut.length)
  simpa using this

theorem lacking_lt (n : Int) (aut aut' : Automaton) (h : AutInv n aut) (h' : AutInv n aut')
    (down current : Int) (o : Nat) (hd0 : 0 ≤ down) (hd1 : down < n) (hc : current ≠ -1)
    (hlack : getTransition down o aut = -1) (hnew : getTransition down o aut' = current)
    (hsame : ∀ q, q ≠ down → getTransition q o aut' = getTransition q o aut) :
    lacking aut' o < lacking aut o := by
  unfold lacking
  have hlen : aut'.length = aut.length := by
    have h1 := h.size
    have h2 := h'.size
    omega
  rw [hlen]
  refine countP_lt_of_imp _ _ (List.range aut.length) down.toNat ?_ ?_ ?_ ?_
  · intro x _ hx
    by_cases hxd : (x : Int) = down
    · rw [hxd, hnew] at hx
      simp at hx
      exact absurd hx hc
    · rw [hsame _ hxd] at hx
      exact hx
  · rw [List.mem_range]
    have := h.size
    omega
  · have : ((down.toNat : Nat) : Int) = down := by omega
    rw [this, hlack]
    rfl
  · have : ((down.toNat : Nat) : Int) = down := by omega
    rw [this, hnew]
    simpa using hc

theorem oracleDown_total (n : Int) (s : List Int) (hs : SupplyInv n s) (o : Nat) (current : Int)
    (hc0 : 1 ≤ current) (hc1 : current < n) :
    ∀ (fuel : Nat) (orc : Automaton) (down : Int), AutInv n orc → -1 ≤ down → down < n →
      lacking orc o < fuel →
      ∃ orc' down', oracleDown s o current fuel orc down = some (orc', down') ∧ AutInv n orc' ∧
        -1 ≤ down' ∧ down' < n := by
  intro fuel
  induction fuel with
  | zero =>
    intro orc down _ _ _ hl
    omega
  | succ fuel ih =>
    intro orc down hinv hd0 hd1 hl
    unfold oracleDown
    by_cases hcond : (stateExists down orc && getTransition down o orc == -1) = true
    · rw [if_pos hcond]
      simp only [Bool.and_eq_true, beq_iff_eq] at hcond
      obtain ⟨hex, hlack⟩ := hcond
      obtain ⟨hd0', hd1'⟩ := (stateExists_iff n orc hinv down).1 hex
      obtain ⟨orc', hct, hinv', hnew, hsame⟩ :=
        createTransition_inv n orc hinv down current o hd0' hd1' (by omega) hc1
      rw [hct]
      dsimp only
      have hlt : down.toNat < s.length := by
        have := hs.1
        omega
      obtain ⟨x, hx⟩ := idx_isSome s down hd0' hlt
      rw [hx]
      dsimp only
      obtain ⟨hx0, hx1⟩ := hs.2 down x hx
      have hdec := lacking_lt n orc orc' hinv hinv' down current o hd0' hd1' (by omega)
        hlack hnew hsame
      exact ih orc' x hinv' hx0 hx1 (by omega)
    · rw [if_neg hcond]
      exact ⟨orc, down, rfl, hinv, hd0, hd1⟩

theorem GoMap.get?_of_mem {κ ν : Type} [DecidableEq κ] (m : GoMap κ ν) (e : κ × ν) (h : e ∈ m) :
    ∃ v, m.get? e.1 = some v := by
  induction m with
  | nil => cases h
  | cons e' m ih =>
    obtain ⟨k', v'⟩ := e'
    by_cases hk : k' = e.1
    · exact ⟨v', by simp [GoMap.get?, hk]⟩
    · rcases List.mem_cons.1 h with h1 | h1
      · subst h1
        exact absurd rfl hk
      · obtain ⟨v, hv⟩ := ih h1
        exact ⟨v, by simp [GoMap.get?, hk, hv]⟩

theorem getParent_mem (q : Int) : ∀ (aut : Automaton),
    (getParent q aut).2 = 0 ∨ ∃ e ∈ aut, e.1 = (getParent q aut).2 := by
  intro aut
  induction aut with
  | nil => exact Or.inl rfl
  | cons e rest ih =>
    obtain ⟨b, trs⟩ := e
    unfold getParent
    split
    · exact Or.inr ⟨(b, trs), List.mem_cons_self _ _, rfl⟩
    · rcases ih with h | ⟨e', he', h⟩
      · exact Or.inl h
      · exact Or.inr ⟨e', List.mem_cons_of_mem _ he', h⟩

theorem getParent_range (n : Int) (aut : Automaton) (h : AutInv n aut) (q : Int) :
    0 ≤ (getParent q aut).2 ∧ (getParent q aut).2 < n := by
  rcases getParent_mem q aut with h0 | ⟨e, he, heq⟩
  · rw [h0]
    have := h.pos
    omega
  · obtain ⟨v, hv⟩ := GoMap.get?_of_mem aut e he
    rw [← heq]
    exact h.keysOnly e.1 v hv

theorem supplyInv_set (n : Int) (s : List Int) (hs : SupplyInv n s) (q v : Int) (hq0 : 0 ≤ q)
    (hq1 : q < n) (hv0 : -1 ≤ v) (hv1 : v < n) :
    setIdx s q v = some (s.set q.toNat v) ∧ SupplyInv n (s.set q.toNat v) := by
  have hlen := hs.1
  have hlt : q.toNat < s.length := by omega
  refine ⟨setIdx_some s q v hq0 hlt, by simpa using hlen, ?_⟩
  intro q' x hx
  by_cases hqq : q' = q
  · subst hqq
    rw [idx_set_eq s q' v hq0 hlt] at hx
    simp at hx
    subst hx
    exact ⟨hv0, hv1⟩
  · have hq'0 : 0 ≤ q' := (idx_lt _ _ _ hx).1
    rw [idx_set_ne s q q' v hq0 hq'0 (fun h => hqq h.symm)] at hx
    exact hs.2 q' x hx

theorem oracleStep_total (n : Int) (orc : Automaton) (s : List Int) (hinv : AutInv n orc)
    (hs : SupplyInv n s) (current : Int) (hc0 : 1 ≤ current) (hc1 : current < n) :
    ∃ orc' s', oracleStep (orc, s) current = some (orc', s') ∧ AutInv n orc' ∧ SupplyInv n s' := by
  unfold oracleStep
  rcases hgp : getParent current orc with ⟨o, parent⟩
  have hpr := getParent_range n orc hinv current
  rw [hgp] at hpr
  dsimp only at hpr ⊢
  have hlen := hs.1
  obtain ⟨down, hdown⟩ := idx_isSome s parent hpr.1 (by omega)
  rw [hdown]
  dsimp only
  obtain ⟨hd0, hd1⟩ := hs.2 parent down hdown
  have hfuel : lacking orc o < orc.length + 1 := by
    have := lacking_le orc o
    omega
  obtain ⟨orc', down', hod, hinv', hd0', hd1'⟩ :=
    oracleDown_total n s hs o current hc0 hc1 (orc.length + 1) orc down hinv hd0 hd1 hfuel
  rw [hod]
  dsimp only
  split
  · have hv : -1 ≤ getTransition down' o orc' ∧ getTransition down' o orc' < n := by
      rcases getTransition_range n orc' hinv' down' o with h | h
      · rw [h]
        have := hinv.pos
        omega
      · omega
    obtain ⟨hset, hs'⟩ := supplyInv_set n s hs current _ (by omega) hc1 hv.1 hv.2
    rw [hset]
    exact ⟨orc', _, rfl, hinv', hs'⟩
  · have hpos := hinv.pos
    obtain ⟨hset, hs'⟩ := supplyInv_set n s hs current 0 (by omega) hc1 (by omega) (by omega)
    rw [hset]
    exact ⟨orc', _, rfl, hinv', hs'⟩

theorem oracleLoop_total (n : Int) : ∀ (k : Nat) (orc : Automaton) (s : List Int) (current : Int),
    AutInv n orc → SupplyInv n s → 1 ≤ current → current + (k : Int) = n →
    ∃ orc' s', oracleLoop k (orc, s) current = some (orc', s') ∧ AutInv n orc' ∧ SupplyInv n s' := by
  intro k
  induction k with
  | zero =>
    intro orc s current hinv hs _ _
    exact ⟨orc, s, rfl, hinv, hs⟩
  | succ k ih =>
    intro orc s current hinv hs hc hk
    obtain ⟨orc1, s1, hstep, hinv1, hs1⟩ :=
      oracleStep_total n orc s hinv hs current hc (by push_cast at hk; omega)
    obtain ⟨orc2, s2, hloop, hinv2, hs2⟩ :=
      ih orc1 s1 (current + 1) hinv1 hs1 (by omega) (by push_cast at hk; omega)
    refine ⟨orc2, s2, ?_, hinv2, hs2⟩
    unfold oracleLoop
    rw [hstep]
    exact hloop

theorem supplyInv_init (n : Nat) (hn : 1 ≤ n) :
    setIdx (List.replicate n (0 : Int)) 0 (-1) = some ((List.replicate n (0 : Int)).set 0 (-1)) ∧
    SupplyInv (n : Int) ((List.replicate n (0 : Int)).set 0 (-1)) := by
  have hrep : SupplyInv (n : Int) (List.replicate n (0 : Int)) := by
    refine ⟨by simp, ?_⟩
    intro q x hx
    have := List.eq_of_mem_replicate (idx_mem _ _ _ hx)
    omega
  have := supplyInv_set (n : Int) _ hrep 0 (-1) (by omega) (by omega) (by omega) (by omega)
  simpa using this

/-- The oracle builder returns for every pattern list. -/
theorem buildOracleSupply_total (p : List Str) : ∃ r, buildOracleSupply p = some r := by
  obtain ⟨t, ht, hinv, _⟩ := insertAll_total p _ 0 trieInv_init
  have hlen := hinv.len
  have hpos := hinv.pos
  have haut := autInv_of_trieInv t hinv
  obtain ⟨hset, hs⟩ := supplyInv_init t.stateIsTerminal.length (by omega)
  rw [hlen] at hs
  obtain ⟨orc, s, hloop, _, _⟩ := oracleLoop_total t.state (t.stateIsTerminal.length - 1) t.trie _ 1
    haut hs (by omega) (by omega)
  refine ⟨(orc, t.f, s), ?_⟩
  unfold buildOracleSupply
  have hct : constructTrie p = some t := ht
  rw [hct]
  dsimp only
  rw [hset]
  dsimp only
  rw [hloop]

theorem buildOracleMultiple_total (p : List Str) : ∃ r, buildOracleMultiple p = some r := by
  obtain ⟨⟨orc, f, s⟩, h⟩ := buildOracleSupply_total p
  exact ⟨(orc, f), by unfold buildOracleMultiple; rw [h]⟩

/-! ## The Aho-Corasick builder never fails -/

theorem getParent_spec (q : Int) : ∀ (aut : Automaton),
    getParent q aut = (0, 0) ∨
      ∃ trs, ((getParent q aut).2, trs) ∈ aut ∧ ((getParent q aut).1, q) ∈ trs := by
  intro aut
  induction aut with
  | nil => exact Or.inl rfl
  | cons e rest ih =>
    obtain ⟨b, trs⟩ := e
    unfold getParent
    split
    · rename_i ce hce
      have hp := List.find?_some hce
      have hm := List.mem_of_find?_eq_some hce
      have hq : ce.2 = q := by simpa using hp
      refine Or.inr ⟨trs, List.mem_cons_self _ _, ?_⟩
      dsimp only
      rw [← hq]
      exact hm
    · rcases ih with h | ⟨trs', h1, h2⟩
      · exact Or.inl h
      · exact Or.inr ⟨trs', List.mem_cons_of_mem _ h1, h2⟩

theorem arrayUnion_total : ∀ (src dst : List Int), ∃ u, arrayUnion dst src = some u := by
  intro src
  induction src with
  | nil => exact fun dst => ⟨dst, rfl⟩
  | cons x rest ih =>
    intro dst
    unfold arrayUnion
    split
    · rw [setLast_capUp]
      exact ih _
    · exact ih _

theorem acSupply_set (n : Int) (d : Int → Nat) (s : List Int) (hs : AcSupply n d s) (q v : Int)
    (hq0 : 1 ≤ q) (hq1 : q < n) (hv0 : 0 ≤ v) (hv1 : v < n) (hd : d v < d q) :
    setIdx s q v = some (s.set q.toNat v) ∧ AcSupply n d (s.set q.toNat v) ∧
      idx (s.set q.toNat v) q = some v := by
  obtain ⟨hlen, hroot, hrest⟩ := hs
  have hlt : q.toNat < s.length := by omega
  refine ⟨setIdx_some s q v (by omega) hlt, ⟨by simpa using hlen, ?_, ?_⟩,
    idx_set_eq s q v (by omega) hlt⟩
  · rw [idx_set_ne s q 0 v (by omega) (by omega) (by omega)]
    exact hroot
  · intro q' x hq' hx
    by_cases hqq : q' = q
    · subst hqq
      rw [idx_set_eq s q' v (by omega) hlt] at hx
      simp at hx
      subst hx
      exact ⟨hv0, hv1, hd⟩
    · rw [idx_set_ne s q q' v (by omega) (by omega) (fun h => hqq h.symm)] at hx
      exact hrest q' x hq' hx

theorem acDown_total (n : Int) (aut : Automaton) (hinv : AutInv n aut) (d : Int → Nat)
    (s : List Int) (hs : AcSupply n d s) (o : Nat) :
    ∀ (fuel : Nat) (down : Int),
      ((down = -1 ∧ 1 ≤ fuel) ∨ (0 ≤ down ∧ down < n ∧ d down + 2 ≤ fuel)) →
      ∃ down', acDown aut s o fuel down = some down' ∧
        (down' = -1 ∨ (0 ≤ down' ∧ down' < n ∧ d down' ≤ d down ∧
          getTransition down' o aut ≠ -1 ∧ 0 ≤ down)) := by
  intro fuel
  induction fuel with
  | zero =>
    intro down h
    omega
  | succ fuel ih =>
    intro down h
    unfold acDown
    by_cases hcond : (stateExists down aut && getTransition down o aut == -1) = true
    · rw [if_pos hcond]
      simp only [Bool.and_eq_true, beq_iff_eq] at hcond
      obtain ⟨hex, _⟩ := hcond
      obtain ⟨hd0, hd1⟩ := (stateExists_iff n aut hinv down).1 hex
      have hfuel : d down + 2 ≤ fuel + 1 := by
        rcases h with h | h
        · omega
        · exact h.2.2
      have hlen := hs.1
      obtain ⟨x, hx⟩ := idx_isSome s down hd0 (by omega)
      rw [hx]
      dsimp only
      by_cases hroot : down = 0
      · subst hroot
        rw [hs.2.1] at hx
        simp at hx
        subst hx
        obtain ⟨down', h1, h2⟩ := ih (-1) (Or.inl ⟨rfl, by omega⟩)
        refine ⟨down', h1, ?_⟩
        rcases h2 with h2 | h2
        · exact Or.inl h2
        · omega
      · obtain ⟨hx0, hx1, hdx⟩ := hs.2.2 down x (by omega) hx
        obtain ⟨down', h1, h2⟩ := ih x (Or.inr ⟨hx0, hx1, by omega⟩)
        refine ⟨down', h1, ?_⟩
        rcases h2 with h2 | h2
        · exact Or.inl h2
        · exact Or.inr ⟨h2.1, h2.2.1, by omega, h2.2.2.2.1, hd0⟩
    · rw [if_neg hcond]
      refine ⟨down, rfl, ?_⟩
      rcases h with h | h
      · exact Or.inl h.1
      · have hex := (stateExists_iff n aut hinv down).2 ⟨h.1, h.2.1⟩
        refine Or.inr ⟨h.1, h.2.1, le_refl _, ?_, h.1⟩
        intro hlack
        apply hcond
        simp [hex, hlack]

/-- One round of the loop of `buildAc` succeeds and keeps the supply array
well formed. -/
theorem acStep_total (n : Int) (aut : Automaton) (hinv : AutInv n aut) (d : Int → Nat)
    (hd : DepthInv n aut d) (st : AcState) (hlen : (st.stateIsTerminal.length : Int) = n)
    (hs : AcSupply n d st.s) (current : Int) (hc0 : 1 ≤ current) (hc1 : current < n) :
    ∃ st', acStep aut st current = some st' ∧ (st'.stateIsTerminal.length : Int) = n ∧
      AcSupply n d st'.s := by
  unfold acStep
  have hgs := getParent_spec current aut
  have hpr := getParent_range n aut hinv current
  rcases hgp : getParent current aut with ⟨o, parent⟩
  rw [hgp] at hgs hpr
  dsimp only at hgs hpr ⊢
  have hslen := hs.1
  obtain ⟨down0, hdown0⟩ := idx_isSome st.s parent hpr.1 (by omega)
  rw [hdown0]
  dsimp only
  have hstart : (down0 = -1 ∧ 1 ≤ aut.length + 1) ∨
      (0 ≤ down0 ∧ down0 < n ∧ d down0 + 2 ≤ aut.length + 1) := by
    by_cases hp : parent = 0
    · subst hp
      rw [hs.2.1] at hdown0
      simp at hdown0
      exact Or.inl ⟨hdown0.symm, by omega⟩
    · obtain ⟨h1, h2, _⟩ := hs.2.2 parent down0 (by omega) hdown0
      have := hd.bound down0 h1 h2
      have := hinv.size
      exact Or.inr ⟨h1, h2, by omega⟩
  obtain ⟨down, hdown, hres⟩ := acDown_total n aut hinv d st.s hs o _ down0 hstart
  rw [hdown]
  dsimp only
  by_cases hex : stateExists down aut = true
  · rw [if_pos hex]
    obtain ⟨hd0, hd1⟩ := (stateExists_iff n aut hinv down).1 hex
    obtain ⟨_, _, hle, hne, hdown0nn⟩ : 0 ≤ down ∧ down < n ∧ d down ≤ d down0 ∧
        getTransition down o aut ≠ -1 ∧ 0 ≤ down0 := by
      rcases hres with h | h
      · omega
      · exact h
    obtain ⟨tr, htr, hv⟩ := getTransition_ne aut down o hne
    obtain ⟨hv0, hv1⟩ := hinv.targets down tr o _ htr hv
    have hdv : d (getTransition down o aut) = d down + 1 :=
      ((hd.edges down tr (GoMap.mem_of_get? _ _ _ htr)).2.2 o _ (GoMap.mem_of_get? _ _ _ hv)).2.2
    have hp : parent ≠ 0 := by
      intro hp
      subst hp
      rw [hs.2.1] at hdown0
      simp at hdown0
      omega
    have hdc : d current = d parent + 1 := by
      rcases hgs with h | ⟨trs, h1, h2⟩
      · simp only [Prod.mk.injEq] at h
        exact absurd h.2 hp
      · exact ((hd.edges parent trs h1).2.2 o current h2).2.2
    have hdd : d down0 < d parent := (hs.2.2 parent down0 (by omega) hdown0).2.2
    obtain ⟨hset, hs', hget⟩ := acSupply_set n d st.s hs current (getTransition down o aut)
      hc0 hc1 hv0 hv1 (by omega)
    rw [hset]
    dsimp only
    rw [hget]
    dsimp only
    obtain ⟨b, hb⟩ := idx_isSome st.stateIsTerminal (getTransition down o aut) hv0 (by omega)
    rw [hb]
    cases b with
    | true =>
      dsimp only
      rw [setIdx_some st.stateIsTerminal current true (by omega) (by omega)]
      dsimp only
      obtain ⟨u, hu⟩ := arrayUnion_total (outputOf st.f (getTransition down o aut))
        (outputOf st.f current)
      rw [hu]
      exact ⟨_, rfl, by simpa using hlen, hs'⟩
    | false =>
      exact ⟨_, rfl, hlen, hs'⟩
  · rw [if_neg hex]
    have hpos := hinv.pos
    have hd0 : d 0 < d current := by
      have := hd.nonroot current hc0 hc1
      rw [hd.root]
      omega
    obtain ⟨hset, hs', _⟩ := acSupply_set n d st.s hs current 0 hc0 hc1 (by omega) (by omega) hd0
    rw [hset]
    exact ⟨_, rfl, hlen, hs'⟩

theorem acLoop_total (n : Int) (aut : Automaton) (hinv : AutInv n aut) (d : Int → Nat)
    (hd : DepthInv n aut d) : ∀ (k : Nat) (st : AcState) (current : Int),
    (st.stateIsTerminal.length : Int) = n → AcSupply n d st.s → 1 ≤ current →
    current + (k : Int) = n →
    ∃ st', acLoop aut k st current = some st' ∧ AcSupply n d st'.s := by
  intro k
  induction k with
  | zero =>
    intro st current _ hs _ _
    exact ⟨st, rfl, hs⟩
  | succ k ih =>
    intro st current hlen hs hc hk
    obtain ⟨st1, hstep, hlen1, hs1⟩ :=
      acStep_total n aut hinv d hd st hlen hs current hc (by push_cast at hk; omega)
    obtain ⟨st2, hloop, hs2⟩ := ih st1 (current + 1) hlen1 hs1 (by omega)
      (by push_cast at hk; omega)
    refine ⟨st2, ?_, hs2⟩
    unfold acLoop
    rw [hstep]
    exact hloop

theorem acSupply_init (n : Nat) (hn : 1 ≤ n) (aut : Automaton) (d : Int → Nat)
    (hd : DepthInv (n : Int) aut d) :
    setIdx (List.replicate n (0 : Int)) 0 (-1) = some ((List.replicate n (0 : Int)).set 0 (-1)) ∧
    AcSupply (n : Int) d ((List.replicate n (0 : Int)).set 0 (-1)) := by
  have hlt : (0 : Int).toNat < (List.replicate n (0 : Int)).length := by simpa using hn
  refine ⟨setIdx_some _ 0 (-1) (by omega) hlt, by simp, ?_, ?_⟩
  · exact idx_set_eq (List.replicate n (0 : Int)) 0 (-1) (by omega) hlt
  · intro q x hq hx
    have hq0 : 0 ≤ q := by omega
    have hx' : idx (List.replicate n (0 : Int)) q = some x := by
      rw [← idx_set_ne (List.replicate n (0 : Int)) 0 q (-1) (by omega) hq0 (by omega)]
      exact hx
    have hx0 : x = 0 := List.eq_of_mem_replicate (idx_mem _ _ _ hx')
    have hqlt := (idx_lt _ _ _ hx').2
    simp only [List.length_replicate] at hqlt
    subst hx0
    have := hd.nonroot q hq (by omega)
    rw [hd.root]
    exact ⟨by omega, by omega, by omega⟩

/-- The Aho-Corasick builder returns for every pattern list: no index is out
of range and every walk down the supply links ends. -/
theorem buildAc_total (p : List Str) : ∃ r, buildAc p = some r := by
  obtain ⟨t, ht, hinv, _⟩ := insertAll_total p _ 0 trieInv_init
  have hlen := hinv.len
  have hpos := hinv.pos
  have haut := autInv_of_trieInv t hinv
  obtain ⟨d, hd⟩ := hinv.depth
  rw [← hlen] at hd haut
  obtain ⟨hset, hs⟩ := acSupply_init t.stateIsTerminal.length (by omega) t.trie d hd
  obtain ⟨st, hloop, _⟩ := acLoop_total _ t.trie haut d hd (t.stateIsTerminal.length - 1)
    { stateIsTerminal := t.stateIsTerminal, f := t.f, s := _ } 1 rfl hs (by omega) (by omega)
  refine ⟨(t.trie, st.f, st.s), ?_⟩
  unfold buildAc
  have hct : constructTrie p = some t := ht
  rw [hct]
  dsimp only
  rw [hset]
  dsimp only
  rw [hloop]

/-! ## The trie is a tree -/

theorem GoMap.mem_keys_set {κ ν : Type} [DecidableEq κ] (m : GoMap κ ν) (k : κ) (v : ν) (x : κ)
    (h : x ∈ (m.set k v).map Prod.fst) : x = k ∨ x ∈ m.map Prod.fst := by
  obtain ⟨e, he, hx⟩ := List.mem_map.1 h
  rcases GoMap.mem_set m k v e he with h1 | h1
  · subst h1
    exact Or.inl hx.symm
  · exact Or.inr (List.mem_map.2 ⟨e, h1, hx⟩)

theorem GoMap.keys_set_nodup {κ ν : Type} [DecidableEq κ] (m : GoMap κ ν) (k : κ) (v : ν)
    (h : (m.map Prod.fst).Nodup) : ((m.set k v).map Prod.fst).Nodup := by
  induction m with
  | nil => simp [GoMap.set]
  | cons e m ih =>
    obtain ⟨k', v'⟩ := e
    simp only [List.map_cons, List.nodup_cons] at h
    by_cases hk : k' = k
    · simp only [GoMap.set, if_pos hk, List.map_cons, List.nodup_cons]
      subst hk
      exact h
    · simp only [GoMap.set, if_neg hk, List.map_cons, List.nodup_cons]
      refine ⟨?_, ih h.2⟩
      intro hmem
      rcases GoMap.mem_keys_set m k v k' hmem with h1 | h1
      · exact hk h1
      · exact h.1 h1

theorem GoMap.get?_of_mem_nodup {κ ν : Type} [DecidableEq κ] (m : GoMap κ ν) (k : κ) (v : ν)
    (hn : (m.map Prod.fst).Nodup) (h : (k, v) ∈ m) : m.get? k = some v := by
  induction m with
  | nil => cases h
  | cons e m ih =>
    obtain ⟨k', v'⟩ := e
    simp only [List.map_cons, List.nodup_cons] at hn
    rcases List.mem_cons.1 h with h1 | h1
    · simp only [Prod.mk.injEq] at h1
      obtain ⟨hk, hv⟩ := h1
      subst hk
      subst hv
      simp [GoMap.get?]
    · have hne : k' ≠ k := by
        intro hk
        subst hk
        exact hn.1 (List.mem_map.2 ⟨(k', v), h1, rfl⟩)
      simp only [GoMap.get?, if_neg hne]
      exact ih hn.2 h1

theorem keysNodup_set (aut : Automaton) (h : KeysNodup aut) (b : Int) (trs : GoMap Nat Int)
    (htrs : (trs.map Prod.fst).Nodup) : KeysNodup (aut.set b trs) := by
  refine ⟨GoMap.keys_set_nodup _ _ _ h.1, ?_⟩
  intro b' trs' hmem
  rcases GoMap.mem_set _ _ _ _ hmem with h1 | h1
  · simp only [Prod.mk.injEq] at h1
    rw [h1.2]
    exact htrs
  · exact h.2 b' trs' h1

/-- The transitions after one byte of the second inner loop of `constructTrie`:
the new transition from `current` on `c` to the new state, and the old ones. -/
theorem extendStep_getTransition (n : Int) (aut : Automaton) (h : AutInv n aut) (current : Int)
    (c : Nat) (tr : GoMap Nat Int) (h0 : 0 ≤ current) (h1 : current < n)
    (htr : aut.get? current = some tr) (q : Int) (c' : Nat) :
    getTransition q c' ((createNewState n aut).set current (tr.set c n))
      = if q = current ∧ c' = c then n else getTransition q c' aut := by
  have hpos := h.pos
  have hne : current ≠ n := by omega
  have hnone : GoMap.get? aut n = none := by
    cases hg : GoMap.get? aut n with
    | none => rfl
    | some tr0 =>
      have := h.keysOnly _ tr0 hg
      omega
  have hval : ∀ (tr' : GoMap Nat Int),
      GoMap.get? ((createNewState n aut).set current (tr.set c n)) q = some tr' →
      getTransition q c' ((createNewState n aut).set current (tr.set c n))
        = (tr'.get? c').getD (-1) := by
    intro tr' hq
    unfold getTransition stateExists
    rw [hq]
    have hq1 : ¬ q = -1 := by
      intro hq1
      subst hq1
      by_cases hqc : (-1 : Int) = current
      · omega
      · rw [GoMap.get?_set_ne _ _ _ _ hqc] at hq
        unfold createNewState at hq
        rw [GoMap.get?_set_ne _ _ _ _ (by omega)] at hq
        have := h.keysOnly _ tr' hq
        omega
    cases hc : tr'.get? c' <;> simp [hq1, hc]
  by_cases hqc : q = current
  · subst hqc
    rw [hval _ (GoMap.get?_set_eq _ _ _)]
    by_cases hcc : c' = c
    · subst hcc
      rw [GoMap.get?_set_eq, if_pos ⟨rfl, rfl⟩]
      rfl
    · rw [GoMap.get?_set_ne _ _ _ _ hcc, if_neg (fun hh => hcc hh.2),
        getTransition_of_get n aut h q tr c' htr]
  · rw [if_neg (fun hh => hqc hh.1)]
    by_cases hqn : q = n
    · subst hqn
      rw [hval [] (by
        rw [GoMap.get?_set_ne _ _ _ _ hqc]
        unfold createNewState
        exact GoMap.get?_set_eq _ _ _)]
      rw [getTransition_of_none aut q c' hnone]
      rfl
    · cases hg : GoMap.get? aut q with
      | none =>
        rw [getTransition_of_none aut q c' hg, getTransition_of_none]
        rw [GoMap.get?_set_ne _ _ _ _ hqc]
        unfold createNewState
        rw [GoMap.get?_set_ne _ _ _ _ hqn]
        exact hg
      | some tr' =>
        rw [getTransition_of_get n aut h q tr' c' hg]
        exact hval tr' (by
          rw [GoMap.get?_set_ne _ _ _ _ hqc]
          unfold createNewState
          rw [GoMap.get?_set_ne _ _ _ _ hqn]
          exact hg)

theorem extendStep_terminal (sIT : List Bool) (n : Int) (hn : (sIT.length : Int) = n) (q : Int) :
    idx ((boolArrayCapUp sIT).set n.toNat false) q = some true ↔ idx sIT q = some true := by
  unfold idx boolArrayCapUp
  by_cases hq : 0 ≤ q
  · rw [if_pos hq, if_pos hq]
    have hnn : n.toNat = sIT.length := by omega
    rw [hnn]
    by_cases hqn : q.toNat = sIT.length
    · rw [hqn]
      simp
    · rw [List.getElem?_set_ne (fun h => hqn h.symm)]
      rcases Nat.lt_or_gt_of_ne hqn with h | h
      · rw [List.getElem?_append_left h]
      · have h1 : (sIT ++ [false])[q.toNat]? = none := by
          apply List.getElem?_eq_none
          simp
          omega
        have h2 : sIT[q.toNat]? = none := by
          apply List.getElem?_eq_none
          omega
        rw [h1, h2]
  · rw [if_neg hq, if_neg hq]

/-- One byte of the second inner loop of `constructTrie` keeps the trie a tree:
the path of the new state is the path of `current` followed by the byte. -/
theorem extendStep_inv2 (st : TrieState) (path : Int → Str) (hinv : TrieInv st)
    (h2 : TrieInv2 st path) (current : Int) (c : Nat) (tr : GoMap Nat Int) (h0 : 0 ≤ current)
    (h1 : current < st.state) (htr : st.trie.get? current = some tr)
    (hfree : getTransition current c st.trie = -1) :
    TrieInv2 { st with trie := (createNewState st.state st.trie).set current (tr.set c st.state),
                       stateIsTerminal := (boolArrayCapUp st.stateIsTerminal).set st.state.toNat false,
                       state := st.state + 1 }
      (Function.update path st.state (path current ++ [c])) := by
  have haut := autInv_of_trieInv st hinv
  have hgt := extendStep_getTransition st.state st.trie haut current c tr h0 h1 htr
  have hpos := hinv.pos
  have hold : ∀ q : Int, q < st.state →
      Function.update path st.state (path current ++ [c]) q = path q := by
    intro q hq
    exact Function.update_noteq (by omega) _ _
  have hnew : Function.update path st.state (path current ++ [c]) st.state = path current ++ [c] :=
    Function.update_same _ _ _
  have hrange : ∀ (q : Int) (c' : Nat), getTransition q c' st.trie ≠ -1 →
      0 ≤ q ∧ q < st.state ∧ 0 ≤ getTransition q c' st.trie ∧ getTransition q c' st.trie < st.state := by
    intro q c' hne
    obtain ⟨tr', htr', hc'⟩ := getTransition_ne _ _ _ hne
    have hk := haut.keysOnly q tr' htr'
    have ht := haut.targets q tr' c' _ htr' hc'
    exact ⟨hk.1, hk.2, ht.1, ht.2⟩
  constructor
  · intro q
    show idx ((boolArrayCapUp st.stateIsTerminal).set st.state.toNat false) q = some true ↔
      outputOf st.f q ≠ []
    rw [extendStep_terminal st.stateIsTerminal st.state hinv.len q]
    exact h2.terminalIff q
  · show KeysNodup ((createNewState st.state st.trie).set current (tr.set c st.state))
    unfold createNewState
    exact keysNodup_set _ (keysNodup_set _ h2.nodupKeys _ _ (by simp)) _ _
      (GoMap.keys_set_nodup tr c st.state
        (h2.nodupKeys.2 current tr (GoMap.mem_of_get? _ _ _ htr)))
  · rw [hold 0 (by omega)]
    exact h2.root
  · intro q c' hne
    have hne : getTransition q c' ((createNewState st.state st.trie).set current (tr.set c st.state))
        ≠ -1 := hne
    show Function.update path st.state (path current ++ [c])
        (getTransition q c' ((createNewState st.state st.trie).set current (tr.set c st.state)))
      = Function.update path st.state (path current ++ [c]) q ++ [c']
    rw [hgt q c'] at hne ⊢
    by_cases hqc : q = current ∧ c' = c
    · rw [if_pos hqc, hnew, hqc.1, hqc.2, hold current h1]
    · rw [if_neg hqc] at hne ⊢
      obtain ⟨_, hq1, _, hv1⟩ := hrange q c' hne
      rw [hold _ hv1, hold q hq1]
      exact h2.edges q c' hne
  · intro q q' hq0 hq1 hq0' hq1' hpp
    have hq1 : q < st.state + 1 := hq1
    have hq1' : q' < st.state + 1 := hq1'
    have hfresh : ∀ x : Int, 0 ≤ x → x < st.state → path x ≠ path current ++ [c] := by
      intro x hx0 hx1 hpx
      have hx : 1 ≤ x := by
        by_cases hxz : x = 0
        · subst hxz
          rw [h2.root] at hpx
          simp at hpx
        · omega
      obtain ⟨b, c0, hbc⟩ := h2.incoming x hx hx1
      have hne : getTransition b c0 st.trie ≠ -1 := by omega
      have he := h2.edges b c0 hne
      rw [hbc, hpx] at he
      have hc0 : c = c0 := by
        have := congrArg List.getLast? he
        simpa using this
      have hpb : path current = path b := by
        have := congrArg List.dropLast he
        simpa using this
      obtain ⟨hb0, hb1, _, _⟩ := hrange b c0 hne
      have hbcur := h2.inj current b h0 h1 hb0 hb1 hpb
      subst hbcur
      subst hc0
      omega
    by_cases hqs : q = st.state
    · by_cases hqs' : q' = st.state
      · omega
      · rw [hqs, hnew, hold q' (by omega)] at hpp
        exact absurd hpp.symm (hfresh q' hq0' (by omega))
    · by_cases hqs' : q' = st.state
      · rw [hqs', hnew, hold q (by omega)] at hpp
        exact absurd hpp (hfresh q hq0 (by omega))
      · rw [hold q (by omega), hold q' (by omega)] at hpp
        exact h2.inj q q' hq0 (by omega) hq0' (by omega) hpp
  · intro q hq0 hq1
    have hq1 : q < st.state + 1 := hq1
    show ∃ (b : Int) (c' : Nat),
      getTransition b c' ((createNewState st.state st.trie).set current (tr.set c st.state)) = q
    by_cases hqs : q = st.state
    · refine ⟨current, c, ?_⟩
      rw [hgt current c, if_pos ⟨rfl, rfl⟩, hqs]
    · obtain ⟨b, c0, hbc⟩ := h2.incoming q hq0 (by omega)
      refine ⟨b, c0, ?_⟩
      rw [hgt b c0]
      by_cases hb : b = current ∧ c0 = c
      · rw [hb.1, hb.2, hfree] at hbc
        omega
      · rw [if_neg hb]
        exact hbc
  · intro q hq0 hq1
    have hq1 : q < st.state + 1 := hq1
    by_cases hqs : q = st.state
    · rw [hqs, hnew]
      have := h2.bound current h0 h1
      simp only [List.length_append, List.length_singleton]
      push_cast
      omega
    · rw [hold q (by omega)]
      exact h2.bound q hq0 (by omega)

theorem getTransition_neg (aut : Automaton) (c : Nat) : getTransition (-1) c aut = -1 := by
  unfold getTransition stateExists
  cases GoMap.get? aut (-1) <;> simp

theorem walk_neg (aut : Automaton) : ∀ u : Str, walk aut (-1) u = -1 := by
  intro u
  induction u with
  | nil => rfl
  | cons c u ih =>
    unfold walk
    rw [getTransition_neg]
    exact ih

theorem walk_append (aut : Automaton) : ∀ (u v : Str) (q : Int),
    walk aut q (u ++ v) = walk aut (walk aut q u) v := by
  intro u
  induction u with
  | nil => intro v q; rfl
  | cons c u ih =>
    intro v q
    simp only [List.cons_append, walk]
    exact ih v _

/-- A walk that succeeds stays the same when transitions are only added. -/
theorem walk_stable (aut aut' : Automaton)
    (hst : ∀ (q : Int) (c : Nat), getTransition q c aut ≠ -1 →
      getTransition q c aut' = getTransition q c aut) :
    ∀ (u : Str) (q : Int), walk aut q u ≠ -1 → walk aut' q u = walk aut q u := by
  intro u
  induction u with
  | nil => intro q _; rfl
  | cons c u ih =>
    intro q h
    unfold walk at h ⊢
    by_cases hne : getTransition q c aut = -1
    · rw [hne, walk_neg] at h
      exact absurd rfl h
    · rw [hst q c hne]
      exact ih _ h

/-- The first inner loop of `constructTrie` consumes a prefix that the trie
spells already and stops at the first byte without a transition. -/
theorem followTrie_spec (trie : Automaton) : ∀ (w : Str) (current : Int),
    ∃ u, w = u ++ (followTrie trie current w).2 ∧
      walk trie current u = (followTrie trie current w).1 ∧
      ∀ (c : Nat) (r : Str), (followTrie trie current w).2 = c :: r →
        getTransition (followTrie trie current w).1 c trie = -1 := by
  intro w
  induction w with
  | nil =>
    intro current
    refine ⟨[], rfl, rfl, ?_⟩
    intro c r h
    simp [followTrie] at h
  | cons c rest ih =>
    intro current
    unfold followTrie
    split
    · obtain ⟨u, h1, h2, h3⟩ := ih (getTransition current c trie)
      refine ⟨c :: u, ?_, ?_, h3⟩
      · simp only [List.cons_append]
        rw [← h1]
      · exact h2
    · rename_i hne
      refine ⟨[], rfl, rfl, ?_⟩
      intro c' r h
      simp only [List.cons.injEq] at h
      rw [← h.1]
      simpa using hne

/-- The second inner loop of `constructTrie`, when it is entered at a byte that
has no transition yet: the trie stays a tree, the new states spell the bytes
left, and no transition that was there changes. -/
theorem extendTrie_inv2 : ∀ (rest : Str) (st st' : TrieState) (current current' : Int)
    (path : Int → Str), TrieInv st → TrieInv2 st path → 0 ≤ current → current < st.state →
    (∀ (c : Nat) (r : Str), rest = c :: r → getTransition current c st.trie = -1) →
    extendTrie st current rest = some (st', current') →
    TrieInv st' ∧ (∃ path', TrieInv2 st' path') ∧ walk st'.trie current rest = current' ∧
      0 ≤ current' ∧ current' < st'.state ∧ st.state ≤ st'.state ∧
      (∀ (q : Int) (c : Nat), getTransition q c st.trie ≠ -1 →
        getTransition q c st'.trie = getTransition q c st.trie) ∧
      (∀ q : Int, q < st.state → idx st'.stateIsTerminal q = idx st.stateIsTerminal q) := by
  intro rest
  induction rest with
  | nil =>
    intro st st' current current' path hinv h2 h0 h1 _ h
    simp only [extendTrie, Option.some.injEq, Prod.mk.injEq] at h
    obtain ⟨hst, hcur⟩ := h
    subst hst
    subst hcur
    exact ⟨hinv, ⟨path, h2⟩, rfl, h0, h1, le_refl _, fun _ _ _ => rfl, fun _ _ => rfl⟩
  | cons c rest ih =>
    intro st st' current current' path hinv h2 h0 h1 hfree h
    have hfree' := hfree c rest rfl
    obtain ⟨tr, htr⟩ := hinv.keys current h0 h1
    obtain ⟨trie, hct, hset, hinv1⟩ := extendStep_inv st hinv current c h0 h1
    have hpos := hinv.pos
    have hne : current ≠ st.state := by omega
    have hget : GoMap.get? (createNewState st.state st.trie) current = some tr := by
      unfold createNewState
      rw [GoMap.get?_set_ne _ _ _ _ hne, htr]
    have htrie : trie = (createNewState st.state st.trie).set current (tr.set c st.state) := by
      unfold createTransition at hct
      rw [hget] at hct
      simpa using hct.symm
    subst htrie
    have h21 := extendStep_inv2 st path hinv h2 current c tr h0 h1 htr hfree'
    have haut := autInv_of_trieInv st hinv
    have hgt := extendStep_getTransition st.state st.trie haut current c tr h0 h1 htr
    unfold extendTrie at h
    dsimp only at h
    rw [hset] at h
    dsimp only at h
    rw [hct] at h
    dsimp only at h
    have hnext : ∀ (c' : Nat) (r : Str), rest = c' :: r →
        getTransition st.state c'
          ((createNewState st.state st.trie).set current (tr.set c st.state)) = -1 := by
      intro c' r _
      rw [hgt st.state c', if_neg (fun hh => hne hh.1.symm)]
      apply getTransition_of_none
      cases hg : GoMap.get? st.trie st.state with
      | none => rfl
      | some tr0 =>
        have := hinv.keysOnly _ tr0 hg
        omega
    obtain ⟨hinv', hp', hwalk, hc0, hc1, hle, hstab, hterm⟩ :=
      ih _ st' st.state current' _ hinv1 h21 (by omega) (by show st.state < st.state + 1; omega)
        hnext h
    have hle : st.state + 1 ≤ st'.state := hle
    have hstab0 : ∀ (q : Int) (c' : Nat), getTransition q c' st.trie ≠ -1 →
        getTransition q c' st'.trie = getTransition q c' st.trie := by
      intro q c' hq
      have h1' : getTransition q c' ((createNewState st.state st.trie).set current
          (tr.set c st.state)) = getTransition q c' st.trie := by
        rw [hgt q c']
        by_cases hb : q = current ∧ c' = c
        · rw [hb.1, hb.2] at hq
          exact absurd hfree' hq
        · rw [if_neg hb]
      rw [← h1']
      exact hstab q c' (by rw [h1']; exact hq)
    refine ⟨hinv', hp', ?_, hc0, hc1, by omega, hstab0, ?_⟩
    · unfold walk
      have h1' : getTransition current c ((createNewState st.state st.trie).set current
          (tr.set c st.state)) = st.state := by
        rw [hgt current c, if_pos ⟨rfl, rfl⟩]
      have h2' := hstab current c (by rw [h1']; omega)
      rw [h2', h1']
      exact hwalk
    · intro q hq
      rw [hterm q (by show q < st.state + 1; omega)]
      show idx ((boolArrayCapUp st.stateIsTerminal).set st.state.toNat false) q = _
      unfold idx
      by_cases hq0 : 0 ≤ q
      · rw [if_pos hq0, if_pos hq0]
        have hlen := hinv.len
        rw [List.getElem?_set_ne (by omega)]
        unfold boolArrayCapUp
        exact List.getElem?_append_left (by omega)
      · rw [if_neg hq0, if_neg hq0]

/-- The end of a round of the outer loop of `constructTrie`: the landing state
`cur1` becomes terminal and the index of the pattern is appended to its
output set. -/
theorem insertFinish (st st1 : TrieState) (done : List Str) (w : Str) (path1 : Int → Str)
    (cur1 : Int) (sIT' : List Bool) (hinv1 : TrieInv st1) (h21 : TrieInv2 st1 path1)
    (hs : TrieSpec done st)
    (hstab : ∀ (q : Int) (c : Nat), getTransition q c st.trie ≠ -1 →
      getTransition q c st1.trie = getTransition q c st.trie)
    (hle : st.state ≤ st1.state)
    (hterm : ∀ q : Int, q < st.state → idx st1.stateIsTerminal q = idx st.stateIsTerminal q)
    (hfeq : st1.f = st.f) (hwalk : walk st1.trie 0 w = cur1) (hc0 : 0 ≤ cur1)
    (hc1 : cur1 < st1.state) (hlen' : sIT'.length = st1.stateIsTerminal.length)
    (hsIT' : ∀ q : Int, idx sIT' q = some true ↔ (idx st1.stateIsTerminal q = some true ∨ q = cur1)) :
    TrieInv { st1 with stateIsTerminal := sIT',
                       f := st1.f.set cur1 (outputOf st1.f cur1 ++ [(done.length : Int)]) } ∧
    TrieInv2 { st1 with stateIsTerminal := sIT',
                        f := st1.f.set cur1 (outputOf st1.f cur1 ++ [(done.length : Int)]) } path1 ∧
    TrieSpec (done ++ [w])
      { st1 with stateIsTerminal := sIT',
                 f := st1.f.set cur1 (outputOf st1.f cur1 ++ [(done.length : Int)]) } := by
  have hout : ∀ q : Int,
      outputOf (st1.f.set cur1 (outputOf st1.f cur1 ++ [(done.length : Int)])) q
        = if q = cur1 then outputOf st.f q ++ [(done.length : Int)] else outputOf st.f q := by
    intro q
    by_cases hq : q = cur1
    · rw [if_pos hq, hq, outputOf_set_eq, hfeq]
    · rw [if_neg hq, outputOf_set_ne _ _ _ _ hq, hfeq]
  have hold : ∀ (j : Nat) (wj : Str), done[j]? = some wj →
      walk st1.trie 0 wj = walk st.trie 0 wj := by
    intro j wj hj
    have := (hs.ends j wj hj).1
    exact walk_stable st.trie st1.trie hstab wj 0 (by omega)
  have hlt : ∀ (q x : Int), x ∈ outputOf st.f q → x < (done.length : Int) := by
    intro q x hx
    obtain ⟨j, wj, hxj, hj, _⟩ := (hs.outputs q x).1 hx
    obtain ⟨hjl, _⟩ := List.getElem?_eq_some.1 hj
    omega
  refine ⟨?_, ?_, ?_⟩
  · refine ⟨?_, hinv1.pos, hinv1.keys, hinv1.targets, hinv1.keysOnly, hinv1.size, hinv1.depth⟩
    show (sIT'.length : Int) = st1.state
    rw [hlen']
    exact hinv1.len
  · refine ⟨?_, h21.nodupKeys, h21.root, h21.edges, h21.inj, h21.incoming, h21.bound⟩
    intro q
    show idx sIT' q = some true ↔
      outputOf (st1.f.set cur1 (outputOf st1.f cur1 ++ [(done.length : Int)])) q ≠ []
    rw [hsIT' q, hout q]
    by_cases hq : q = cur1
    · rw [if_pos hq]
      simp [hq]
    · rw [if_neg hq, ← hfeq]
      have := h21.terminalIff q
      constructor
      · rintro (h | h)
        · exact this.1 h
        · exact absurd h hq
      · intro h
        exact Or.inl (this.2 h)
  · constructor
    · intro j wj hj
      show 0 ≤ walk st1.trie 0 wj ∧ walk st1.trie 0 wj < st1.state ∧
        idx sIT' (walk st1.trie 0 wj) = some true
      by_cases hjl : j < done.length
      · rw [List.getElem?_append_left hjl] at hj
        obtain ⟨h0, h1, h3⟩ := hs.ends j wj hj
        rw [hold j wj hj]
        refine ⟨h0, by omega, ?_⟩
        rw [hsIT']
        left
        rw [hterm _ h1]
        exact h3
      · have hjl' : j = done.length := by
          obtain ⟨hjb, _⟩ := List.getElem?_eq_some.1 hj
          simp at hjb
          omega
        subst hjl'
        simp at hj
        subst hj
        rw [hwalk]
        exact ⟨hc0, hc1, (hsIT' cur1).2 (Or.inr rfl)⟩
    · intro q x
      show x ∈ outputOf (st1.f.set cur1 (outputOf st1.f cur1 ++ [(done.length : Int)])) q ↔
        ∃ (j : Nat) (wj : Str), x = (j : Int) ∧ (done ++ [w])[j]? = some wj ∧
          walk st1.trie 0 wj = q
      rw [hout q]
      constructor
      · intro hx
        have hcase : x ∈ outputOf st.f q ∨ (q = cur1 ∧ x = (done.length : Int)) := by
          by_cases hq : q = cur1
          · rw [if_pos hq] at hx
            rcases List.mem_append.1 hx with h | h
            · exact Or.inl h
            · simp at h
              exact Or.inr ⟨hq, h⟩
          · rw [if_neg hq] at hx
            exact Or.inl hx
        rcases hcase with h | ⟨hq, hx'⟩
        · obtain ⟨j, wj, hxj, hj, hwj⟩ := (hs.outputs q x).1 h
          obtain ⟨hjl, _⟩ := List.getElem?_eq_some.1 hj
          refine ⟨j, wj, hxj, ?_, ?_⟩
          · rw [List.getElem?_append_left hjl]
            exact hj
          · rw [hold j wj hj]
            exact hwj
        · refine ⟨done.length, w, hx', by simp, ?_⟩
          rw [hwalk, hq]
      · rintro ⟨j, wj, hxj, hj, hwj⟩
        by_cases hjl : j < done.length
        · rw [List.getElem?_append_left hjl] at hj
          rw [hold j wj hj] at hwj
          have hmem := (hs.outputs q x).2 ⟨j, wj, hxj, hj, hwj⟩
          by_cases hq : q = cur1
          · rw [if_pos hq]
            exact List.mem_append_left _ hmem
          · rw [if_neg hq]
            exact hmem
        · have hjl' : j = done.length := by
            obtain ⟨hjb, _⟩ := List.getElem?_eq_some.1 hj
            simp at hjb
            omega
          subst hjl'
          simp at hj
          subst hj
          rw [hwalk] at hwj
          rw [if_pos hwj.symm, hxj]
          simp
    · intro q
      show (outputOf (st1.f.set cur1 (outputOf st1.f cur1 ++ [(done.length : Int)])) q).Sorted
        (fun a b => a < b)
      rw [hout q]
      by_cases hq : q = cur1
      · rw [if_pos hq]
        unfold List.Sorted
        rw [List.pairwise_append]
        refine ⟨hs.sorted q, by simp, ?_⟩
        intro a ha b hb
        simp at hb
        subst hb
        exact hlt q a ha
      · rw [if_neg hq]
        exact hs.sorted q

/-- One round of the outer loop of `constructTrie`, for the pattern of index
`len(done)`. -/
theorem insertPattern_spec (st st' : TrieState) (done : List Str) (w : Str) (path : Int → Str)
    (hinv : TrieInv st) (h2 : TrieInv2 st path) (hs : TrieSpec done st)
    (h : insertPattern st (done.length : Int) w = some st') :
    TrieInv st' ∧ (∃ path', TrieInv2 st' path') ∧ TrieSpec (done ++ [w]) st' := by
  have hpos := hinv.pos
  obtain ⟨hf0, hf1⟩ := followTrie_valid st hinv w 0 (by omega) (by omega)
  obtain ⟨u, hu1, hu2, hu3⟩ := followTrie_spec st.trie w 0
  rcases hfw : followTrie st.trie 0 w with ⟨current, rest⟩
  rw [hfw] at hf0 hf1 hu1 hu2 hu3
  dsimp only at hf0 hf1 hu1 hu2 hu3
  unfold insertPattern at h
  rw [hfw] at h
  dsimp only at h
  cases hext : extendTrie st current rest with
  | none => rw [hext] at h; cases h
  | some r =>
    obtain ⟨st1, cur1⟩ := r
    rw [hext] at h
    dsimp only at h
    obtain ⟨hinv1, ⟨path1, h21⟩, hwalk, hc0, hc1, hle, hstab, hterm⟩ :=
      extendTrie_inv2 rest st st1 current cur1 path hinv h2 hf0 hf1 hu3 hext
    have hfeq : st1.f = st.f := extendTrie_f _ _ _ _ _ hext
    have hlen1 := hinv1.len
    have hw : walk st1.trie 0 w = cur1 := by
      rw [hu1, walk_append, walk_stable st.trie st1.trie hstab u 0 (by rw [hu2]; omega), hu2]
      exact hwalk
    cases hb : idx st1.stateIsTerminal cur1 with
    | none => rw [hb] at h; cases h
    | some b =>
      rw [hb] at h
      cases b with
      | true =>
        dsimp only at h
        rw [setLast_capUp] at h
        simp only [Option.some.injEq] at h
        subst h
        obtain ⟨r1, r2, r3⟩ := insertFinish st st1 done w path1 cur1 st1.stateIsTerminal hinv1 h21
          hs hstab hle hterm hfeq hw hc0 hc1 rfl (by
            intro q
            constructor
            · exact fun hq => Or.inl hq
            · rintro (hq | hq)
              · exact hq
              · rw [hq]; exact hb)
        exact ⟨r1, ⟨path1, r2⟩, r3⟩
      | false =>
        dsimp only at h
        have hlt : cur1.toNat < st1.stateIsTerminal.length := by omega
        rw [setIdx_some _ _ _ hc0 hlt] at h
        simp only [Option.some.injEq] at h
        have hempty : outputOf st1.f cur1 = [] := by
          by_contra hne
          have := (h21.terminalIff cur1).2 hne
          rw [this] at hb
          cases hb
        have hst' : st' = ⟨st1.trie, st1.stateIsTerminal.set cur1.toNat true,
            st1.f.set cur1 (outputOf st1.f cur1 ++ [(done.length : Int)]), st1.state⟩ := by
          rw [← h, hempty]
          rfl
        rw [hst']
        obtain ⟨r1, r2, r3⟩ := insertFinish st st1 done w path1 cur1
          (st1.stateIsTerminal.set cur1.toNat true) hinv1 h21
          hs hstab hle hterm hfeq hw hc0 hc1 (by simp) (by
            intro q
            by_cases hq : q = cur1
            · rw [hq, idx_set_eq _ _ _ hc0 hlt]
              simp
            · by_cases hq0 : 0 ≤ q
              · rw [idx_set_ne _ _ _ _ hc0 hq0 (fun hh => hq hh.symm)]
                simp [hq]
              · have h1 : idx (st1.stateIsTerminal.set cur1.toNat true) q = none := by
                  unfold idx
                  rw [if_neg hq0]
                have h2' : idx st1.stateIsTerminal q = none := by
                  unfold idx
                  rw [if_neg hq0]
                rw [h1, h2']
                simp [hq])
        exact ⟨r1, ⟨path1, r2⟩, r3⟩

theorem insertAll_spec : ∀ (ws : List Str) (st st' : TrieState) (done : List Str)
    (path : Int → Str), TrieInv st → TrieInv2 st path → TrieSpec done st →
    insertAll st (done.length : Int) ws = some st' →
    TrieInv st' ∧ (∃ path', TrieInv2 st' path') ∧ TrieSpec (done ++ ws) st' := by
  intro ws
  induction ws with
  | nil =>
    intro st st' done path hinv h2 hs h
    simp only [insertAll, Option.some.injEq] at h
    subst h
    rw [List.append_nil]
    exact ⟨hinv, ⟨path, h2⟩, hs⟩
  | cons w rest ih =>
    intro st st' done path hinv h2 hs h
    unfold insertAll at h
    cases hins : insertPattern st (done.length : Int) w with
    | none => rw [hins] at h; cases h
    | some st1 =>
      rw [hins] at h
      dsimp only at h
      obtain ⟨hinv1, ⟨path1, h21⟩, hs1⟩ := insertPattern_spec st st1 done w path hinv h2 hs hins
      have hlen : ((done ++ [w]).length : Int) = (done.length : Int) + 1 := by simp
      rw [← hlen] at h
      have := ih st1 st' (done ++ [w]) path1 hinv1 h21 hs1 h
      rw [List.append_assoc] at this
      exact this

theorem trieInv2_init :
    TrieInv2 { trie := createNewState 0 [], stateIsTerminal := [false], f := [], state := 1 }
      (fun _ => []) := by
  have hgt : ∀ (q : Int) (c : Nat), getTransition q c (createNewState 0 []) = -1 := by
    intro q c
    unfold getTransition stateExists createNewState
    simp only [GoMap.set, GoMap.get?]
    by_cases hq : (0 : Int) = q
    · subst hq
      simp [GoMap.get?]
    · simp [hq]
  constructor
  · intro q
    show idx [false] q = some true ↔ outputOf [] q ≠ []
    have h1 : outputOf [] q = [] := rfl
    rw [h1]
    unfold idx
    by_cases hq : 0 ≤ q
    · rw [if_pos hq]
      by_cases hq0 : q.toNat = 0
      · rw [hq0]
        simp
      · have : ([false] : List Bool)[q.toNat]? = none := by
          apply List.getElem?_eq_none
          simp
          omega
        rw [this]
        simp
    · rw [if_neg hq]
      simp
  · refine ⟨by simp [createNewState, GoMap.set], ?_⟩
    intro b trs hmem
    simp only [createNewState, GoMap.set, List.mem_singleton, Prod.mk.injEq] at hmem
    rw [hmem.2]
    simp
  · rfl
  · intro q c hne
    exact absurd (hgt q c) hne
  · intro q q' h0 h1 h0' h1' _
    have h1 : q < 1 := h1
    have h1' : q' < 1 := h1'
    omega
  · intro q h0 h1
    have h1 : q < 1 := h1
    omega
  · intro q h0 _
    simpa using h0

theorem trieSpec_init :
    TrieSpec [] { trie := createNewState 0 [], stateIsTerminal := [false], f := [], state := 1 } := by
  constructor
  · intro j w h
    simp at h
  · intro q x
    have h1 : outputOf [] q = [] := rfl
    show x ∈ outputOf [] q ↔ _
    rw [h1]
    simp
  · intro q
    have h1 : outputOf [] q = [] := rfl
    show (outputOf [] q).Sorted _
    rw [h1]
    exact List.sorted_nil

/-- The trie of a pattern list: it is built for every list, it is a tree, and
its output sets index the patterns by the state they lead to. -/
theorem constructTrie_spec (p : List Str) :
    ∃ t, constructTrie p = some t ∧ TrieInv t ∧ (∃ path, TrieInv2 t path) ∧ TrieSpec p t := by
  obtain ⟨t, ht, _, _⟩ := insertAll_total p _ 0 trieInv_init
  have := insertAll_spec p _ t [] _ trieInv_init trieInv2_init trieSpec_init ht
  rw [List.nil_append] at this
  exact ⟨t, ht, this⟩

/-- A walk from the root spells the path of the state it reaches. -/
theorem walk_path (st : TrieState) (path : Int → Str) (h2 : TrieInv2 st path) :
    ∀ (u : Str) (q : Int), walk st.trie q u ≠ -1 → path (walk st.trie q u) = path q ++ u := by
  intro u
  induction u with
  | nil =>
    intro q _
    simp [walk]
  | cons c u ih =>
    intro q h
    unfold walk at h ⊢
    by_cases hne : getTransition q c st.trie = -1
    · rw [hne, walk_neg] at h
      exact absurd rfl h
    · rw [ih _ h, h2.edges q c hne]
      simp

/-! ## Instrumented variants -/

/-- The trace of `searchSBOM` carries the occurrence index that `sbomScan` returns. -/
theorem sbomTrace_fst (p : List Str) (t : Str) (lmin : Int) (orc : Automaton) (f : OutputSets) :
    ∀ (fuel : Nat) (pos : Int) (occ : Occurrences),
      (sbomTrace p t lmin orc f fuel pos occ).map Prod.fst = sbomScan p t lmin orc f fuel pos occ := by
  intro fuel
  induction fuel with
  | zero => intro pos occ; rfl
  | succ fuel ih =>
    intro pos occ
    unfold sbomTrace sbomScan
    split
    · cases hw : sbomWindow p t lmin orc f pos occ with
      | none => rfl
      | some r =>
        obtain ⟨occ', pos'⟩ := r
        dsimp only
        rw [← ih pos' occ']
        cases sbomTrace p t lmin orc f fuel pos' occ' <;> rfl
    · rfl

theorem searchSBOMTrace_fst (p : List Str) (t : Str) :
    (searchSBOMTrace p t).map Prod.fst = searchSBOM p t := by
  unfold searchSBOMTrace searchSBOM
  cases computeMinLength p with
  | none => rfl
  | some lmin =>
    dsimp only
    cases trimToLength p lmin with
    | none => rfl
    | some trimmed =>
      dsimp only
      cases buildOracleMultiple (reverseAll trimmed) with
      | none => rfl
      | some r =>
        obtain ⟨orc, f⟩ := r
        exact sbomTrace_fst p t lmin orc f _ 0 []

theorem buildAc_eq (p : List Str) :
    buildAc p = (buildAcState p).map (fun r => (r.1, r.2.f, r.2.s)) := by
  unfold buildAc buildAcState
  cases constructTrie p with
  | none => rfl
  | some t =>
    dsimp only
    cases setIdx (List.replicate t.stateIsTerminal.length (0 : Int)) 0 (-1) with
    | none => rfl
    | some s =>
      dsimp only
      cases acLoop t.trie (t.stateIsTerminal.length - 1)
          { stateIsTerminal := t.stateIsTerminal, f := t.f, s := s } 1 <;> rfl

/-! ## Terminal markers and output sets -/

theorem arrayUnion_mem : ∀ (src dst u : List Int), arrayUnion dst src = some u →
    (∀ x ∈ dst, x ∈ u) ∧ ∀ x ∈ src, x ∈ u := by
  intro src
  induction src with
  | nil =>
    intro dst u h
    simp only [arrayUnion, Option.some.injEq] at h
    subst h
    exact ⟨fun _ hx => hx, fun _ hx => by cases hx⟩
  | cons y rest ih =>
    intro dst u h
    unfold arrayUnion at h
    cases hc : contains dst y with
    | true =>
      simp only [hc, Bool.not_true, Bool.false_eq_true, if_false] at h
      obtain ⟨h1, h2⟩ := ih dst u h
      refine ⟨h1, ?_⟩
      intro x hx
      rcases List.mem_cons.1 hx with hxy | hxr
      · rw [hxy]
        exact h1 y ((contains_iff dst y).1 hc)
      · exact h2 x hxr
    | false =>
      simp only [hc, Bool.not_false, if_true] at h
      rw [setLast_capUp] at h
      dsimp only at h
      obtain ⟨h1, h2⟩ := ih (dst ++ [y]) u h
      refine ⟨fun x hx => h1 x (List.mem_append_left _ hx), ?_⟩
      intro x hx
      rcases List.mem_cons.1 hx with hxy | hxr
      · rw [hxy]
        exact h1 y (by simp)
      · exact h2 x hxr

theorem acStep_terminalIff (aut : Automaton) (st st' : AcState) (current : Int)
    (hti : TerminalIff st.stateIsTerminal st.f) (h : acStep aut st current = some st') :
    TerminalIff st'.stateIsTerminal st'.f := by
  unfold acStep at h
  dsimp only at h
  split at h
  · cases h
  · split at h
    · cases h
    · split at h
      · split at h
        · cases h
        · split at h
          · cases h
          · rename_i sc hsc
            split at h
            · cases h
            · rename_i hterm
              split at h
              · cases h
              · rename_i sIT' hset
                split at h
                · cases h
                · rename_i u hu
                  simp only [Option.some.injEq] at h
                  subst h
                  have hset' := hset
                  unfold setIdx at hset'
                  split at hset'
                  · rename_i hcur
                    simp only [Option.some.injEq] at hset'
                    subst hset'
                    have hune : u ≠ [] := by
                      have hne := (hti sc).1 hterm
                      obtain ⟨y, hy⟩ := List.exists_mem_of_ne_nil _ hne
                      exact List.ne_nil_of_mem ((arrayUnion_mem _ _ _ hu).2 y hy)
                    intro q
                    show idx (st.stateIsTerminal.set current.toNat true) q = some true ↔
                      outputOf (st.f.set current u) q ≠ []
                    by_cases hq : q = current
                    · rw [hq, idx_set_eq _ _ _ hcur.1 hcur.2, outputOf_set_eq]
                      simp [hune]
                    · rw [outputOf_set_ne _ _ _ _ hq]
                      by_cases hq0 : 0 ≤ q
                      · rw [idx_set_ne _ _ _ _ hcur.1 hq0 (fun hh => hq hh.symm)]
                        exact hti q
                      · have h1 : idx (st.stateIsTerminal.set current.toNat true) q = none := by
                          unfold idx
                          rw [if_neg hq0]
                        have h2 : idx st.stateIsTerminal q = none := by
                          unfold idx
                          rw [if_neg hq0]
                        rw [h1, ← h2]
                        exact hti q
                  · cases hset'
            · simp only [Option.some.injEq] at h
              subst h
              exact hti
      · split at h
        · cases h
        · simp only [Option.some.injEq] at h
          subst h
          exact hti

theorem acLoop_terminalIff (aut : Automaton) : ∀ (n : Nat) (st st' : AcState) (current : Int),
    TerminalIff st.stateIsTerminal st.f → acLoop aut n st current = some st' →
    TerminalIff st'.stateIsTerminal st'.f := by
  intro n
  induction n with
  | zero =>
    intro st st' current hti h
    simp only [acLoop, Option.some.injEq] at h
    subst h
    exact hti
  | succ n ih =>
    intro st st' current hti h
    unfold acLoop at h
    split at h
    · cases h
    · rename_i st1 hstep
      exact ih st1 st' _ (acStep_terminalIff aut st st1 current hti hstep) h

/-- The loop state of `buildAc` exists for every pattern list, over the trie
of `constructTrie`. -/
theorem buildAcState_total (p : List Str) :
    ∃ t st, constructTrie p = some t ∧ buildAcState p = some (t.trie, st) ∧
      buildAc p = some (t.trie, st.f, st.s) ∧
      acLoop t.trie (t.stateIsTerminal.length - 1)
        { stateIsTerminal := t.stateIsTerminal, f := t.f,
          s := (List.replicate t.stateIsTerminal.length (0 : Int)).set 0 (-1) } 1 = some st := by
  obtain ⟨r, hr⟩ := buildAc_total p
  have heq := buildAc_eq p
  rw [hr] at heq
  cases hst : buildAcState p with
  | none => rw [hst] at heq; cases heq
  | some x =>
    obtain ⟨ac, st⟩ := x
    have hst0 := hst
    unfold buildAcState at hst
    split at hst
    · cases hst
    · rename_i t ht
      split at hst
      · cases hst
      · rename_i s hs
        split at hst
        · cases hst
        · rename_i st2 hloop
          simp only [Option.some.injEq, Prod.mk.injEq] at hst
          obtain ⟨h1, h2⟩ := hst
          subst h1
          subst h2
          have hs' : s = (List.replicate t.stateIsTerminal.length (0 : Int)).set 0 (-1) := by
            unfold setIdx at hs
            split at hs
            · simpa using hs.symm
            · cases hs
          subst hs'
          refine ⟨t, st2, ht, rfl, ?_, hloop⟩
          rw [buildAc_eq, hst0]
          rfl

/-! ## The parent of a state -/

theorem getParent_found (q : Int) : ∀ (aut : Automaton),
    (∃ (b : Int) (trs : GoMap Nat Int) (c : Nat), (b, trs) ∈ aut ∧ (c, q) ∈ trs) →
    ∃ trs, ((getParent q aut).2, trs) ∈ aut ∧ ((getParent q aut).1, q) ∈ trs := by
  intro aut
  induction aut with
  | nil =>
    rintro ⟨b, trs, c, h, _⟩
    cases h
  | cons e rest ih =>
    obtain ⟨b0, trs0⟩ := e
    intro hex
    unfold getParent
    split
    · rename_i ce hce
      have hp := List.find?_some hce
      have hm := List.mem_of_find?_eq_some hce
      have hq : ce.2 = q := by simpa using hp
      refine ⟨trs0, List.mem_cons_self _ _, ?_⟩
      dsimp only
      rw [← hq]
      exact hm
    · rename_i hnone
      obtain ⟨b, trs, c, hb, hc⟩ := hex
      rcases List.mem_cons.1 hb with h1 | h1
      · simp only [Prod.mk.injEq] at h1
        rw [h1.2] at hc
        have := List.find?_eq_none.1 hnone (c, q) hc
        simp at this
      · obtain ⟨trs', h2, h3⟩ := ih ⟨b, trs, c, h1, hc⟩
        exact ⟨trs', List.mem_cons_of_mem _ h2, h3⟩

/-- In an automaton with one entry per state and byte, `getParent` returns a
pair with a transition to the state as soon as there is one. -/
theorem getParent_transition (n : Int) (aut : Automaton) (h : AutInv n aut) (hk : KeysNodup aut)
    (q : Int) (hq : q ≠ -1) (b : Int) (c : Nat) (hbc : getTransition b c aut = q) :
    getTransition (getParent q aut).2 (getParent q aut).1 aut = q := by
  obtain ⟨tr, htr, hc⟩ := getTransition_ne aut b c (by rw [hbc]; exact hq)
  rw [hbc] at hc
  obtain ⟨trs, h1, h2⟩ := getParent_found q aut
    ⟨b, tr, c, GoMap.mem_of_get? _ _ _ htr, GoMap.mem_of_get? _ _ _ hc⟩
  have hg1 := GoMap.get?_of_mem_nodup aut _ trs hk.1 h1
  have hg2 := GoMap.get?_of_mem_nodup trs _ q (hk.2 _ trs h1) h2
  rw [getTransition_of_get n aut h _ trs _ hg1, hg2]
  rfl

/-- In the trie a state has at most one incoming transition. -/
theorem trie_parent_unique (st : TrieState) (path : Int → Str) (hinv : TrieInv st)
    (h2 : TrieInv2 st path) (q : Int) (hq : q ≠ -1) (b b' : Int) (c c' : Nat)
    (h : getTransition b c st.trie = q) (h' : getTransition b' c' st.trie = q) :
    b = b' ∧ c = c' := by
  have haut := autInv_of_trieInv st hinv
  have hne : getTransition b c st.trie ≠ -1 := by rw [h]; exact hq
  have hne' : getTransition b' c' st.trie ≠ -1 := by rw [h']; exact hq
  have e1 := h2.edges b c hne
  have e2 := h2.edges b' c' hne'
  rw [h] at e1
  rw [h', e1] at e2
  have hc : c = c' := by
    have := congrArg List.getLast? e2
    simpa using this
  have hp : path b = path b' := by
    have := congrArg List.dropLast e2
    simpa using this
  obtain ⟨tr, htr, _⟩ := getTransition_ne _ _ _ hne
  obtain ⟨tr', htr', _⟩ := getTransition_ne _ _ _ hne'
  have hb := haut.keysOnly b tr htr
  have hb' := haut.keysOnly b' tr' htr'
  exact ⟨h2.inj b b' hb.1 hb.2 hb'.1 hb'.2 hp, hc⟩

/-- The byte and the parent that `getParent` returns for a state of the trie
are the only pair with a transition to the state. -/
theorem trie_getParent (st : TrieState) (path : Int → Str) (hinv : TrieInv st)
    (h2 : TrieInv2 st path) (q : Int) (hq1 : 1 ≤ q) (hq2 : q < st.state) :
    getTransition (getParent q st.trie).2 (getParent q st.trie).1 st.trie = q ∧
    ∀ (b : Int) (c : Nat), getTransition b c st.trie = q → (c, b) = getParent q st.trie := by
  have haut := autInv_of_trieInv st hinv
  obtain ⟨b0, c0, h0⟩ := h2.incoming q hq1 hq2
  have hgp := getParent_transition st.state st.trie haut h2.nodupKeys q (by omega) b0 c0 h0
  refine ⟨hgp, ?_⟩
  intro b c hbc
  obtain ⟨hb, hc⟩ := trie_parent_unique st path hinv h2 q (by omega) b _ c _ hbc hgp
  rw [hb, hc]

theorem depthOf_eq (st : TrieState) (path : Int → Str) (hinv : TrieInv st)
    (h2 : TrieInv2 st path) : ∀ (fuel : Nat) (q : Int), 0 ≤ q → q < st.state →
    (path q).length ≤ fuel → depthOf st.trie fuel q = (path q).length := by
  have haut := autInv_of_trieInv st hinv
  intro fuel
  induction fuel with
  | zero =>
    intro q _ _ hl
    have : (path q).length = 0 := by omega
    rw [this]
    rfl
  | succ fuel ih =>
    intro q hq0 hq1 hl
    unfold depthOf
    by_cases hq : q = 0
    · rw [if_pos hq, hq, h2.root]
      rfl
    · rw [if_neg hq]
      obtain ⟨hgp, _⟩ := trie_getParent st path hinv h2 q (by omega) hq1
      have hne : getTransition (getParent q st.trie).2 (getParent q st.trie).1 st.trie ≠ -1 := by
        rw [hgp]
        omega
      have he := h2.edges _ _ hne
      rw [hgp] at he
      obtain ⟨tr, htr, _⟩ := getTransition_ne _ _ _ hne
      have hb := haut.keysOnly _ tr htr
      have hlen : (path q).length = (path (getParent q st.trie).2).length + 1 := by
        rw [he]
        simp
      rw [ih _ hb.1 hb.2 (by omega), hlen]

theorem depthInv_of_inv2 (st : TrieState) (path : Int → Str) (hinv : TrieInv st)
    (h2 : TrieInv2 st path) : DepthInv st.state st.trie (fun q => (path q).length) := by
  have haut := autInv_of_trieInv st hinv
  constructor
  · show (path 0).length = 0
    rw [h2.root]
    rfl
  · intro q hq0 hq1
    obtain ⟨b, c, hbc⟩ := h2.incoming q hq0 hq1
    have he := h2.edges b c (by rw [hbc]; omega)
    rw [hbc] at he
    show 1 ≤ (path q).length
    rw [he]
    simp
  · intro q hq0 hq1
    exact h2.bound q hq0 hq1
  · intro b trs hmem
    have hg := GoMap.get?_of_mem_nodup st.trie b trs h2.nodupKeys.1 hmem
    have hb := haut.keysOnly b trs hg
    refine ⟨hb.1, hb.2, ?_⟩
    intro c q' hc
    have hg2 := GoMap.get?_of_mem_nodup trs c q' (h2.nodupKeys.2 b trs hmem) hc
    have ht := haut.targets b trs c q' hg hg2
    have hgt : getTransition b c st.trie = q' := by
      rw [getTransition_of_get st.state st.trie haut b trs c hg, hg2]
      rfl
    have he := h2.edges b c (by rw [hgt]; omega)
    rw [hgt] at he
    refine ⟨ht.1, ht.2, ?_⟩
    show (path q').length = (path b).length + 1
    rw [he]
    simp

/-! ## The supply function of the Aho-Corasick builder -/

/-- The supply array that `buildAc` returns is well formed with respect to the
length of the paths of the trie. -/
theorem buildAc_supply (p : List Str) :
    ∃ t st path, constructTrie p = some t ∧ buildAcState p = some (t.trie, st) ∧
      buildAc p = some (t.trie, st.f, st.s) ∧ TrieInv t ∧ TrieInv2 t path ∧
      AcSupply t.state (fun q => (path q).length) st.s := by
  obtain ⟨t, ht, hinv, ⟨path, h2⟩, _⟩ := constructTrie_spec p
  obtain ⟨t', st, ht', hst, hb, hloop⟩ := buildAcState_total p
  rw [ht] at ht'
  simp only [Option.some.injEq] at ht'
  subst ht'
  have hlen := hinv.len
  have hpos := hinv.pos
  have haut := autInv_of_trieInv t hinv
  have hd := depthInv_of_inv2 t path hinv h2
  rw [← hlen] at hd haut
  obtain ⟨_, hs⟩ := acSupply_init t.stateIsTerminal.length (by omega) t.trie _ hd
  obtain ⟨st', hloop', hs'⟩ := acLoop_total _ t.trie haut _ hd (t.stateIsTerminal.length - 1)
    { stateIsTerminal := t.stateIsTerminal, f := t.f,
      s := (List.replicate t.stateIsTerminal.length (0 : Int)).set 0 (-1) } 1 rfl hs
    (by omega) (by omega)
  rw [hloop] at hloop'
  simp only [Option.some.injEq] at hloop'
  subst hloop'
  rw [hlen] at hs'
  exact ⟨t, st, path, ht, hst, hb, hinv, h2, hs'⟩

theorem followSupply_root (n : Int) (d : Int → Nat) (s : List Int) (hs : AcSupply n d s)
    (_hroot : d 0 = 0) : ∀ (m : Nat) (q : Int), 0 ≤ q → q < n → d q ≤ m →
    ∃ k, k ≤ d q ∧ followSupply s k q = some 0 := by
  intro m
  induction m with
  | zero =>
    intro q hq0 hq1 hd
    by_cases hq : q = 0
    · exact ⟨0, by omega, by rw [hq]; rfl⟩
    · have hlen := hs.1
      obtain ⟨x, hx⟩ := idx_isSome s q hq0 (by omega)
      have := (hs.2.2 q x (by omega) hx).2.2
      omega
  | succ m ih =>
    intro q hq0 hq1 hd
    by_cases hq : q = 0
    · exact ⟨0, by omega, by rw [hq]; rfl⟩
    · have hlen := hs.1
      obtain ⟨x, hx⟩ := idx_isSome s q hq0 (by omega)
      obtain ⟨hx0, hx1, hdx⟩ := hs.2.2 q x (by omega) hx
      obtain ⟨k, hk, hf⟩ := ih x hx0 hx1 (by omega)
      refine ⟨k + 1, by omega, ?_⟩
      unfold followSupply
      rw [hx]
      exact hf

/-- The supply walk of `searchAC` ends: from a state of depth `d` it takes at
most `d` supply links. -/
theorem acFail_total (n : Int) (ac : Automaton) (d : Int → Nat) (s : List Int)
    (hs : AcSupply n d s) (c : Nat) : ∀ (fuel : Nat) (current : Int), 0 ≤ current →
    current < n → d current + 1 ≤ fuel →
    ∃ r, acFail ac s c fuel current = some r ∧ 0 ≤ r ∧ r < n := by
  intro fuel
  induction fuel with
  | zero =>
    intro current _ _ h
    omega
  | succ fuel ih =>
    intro current h0 h1 hf
    unfold acFail
    split
    · have hlen := hs.1
      obtain ⟨x, hx⟩ := idx_isSome s current h0 (by omega)
      rw [hx]
      dsimp only
      by_cases hroot : current = 0
      · subst hroot
        rw [hs.2.1] at hx
        simp only [Option.some.injEq] at hx
        subst hx
        exact ⟨0, by simp, h0, h1⟩
      · obtain ⟨hx0, hx1, hdx⟩ := hs.2.2 current x (by omega) hx
        have hne : (x != -1) = true := by
          simp
          omega
        rw [if_pos hne]
        exact ih x hx0 hx1 (by omega)
    · exact ⟨current, rfl, h0, h1⟩

/-! ## The rounds of the oracle builder -/

/-- A new transition in an automaton with one entry per state and byte: the
write succeeds, keeps the automaton well formed, and changes the one
transition written. -/
theorem createTransition_full (n : Int) (aut : Automaton) (h : AutInv n aut) (hk : KeysNodup aut)
    (down current : Int) (o : Nat) (hd0 : 0 ≤ down) (hd1 : down < n) (hc0 : 0 ≤ current)
    (hc1 : current < n) :
    ∃ aut', createTransition down o current aut = some aut' ∧ AutInv n aut' ∧ KeysNodup aut' ∧
      ∀ (q : Int) (c : Nat),
        getTransition q c aut' = if q = down ∧ c = o then current else getTransition q c aut := by
  obtain ⟨tr, htr⟩ := h.keys down hd0 hd1
  obtain ⟨aut', hct, hinv', _, _⟩ := createTransition_inv n aut h down current o hd0 hd1 hc0 hc1
  have haut' : aut' = aut.set down (tr.set o current) := by
    unfold createTransition at hct
    rw [htr] at hct
    simpa using hct.symm
  subst haut'
  refine ⟨_, hct, hinv', ?_, ?_⟩
  · exact keysNodup_set aut hk down _
      (GoMap.keys_set_nodup tr o current (hk.2 down tr (GoMap.mem_of_get? _ _ _ htr)))
  · intro q c
    by_cases hq : q = down
    · subst hq
      rw [getTransition_of_get n _ hinv' q _ c (GoMap.get?_set_eq _ _ _)]
      by_cases hc : c = o
      · subst hc
        rw [GoMap.get?_set_eq, if_pos ⟨rfl, rfl⟩]
        rfl
      · rw [GoMap.get?_set_ne _ _ _ _ hc, if_neg (fun hh => hc hh.2),
          getTransition_of_get n aut h q tr c htr]
    · rw [if_neg (fun hh => hq hh.1)]
      cases hg : GoMap.get? aut q with
      | none =>
        rw [getTransition_of_none aut q c hg, getTransition_of_none]
        rw [GoMap.get?_set_ne _ _ _ _ hq]
        exact hg
      | some tr' =>
        rw [getTransition_of_get n aut h q tr' c hg,
          getTransition_of_get n _ hinv' q tr' c (by rw [GoMap.get?_set_ne _ _ _ _ hq]; exact hg)]

theorem orcInv_mono (n r r' : Int) (trie orc : Automaton) (hr : r ≤ r')
    (h : OrcInv n r trie orc) : OrcInv n r' trie orc :=
  ⟨h.aut, h.nodup, h.kept, fun b c hne => ⟨(h.added b c hne).1, by
    have := (h.added b c hne).2
    omega⟩⟩

theorem oracleDown_inv (n r : Int) (trie : Automaton) (s : List Int) (o : Nat) (hr0 : 1 ≤ r)
    (hr1 : r < n) : ∀ (fuel : Nat) (orc orc' : Automaton) (down down' : Int),
    OrcInv n (r + 1) trie orc → oracleDown s o r fuel orc down = some (orc', down') →
    OrcInv n (r + 1) trie orc' := by
  intro fuel
  induction fuel with
  | zero =>
    intro orc orc' down down' _ h
    simp [oracleDown] at h
  | succ fuel ih =>
    intro orc orc' down down' hinv h
    unfold oracleDown at h
    by_cases hcond : (stateExists down orc && getTransition down o orc == -1) = true
    · rw [if_pos hcond] at h
      simp only [Bool.and_eq_true, beq_iff_eq] at hcond
      obtain ⟨hex, hlack⟩ := hcond
      obtain ⟨hd0, hd1⟩ := (stateExists_iff n orc hinv.aut down).1 hex
      obtain ⟨orc1, hct, haut1, hk1, hgt⟩ :=
        createTransition_full n orc hinv.aut hinv.nodup down r o hd0 hd1 (by omega) hr1
      rw [hct] at h
      dsimp only at h
      split at h
      · cases h
      · refine ih orc1 orc' _ down' ⟨haut1, hk1, ?_, ?_⟩ h
        · intro b c hne
          rw [hgt b c]
          by_cases hb : b = down ∧ c = o
          · have := hinv.kept b c hne
            rw [hb.1, hb.2, hlack] at this
            rw [hb.1, hb.2] at hne
            exact absurd this.symm hne
          · rw [if_neg hb]
            exact hinv.kept b c hne
        · intro b c hne
          rw [hgt b c] at hne ⊢
          by_cases hb : b = down ∧ c = o
          · rw [if_pos hb]
            omega
          · rw [if_neg hb] at hne ⊢
            exact hinv.added b c hne
    · rw [if_neg hcond] at h
      simp only [Option.some.injEq, Prod.mk.injEq] at h
      rw [← h.1]
      exact hinv

theorem oracleStep_inv (n r : Int) (trie orc orc' : Automaton) (s s' : List Int) (hr0 : 1 ≤ r)
    (hr1 : r < n) (hinv : OrcInv n r trie orc)
    (h : oracleStep (orc, s) r = some (orc', s')) : OrcInv n (r + 1) trie orc' := by
  unfold oracleStep at h
  dsimp only at h
  split at h
  · cases h
  · split at h
    · cases h
    · rename_i orc1 down1 hdown
      have h1 := oracleDown_inv n r trie s _ hr0 hr1 _ orc orc1 _ down1
        (orcInv_mono n r (r + 1) trie orc (by omega) hinv) hdown
      split at h
      · split at h
        · cases h
        · simp only [Option.some.injEq, Prod.mk.injEq] at h
          rw [← h.1]
          exact h1
      · split at h
        · cases h
        · simp only [Option.some.injEq, Prod.mk.injEq] at h
          rw [← h.1]
          exact h1

theorem oracleLoop_inv (n : Int) (trie : Automaton) : ∀ (k : Nat) (orc orc' : Automaton)
    (s s' : List Int) (r : Int), 1 ≤ r → r + (k : Int) ≤ n → OrcInv n r trie orc →
    oracleLoop k (orc, s) r = some (orc', s') → OrcInv n (r + (k : Int)) trie orc' := by
  intro k
  induction k with
  | zero =>
    intro orc orc' s s' r _ _ hinv h
    simp only [oracleLoop, Option.some.injEq, Prod.mk.injEq] at h
    rw [← h.1]
    simpa using hinv
  | succ k ih =>
    intro orc orc' s s' r hr0 hr1 hinv h
    unfold oracleLoop at h
    split at h
    · cases h
    · rename_i st1 hstep
      obtain ⟨orc1, s1⟩ := st1
      have h1 := oracleStep_inv n r trie orc orc1 s s1 hr0 (by push_cast at hr1; omega) hinv hstep
      have := ih orc1 orc' s1 s' (r + 1) (by omega) (by push_cast at hr1 ⊢; omega) h1 h
      have he : r + 1 + (k : Int) = r + ((k + 1 : Nat) : Int) := by
        push_cast
        omega
      rw [he] at this
      exact this

theorem orcInv_init (st : TrieState) (path : Int → Str) (hinv : TrieInv st)
    (h2 : TrieInv2 st path) : OrcInv st.state 1 st.trie st.trie :=
  ⟨autInv_of_trieInv st hinv, h2.nodupKeys, fun _ _ _ => rfl, fun _ _ hne => absurd rfl hne⟩

/-! ## The supply links of the oracle builder -/

/-- One supply link followed. -/
theorem followSupply_succ (s : List Int) (k : Nat) (q x : Int) (h : idx s q = some x) :
    followSupply s (k + 1) q = followSupply s k x := by
  rw [followSupply, h]

/-- Along the supply links the rank `d` falls by one per link at least. -/
theorem followSupply_rank (n : Int) (d : Int → Nat) (s : List Int) (hs : AcSupply n d s) :
    ∀ (k : Nat) (b e : Int), 0 ≤ b → b < n → followSupply s k b = some e →
      e = -1 ∨ (0 ≤ e ∧ e < n ∧ d e + k ≤ d b) := by
  intro k
  induction k with
  | zero =>
    intro b e hb0 hb1 h
    simp only [followSupply, Option.some.injEq] at h
    subst h
    exact Or.inr ⟨hb0, hb1, by omega⟩
  | succ k ih =>
    intro b e hb0 hb1 h
    unfold followSupply at h
    split at h
    · cases h
    · rename_i x hx
      by_cases hb : b = 0
      · subst hb
        rw [hs.2.1] at hx
        simp only [Option.some.injEq] at hx
        subst hx
        cases k with
        | zero =>
          simp only [followSupply, Option.some.injEq] at h
          exact Or.inl h.symm
        | succ k =>
          unfold followSupply at h
          simp [idx] at h
      · obtain ⟨hx0, hx1, hdx⟩ := hs.2.2 b x (by omega) hx
        rcases ih x e hx0 hx1 h with he | ⟨he0, he1, hde⟩
        · exact Or.inl he
        · exact Or.inr ⟨he0, he1, by omega⟩

/-- The walk of one round of `buildOracleMultiple`: it follows supply links
from `down` to the state `down'` it returns; a transition that differs
afterwards was missing, leads to `current`, carries the byte `o`, and starts
at a state of the walk before `down'`; and `down'`, if it is a state, has a
transition on `o`. -/
theorem oracleDown_chain (n r : Int) (s : List Int) (o : Nat) (hr0 : 1 ≤ r) (hr1 : r < n) :
    ∀ (fuel : Nat) (orc orc' : Automaton) (down down' : Int), AutInv n orc → KeysNodup orc →
      oracleDown s o r fuel orc down = some (orc', down') →
      AutInv n orc' ∧ KeysNodup orc' ∧ (∃ k, followSupply s k down = some down') ∧
      (stateExists down' orc' = true → getTransition down' o orc' ≠ -1) ∧
      ∀ (b : Int) (c : Nat), getTransition b c orc' = getTransition b c orc ∨
        (getTransition b c orc = -1 ∧ getTransition b c orc' = r ∧ c = o ∧
          ∃ j, followSupply s (j + 1) b = some down') := by
  intro fuel
  induction fuel with
  | zero =>
    intro orc orc' down down' _ _ h
    simp [oracleDown] at h
  | succ fuel ih =>
    intro orc orc' down down' hinv hk h
    unfold oracleDown at h
    by_cases hcond : (stateExists down orc && getTransition down o orc == -1) = true
    · rw [if_pos hcond] at h
      simp only [Bool.and_eq_true, beq_iff_eq] at hcond
      obtain ⟨hex, hlack⟩ := hcond
      obtain ⟨hd0, hd1⟩ := (stateExists_iff n orc hinv down).1 hex
      obtain ⟨orc1, hct, haut1, hk1, hgt⟩ :=
        createTransition_full n orc hinv hk down r o hd0 hd1 (by omega) hr1
      rw [hct] at h
      dsimp only at h
      split at h
      · cases h
      · rename_i x hx
        obtain ⟨ha, hkk, ⟨k, hfk⟩, hexit, hch⟩ := ih orc1 orc' x down' haut1 hk1 h
        refine ⟨ha, hkk, ⟨k + 1, by rw [followSupply_succ s k down x hx]; exact hfk⟩, hexit, ?_⟩
        intro b c
        have h1 := hgt b c
        rcases hch b c with he | ⟨hm, ht, hc, j, hj⟩
        · by_cases hb : b = down ∧ c = o
          · rw [if_pos hb] at h1
            refine Or.inr ⟨by rw [hb.1, hb.2]; exact hlack, by rw [he]; exact h1, hb.2, k, ?_⟩
            rw [hb.1, followSupply_succ s k down x hx]
            exact hfk
          · rw [if_neg hb] at h1
            exact Or.inl (by rw [he]; exact h1)
        · by_cases hb : b = down ∧ c = o
          · rw [if_pos hb] at h1
            omega
          · rw [if_neg hb] at h1
            exact Or.inr ⟨by rw [← h1]; exact hm, ht, hc, j, hj⟩
    · rw [if_neg hcond] at h
      simp only [Option.some.injEq, Prod.mk.injEq] at h
      obtain ⟨h1, h2⟩ := h
      subst h1
      subst h2
      refine ⟨hinv, hk, ⟨0, rfl⟩, ?_, fun b c => Or.inl rfl⟩
      intro hex hl
      apply hcond
      simp [hex, hl]

/-- One round of `buildOracleMultiple` in terms of its walk. -/
theorem oracleStep_chain (n r : Int) (orc orc1 : Automaton) (s s1 : List Int) (hr0 : 1 ≤ r)
    (hr1 : r < n) (hinv : AutInv n orc) (hk : KeysNodup orc)
    (h : oracleStep (orc, s) r = some (orc1, s1)) :
    AutInv n orc1 ∧ KeysNodup orc1 ∧ ∃ (down0 down' : Int),
      idx s (getParent r orc).2 = some down0 ∧
      oracleDown s (getParent r orc).1 r (orc.length + 1) orc down0 = some (orc1, down') ∧
      (∃ k, followSupply s k down0 = some down') ∧
      (stateExists down' orc1 = true → getTransition down' (getParent r orc).1 orc1 ≠ -1) ∧
      setIdx s r (if stateExists down' orc1 = true then getTransition down' (getParent r orc).1 orc1
        else 0) = some s1 ∧
      ∀ (b : Int) (c : Nat), getTransition b c orc1 = getTransition b c orc ∨
        (getTransition b c orc = -1 ∧ getTransition b c orc1 = r ∧ c = (getParent r orc).1 ∧
          ∃ j, followSupply s (j + 1) b = some down') := by
  unfold oracleStep at h
  dsimp only at h
  split at h
  · cases h
  · rename_i down0 hd0
    split at h
    · cases h
    · rename_i orc2 down1 hdown
      obtain ⟨ha, hkk, hf, hexit, hch⟩ :=
        oracleDown_chain n r s _ hr0 hr1 _ orc orc2 down0 down1 hinv hk hdown
      split at h
      · rename_i hex
        split at h
        · cases h
        · rename_i s2 hset
          simp only [Option.some.injEq, Prod.mk.injEq] at h
          obtain ⟨h1, h2⟩ := h
          subst h1
          subst h2
          refine ⟨ha, hkk, down0, down1, hd0, hdown, hf, hexit, ?_, hch⟩
          rw [if_pos hex]
          exact hset
      · rename_i hex
        split at h
        · cases h
        · rename_i s2 hset
          simp only [Option.some.injEq, Prod.mk.injEq] at h
          obtain ⟨h1, h2⟩ := h
          subst h1
          subst h2
          refine ⟨ha, hkk, down0, down1, hd0, hdown, hf, hexit, ?_, hch⟩
          rw [if_neg hex]
          exact hset

/-- The rounds from `r` on keep every transition and add only transitions
that lead to a state from `r` on. -/
theorem oracleLoop_grow (n : Int) : ∀ (k : Nat) (orc orcF : Automaton) (s sF : List Int) (r : Int),
    1 ≤ r → r + (k : Int) ≤ n → AutInv n orc → KeysNodup orc →
    oracleLoop k (orc, s) r = some (orcF, sF) →
    AutInv n orcF ∧ KeysNodup orcF ∧
      ∀ (b : Int) (c : Nat), getTransition b c orcF = getTransition b c orc ∨
        (getTransition b c orc = -1 ∧ r ≤ getTransition b c orcF) := by
  intro k
  induction k with
  | zero =>
    intro orc orcF s sF r _ _ hinv hk h
    simp only [oracleLoop, Option.some.injEq, Prod.mk.injEq] at h
    rw [← h.1]
    exact ⟨hinv, hk, fun _ _ => Or.inl rfl⟩
  | succ k ih =>
    intro orc orcF s sF r hr0 hr1 hinv hk h
    unfold oracleLoop at h
    split at h
    · cases h
    · rename_i st1 hstep
      obtain ⟨orc1, s1⟩ := st1
      obtain ⟨ha, hkk, _, _, _, _, _, _, _, hch⟩ :=
        oracleStep_chain n r orc orc1 s s1 hr0 (by push_cast at hr1; omega) hinv hk hstep
      obtain ⟨haF, hkF, hg⟩ :=
        ih orc1 orcF s1 sF (r + 1) (by omega) (by push_cast at hr1 ⊢; omega) ha hkk h
      refine ⟨haF, hkF, ?_⟩
      intro b c
      rcases hg b c with he | ⟨hm, hge⟩
      · rcases hch b c with he1 | ⟨hm1, ht1, _⟩
        · exact Or.inl (by rw [he, he1])
        · exact Or.inr ⟨hm1, by rw [he, ht1]⟩
      · rcases hch b c with he1 | ⟨hm1, ht1, _⟩
        · exact Or.inr ⟨by rw [← he1]; exact hm, by omega⟩
        · omega

/-- The states on a chain of supply links are -1 or states. -/
theorem followSupply_range (n : Int) (s : List Int) (hs : SupplyInv n s) :
    ∀ (k : Nat) (b e : Int), -1 ≤ b → b < n → followSupply s k b = some e → -1 ≤ e ∧ e < n := by
  intro k
  induction k with
  | zero =>
    intro b e hb0 hb1 h
    simp only [followSupply, Option.some.injEq] at h
    subst h
    exact ⟨hb0, hb1⟩
  | succ k ih =>
    intro b e _ _ h
    unfold followSupply at h
    split at h
    · cases h
    · rename_i x hx
      obtain ⟨hx0, hx1⟩ := hs.2 b x hx
      exact ih x e hx0 hx1 h

/-- Every state of the trie is reached from the root by its path. -/
theorem walk_of_path (st : TrieState) (path : Int → Str) (hinv : TrieInv st)
    (h2 : TrieInv2 st path) : ∀ (m : Nat) (q : Int), 0 ≤ q → q < st.state →
    (path q).length ≤ m → walk st.trie 0 (path q) = q := by
  intro m
  induction m with
  | zero =>
    intro q hq0 hq1 hl
    have hnil : path q = [] := List.length_eq_zero.1 (by omega)
    have : q = 0 := h2.inj q 0 hq0 hq1 (by omega) (by omega) (by rw [hnil, h2.root])
    rw [hnil, this]
    rfl
  | succ m ih =>
    intro q hq0 hq1 hl
    by_cases hq : q = 0
    · rw [hq, h2.root]
      rfl
    · obtain ⟨b, c, hbc⟩ := h2.incoming q (by omega) hq1
      have hne : getTransition b c st.trie ≠ -1 := by omega
      have he := h2.edges b c hne
      rw [hbc] at he
      obtain ⟨tr, htr, _⟩ := getTransition_ne st.trie b c hne
      obtain ⟨hb0, hb1⟩ := hinv.keysOnly b tr htr
      have hlb : (path b).length ≤ m := by
        rw [he] at hl
        simp at hl
        omega
      rw [he, walk_append, ih b hb0 hb1 hlb]
      exact hbc

/-- A rank of the states of an automaton whose states are all reachable from
the root: the length of the shortest word that leads from the root to the
state. A transition raises it by one at most, and every state but the root
has an incoming transition that raises it by exactly one. -/
theorem layering_exists (n : Int) (aut : Automaton) (hinv : AutInv n aut)
    (hreach : ∀ q : Int, 0 ≤ q → q < n → ∃ w, walk aut 0 w = q) :
    ∃ d : Int → Nat, d 0 = 0 ∧
      (∀ (q : Int) (w : Str), 0 ≤ q → q < n → walk aut 0 w = q → d q ≤ w.length) ∧
      (∀ (b : Int) (c : Nat), getTransition b c aut ≠ -1 →
        d (getTransition b c aut) ≤ d b + 1) ∧
      ∀ q : Int, 1 ≤ q → q < n →
        ∃ (b : Int) (c : Nat), getTransition b c aut = q ∧ d q = d b + 1 := by
  classical
  have hex : ∀ q : Int, (0 ≤ q ∧ q < n) → ∃ k, ∃ w : Str, w.length = k ∧ walk aut 0 w = q := by
    intro q hq
    obtain ⟨w, hw⟩ := hreach q hq.1 hq.2
    exact ⟨w.length, w, rfl, hw⟩
  have hd : ∃ d : Int → Nat, ∀ q : Int, 0 ≤ q → q < n →
      (∀ w : Str, walk aut 0 w = q → d q ≤ w.length) ∧
      ∃ w : Str, w.length = d q ∧ walk aut 0 w = q := by
    refine ⟨fun q => if h : 0 ≤ q ∧ q < n then Nat.find (hex q h) else 0, ?_⟩
    intro q h0 h1
    dsimp only
    rw [dif_pos ⟨h0, h1⟩]
    exact ⟨fun w hw => Nat.find_min' _ ⟨w, rfl, hw⟩, Nat.find_spec (hex q ⟨h0, h1⟩)⟩
  obtain ⟨d, hd⟩ := hd
  have hpos := hinv.pos
  have hstep : ∀ (b : Int) (c : Nat), getTransition b c aut ≠ -1 →
      d (getTransition b c aut) ≤ d b + 1 := by
    intro b c hne
    obtain ⟨tr, htr, hc⟩ := getTransition_ne aut b c hne
    obtain ⟨hb0, hb1⟩ := hinv.keysOnly b tr htr
    obtain ⟨hq0, hq1⟩ := hinv.targets b tr c _ htr hc
    obtain ⟨w, hwl, hw⟩ := (hd b hb0 hb1).2
    have := (hd _ hq0 hq1).1 (w ++ [c]) (by rw [walk_append, hw]; rfl)
    simp at this
    omega
  refine ⟨d, ?_, fun q w h0 h1 hw => (hd q h0 h1).1 w hw, hstep, ?_⟩
  · have := (hd 0 (by omega) (by omega)).1 [] rfl
    simpa using this
  · intro q hq0 hq1
    obtain ⟨w, hwl, hw⟩ := (hd q (by omega) hq1).2
    rcases List.eq_nil_or_concat w with hnil | ⟨w', c, hwc⟩
    · subst hnil
      simp only [walk] at hw
      omega
    · subst hwc
      rw [List.concat_eq_append] at hw hwl
      rw [walk_append] at hw
      have hbc : getTransition (walk aut 0 w') c aut = q := hw
      have hne : getTransition (walk aut 0 w') c aut ≠ -1 := by omega
      obtain ⟨tr, htr, _⟩ := getTransition_ne aut _ c hne
      obtain ⟨hb0, hb1⟩ := hinv.keysOnly _ tr htr
      have h1 := (hd _ hb0 hb1).1 w' rfl
      have h2 := hstep _ c hne
      rw [hbc] at h2
      refine ⟨_, c, hbc, ?_⟩
      simp at hwl
      omega

/-- With respect to a rank of the final oracle, the rounds of
`buildOracleMultiple` keep the supply array strictly falling: the supply of
a state has a smaller rank than the state. -/
theorem oracleLoop_rank (n : Int) (d : Int → Nat) (orcF : Automaton) (hd0 : d 0 = 0)
    (hd1 : ∀ (b : Int) (c : Nat), getTransition b c orcF ≠ -1 →
      d (getTransition b c orcF) ≤ d b + 1)
    (hd2 : ∀ q : Int, 1 ≤ q → q < n →
      ∃ (b : Int) (c : Nat), getTransition b c orcF = q ∧ d q = d b + 1) :
    ∀ (k : Nat) (orc : Automaton) (s sF : List Int) (r : Int), 1 ≤ r → r + (k : Int) ≤ n →
      AutInv n orc → KeysNodup orc →
      (∀ q : Int, r ≤ q → ∀ (b b' : Int) (c c' : Nat), getTransition b c orc = q →
        getTransition b' c' orc = q → b = b' ∧ c = c') →
      AcSupply n d s → oracleLoop k (orc, s) r = some (orcF, sF) → AcSupply n d sF := by
  intro k
  induction k with
  | zero =>
    intro orc s sF r _ _ _ _ _ hs h
    simp only [oracleLoop, Option.some.injEq, Prod.mk.injEq] at h
    rw [← h.2]
    exact hs
  | succ k ih =>
    intro orc s sF r hr0 hrk hinv hk huniq hs h
    have hr1 : r < n := by push_cast at hrk; omega
    unfold oracleLoop at h
    split at h
    · cases h
    · rename_i st1 hstep
      obtain ⟨orc1, s1⟩ := st1
      obtain ⟨ha, hkk, down0, down1, hdn0, _, ⟨k0, hf0⟩, hexit, hset, hch⟩ :=
        oracleStep_chain n r orc orc1 s s1 hr0 hr1 hinv hk hstep
      obtain ⟨_, _, hg⟩ :=
        oracleLoop_grow n k orc1 orcF s1 sF (r + 1) (by omega) (by push_cast at hrk ⊢; omega)
          ha hkk h
      obtain ⟨x, cx, hx, hdx⟩ := hd2 r hr0 hr1
      have hx1 : getTransition x cx orc1 = r := by
        rcases hg x cx with he | ⟨_, hge⟩
        · rw [← he]
          exact hx
        · omega
      obtain ⟨tr, htr, _⟩ := getTransition_ne orc1 x cx (by omega)
      obtain ⟨hxa, hxb⟩ := ha.keysOnly x tr htr
      have hchain : ∃ j, followSupply s (j + 1) x = some down1 := by
        rcases hch x cx with he | ⟨_, _, _, hj⟩
        · have hold : getTransition x cx orc = r := by
            rw [← he]
            exact hx1
          have hgp := getParent_transition n orc hinv hk r (by omega) x cx hold
          have := huniq r (le_refl _) x _ cx _ hold hgp
          rw [this.1]
          exact ⟨k0, by rw [followSupply_succ s k0 _ down0 hdn0]; exact hf0⟩
        · exact hj
      obtain ⟨j, hj⟩ := hchain
      have hrank := followSupply_rank n d s hs (j + 1) x down1 hxa hxb hj
      have hs1 : AcSupply n d s1 := by
        by_cases hex : stateExists down1 orc1 = true
        · rw [if_pos hex] at hset
          obtain ⟨he0, he1⟩ := (stateExists_iff n orc1 ha down1).1 hex
          have hne := hexit hex
          rcases getTransition_range n orc1 ha down1 (getParent r orc).1 with hm | ⟨hv0, hv1⟩
          · exact absurd hm hne
          · have hF : getTransition down1 (getParent r orc).1 orcF
                = getTransition down1 (getParent r orc).1 orc1 := by
              rcases hg down1 (getParent r orc).1 with he | ⟨hm, _⟩
              · exact he
              · exact absurd hm hne
            have hle := hd1 down1 (getParent r orc).1 (by rw [hF]; exact hne)
            rw [hF] at hle
            have hlt : d (getTransition down1 (getParent r orc).1 orc1) < d r := by
              rcases hrank with hneg | ⟨_, _, hr⟩
              · omega
              · omega
            have := acSupply_set n d s hs r _ hr0 hr1 hv0 hv1 hlt
            rw [this.1] at hset
            simp only [Option.some.injEq] at hset
            rw [← hset]
            exact this.2.1
        · rw [if_neg hex] at hset
          have := acSupply_set n d s hs r 0 hr0 hr1 (by omega) (by omega) (by omega)
          rw [this.1] at hset
          simp only [Option.some.injEq] at hset
          rw [← hset]
          exact this.2.1
      refine ih orc1 s1 sF (r + 1) (by omega) (by push_cast at hrk ⊢; omega) ha hkk ?_ hs1 h
      intro q hq b b' c c' hb hb'
      have e1 : getTransition b c orc = q := by
        rcases hch b c with he | ⟨_, ht, _⟩
        · rw [← he]
          exact hb
        · omega
      have e2 : getTransition b' c' orc = q := by
        rcases hch b' c' with he | ⟨_, ht, _⟩
        · rw [← he]
          exact hb'
        · omega
      exact huniq q (by omega) b b' c c' e1 e2

/-- The first rounds of the loop of `buildOracleMultiple` return. -/
theorem oracleLoop_upto (n : Int) : ∀ (k : Nat) (orc : Automaton) (s : List Int) (current : Int),
    AutInv n orc → SupplyInv n s → 1 ≤ current → current + (k : Int) ≤ n →
    ∃ orc' s', oracleLoop k (orc, s) current = some (orc', s') ∧ AutInv n orc' ∧ SupplyInv n s' := by
  intro k
  induction k with
  | zero =>
    intro orc s current hinv hs _ _
    exact ⟨orc, s, rfl, hinv, hs⟩
  | succ k ih =>
    intro orc s current hinv hs hc hk
    obtain ⟨orc1, s1, hstep, hinv1, hs1⟩ :=
      oracleStep_total n orc s hinv hs current hc (by push_cast at hk; omega)
    obtain ⟨orc2, s2, hloop, hinv2, hs2⟩ :=
      ih orc1 s1 (current + 1) hinv1 hs1 (by omega) (by push_cast at hk; omega)
    refine ⟨orc2, s2, ?_, hinv2, hs2⟩
    unfold oracleLoop
    rw [hstep]
    exact hloop

/-! ## Suffixes in the Aho-Corasick automaton -/

/-- What `arrayUnion` returns holds nothing but the elements of its arguments. -/
theorem arrayUnion_sub : ∀ (src dst u : List Int), arrayUnion dst src = some u →
    ∀ x ∈ u, x ∈ dst ∨ x ∈ src := by
  intro src
  induction src with
  | nil =>
    intro dst u h
    simp only [arrayUnion, Option.some.injEq] at h
    subst h
    exact fun _ hx => Or.inl hx
  | cons y rest ih =>
    intro dst u h
    unfold arrayUnion at h
    cases hc : contains dst y with
    | true =>
      simp only [hc, Bool.not_true, Bool.false_eq_true, if_false] at h
      intro x hx
      rcases ih dst u h x hx with h1 | h1
      · exact Or.inl h1
      · exact Or.inr (List.mem_cons_of_mem _ h1)
    | false =>
      simp only [hc, Bool.not_false, if_true] at h
      rw [setLast_capUp] at h
      dsimp only at h
      intro x hx
      rcases ih (dst ++ [y]) u h x hx with h1 | h1
      · rcases List.mem_append.1 h1 with h2 | h2
        · exact Or.inl h2
        · simp only [List.mem_singleton] at h2
          rw [h2]
          exact Or.inr (List.mem_cons_self _ _)
      · exact Or.inr (List.mem_cons_of_mem _ h1)

/-- A suffix stays a suffix when both strings get the same last byte. -/
theorem isSuffix_snoc (u v : Str) (c : Nat) (h : List.IsSuffix u v) :
    List.IsSuffix (u ++ [c]) (v ++ [c]) := by
  obtain ⟨x, hx⟩ := h
  exact ⟨x, by rw [← hx, List.append_assoc]⟩

/-- The walk of a round of `buildAc` stays on suffixes of the path it starts from. -/
theorem acDown_suffix (n : Int) (aut : Automaton) (hinv : AutInv n aut) (path : Int → Str)
    (s : List Int) (hs : AcSupply n (fun q => (path q).length) s)
    (hsuf : ∀ q x : Int, 1 ≤ q → idx s q = some x → List.IsSuffix (path x) (path q))
    (o : Nat) (u : Str) : ∀ (fuel : Nat) (down down' : Int),
    (down = -1 ∨ (0 ≤ down ∧ down < n ∧ List.IsSuffix (path down) u)) →
    acDown aut s o fuel down = some down' →
    down' = -1 ∨ (0 ≤ down' ∧ down' < n ∧ List.IsSuffix (path down') u ∧
      getTransition down' o aut ≠ -1) := by
  intro fuel
  induction fuel with
  | zero =>
    intro down down' _ h
    simp [acDown] at h
  | succ fuel ih =>
    intro down down' hd h
    unfold acDown at h
    by_cases hcond : (stateExists down aut && getTransition down o aut == -1) = true
    · rw [if_pos hcond] at h
      simp only [Bool.and_eq_true, beq_iff_eq] at hcond
      obtain ⟨hd0, hd1⟩ := (stateExists_iff n aut hinv down).1 hcond.1
      split at h
      · cases h
      · rename_i x hx
        refine ih x down' ?_ h
        by_cases hroot : down = 0
        · rw [hroot, hs.2.1] at hx
          simp only [Option.some.injEq] at hx
          exact Or.inl hx.symm
        · obtain ⟨hx0, hx1, _⟩ := hs.2.2 down x (by omega) hx
          rcases hd with hneg | ⟨_, _, hsd⟩
          · omega
          · exact Or.inr ⟨hx0, hx1, (hsuf down x (by omega) hx).trans hsd⟩
    · rw [if_neg hcond] at h
      simp only [Option.some.injEq] at h
      subst h
      rcases hd with hneg | ⟨hd0, hd1, hsd⟩
      · exact Or.inl hneg
      · refine Or.inr ⟨hd0, hd1, hsd, ?_⟩
        intro hl
        apply hcond
        simp [(stateExists_iff n aut hinv down).2 ⟨hd0, hd1⟩, hl]

/-- Writing a supply whose path is a suffix keeps the supply array on suffixes. -/
theorem acSuffix_set_supply (path : Int → Str) (s : List Int) (current v : Int)
    (hsuf : ∀ q x : Int, 1 ≤ q → idx s q = some x → List.IsSuffix (path x) (path q))
    (hc : 0 ≤ current ∧ current.toNat < s.length) (hv : List.IsSuffix (path v) (path current)) :
    ∀ q x : Int, 1 ≤ q → idx (s.set current.toNat v) q = some x →
      List.IsSuffix (path x) (path q) := by
  intro q x hq hx
  by_cases hqc : q = current
  · rw [hqc, idx_set_eq s current v hc.1 hc.2] at hx
    simp only [Option.some.injEq] at hx
    rw [hqc, ← hx]
    exact hv
  · rw [idx_set_ne s current q v hc.1 (by omega) (fun hh => hqc hh.symm)] at hx
    exact hsuf q x hq hx

/-- One round of `buildAc` keeps the supply and the output sets on suffixes. -/
theorem acStep_suffix (p : List Str) (t : TrieState) (path : Int → Str) (hinv : TrieInv t)
    (h2 : TrieInv2 t path) (st st' : AcState)
    (hs : AcSupply t.state (fun q => (path q).length) st.s) (hsuf : AcSuffix p path st)
    (current : Int) (hc0 : 1 ≤ current) (hc1 : current < t.state)
    (h : acStep t.trie st current = some st') : AcSuffix p path st' := by
  have haut := autInv_of_trieInv t hinv
  obtain ⟨hgp, _⟩ := trie_getParent t path hinv h2 current hc0 hc1
  have hne : getTransition (getParent current t.trie).2 (getParent current t.trie).1 t.trie ≠ -1 := by
    rw [hgp]
    omega
  have hpath := h2.edges _ _ hne
  rw [hgp] at hpath
  obtain ⟨tr, htr, _⟩ := getTransition_ne t.trie _ _ hne
  obtain ⟨hp0, hp1⟩ := haut.keysOnly _ tr htr
  have hroot : path 0 = [] := h2.root
  unfold acStep at h
  dsimp only at h
  split at h
  · cases h
  · rename_i down0 hdown0
    have hd0 : down0 = -1 ∨ (0 ≤ down0 ∧ down0 < t.state ∧
        List.IsSuffix (path down0) (path (getParent current t.trie).2)) := by
      by_cases hpar : (getParent current t.trie).2 = 0
      · rw [hpar, hs.2.1] at hdown0
        simp only [Option.some.injEq] at hdown0
        exact Or.inl hdown0.symm
      · obtain ⟨hx0, hx1, _⟩ := hs.2.2 _ down0 (by omega) hdown0
        exact Or.inr ⟨hx0, hx1, hsuf.supply _ down0 (by omega) hdown0⟩
    split at h
    · cases h
    · rename_i down1 hdown1
      have hd1 := acDown_suffix t.state t.trie haut path st.s hs hsuf.supply _ _ _ down0 down1
        hd0 hdown1
      split at h
      · rename_i hex
        obtain ⟨he0, he1⟩ := (stateExists_iff t.state t.trie haut down1).1 hex
        have hv : List.IsSuffix
            (path (getTransition down1 (getParent current t.trie).1 t.trie)) (path current) := by
          rcases hd1 with hneg | ⟨_, _, hsd, hnd⟩
          · omega
          · rw [h2.edges _ _ hnd, hpath]
            exact isSuffix_snoc _ _ _ hsd
        split at h
        · cases h
        · rename_i s1 hset
          have hset' := hset
          unfold setIdx at hset'
          split at hset'
          · rename_i hcur
            simp only [Option.some.injEq] at hset'
            subst hset'
            have hsup := acSuffix_set_supply path st.s current _ hsuf.supply hcur hv
            split at h
            · cases h
            · rename_i sc hsc
              rw [idx_set_eq st.s current _ hcur.1 hcur.2] at hsc
              simp only [Option.some.injEq] at hsc
              subst hsc
              split at h
              · cases h
              · split at h
                · cases h
                · split at h
                  · cases h
                  · rename_i u hu
                    simp only [Option.some.injEq] at h
                    subst h
                    refine ⟨hsup, ?_⟩
                    intro q i hi
                    show ∃ w, idx p i = some w ∧ List.IsSuffix w (path q)
                    have hi' : i ∈ outputOf (st.f.set current u) q := hi
                    by_cases hq : q = current
                    · rw [hq, outputOf_set_eq] at hi'
                      rw [hq]
                      rcases arrayUnion_sub _ _ _ hu i hi' with h1 | h1
                      · exact hsuf.outputs current i h1
                      · obtain ⟨w, hw, hws⟩ := hsuf.outputs _ i h1
                        exact ⟨w, hw, hws.trans hv⟩
                    · rw [outputOf_set_ne _ _ _ _ hq] at hi'
                      exact hsuf.outputs q i hi'
              · simp only [Option.some.injEq] at h
                subst h
                exact ⟨hsup, hsuf.outputs⟩
          · cases hset'
      · split at h
        · cases h
        · rename_i s1 hset
          have hset' := hset
          unfold setIdx at hset'
          split at hset'
          · rename_i hcur
            simp only [Option.some.injEq] at hset' h
            subst hset'
            subst h
            refine ⟨acSuffix_set_supply path st.s current 0 hsuf.supply hcur ?_, hsuf.outputs⟩
            rw [hroot]
            exact List.nil_suffix
          · cases hset'

/-- The loop of `buildAc` keeps the supply and the output sets on suffixes. -/
theorem acLoop_suffix (p : List Str) (t : TrieState) (path : Int → Str) (hinv : TrieInv t)
    (h2 : TrieInv2 t path) : ∀ (k : Nat) (st st' : AcState) (current : Int),
    (st.stateIsTerminal.length : Int) = t.state →
    AcSupply t.state (fun q => (path q).length) st.s → AcSuffix p path st → 1 ≤ current →
    current + (k : Int) = t.state → acLoop t.trie k st current = some st' →
    AcSuffix p path st' ∧ AcSupply t.state (fun q => (path q).length) st'.s := by
  intro k
  induction k with
  | zero =>
    intro st st' current _ hs hsuf _ _ h
    simp only [acLoop, Option.some.injEq] at h
    subst h
    exact ⟨hsuf, hs⟩
  | succ k ih =>
    intro st st' current hlen hs hsuf hc hk h
    have hc1 : current < t.state := by push_cast at hk; omega
    obtain ⟨st1, hstep, hlen1, hs1⟩ :=
      acStep_total t.state t.trie (autInv_of_trieInv t hinv) _ (depthInv_of_inv2 t path hinv h2)
        st hlen hs current hc hc1
    unfold acLoop at h
    rw [hstep] at h
    dsimp only at h
    exact ih st1 st' (current + 1) hlen1 hs1
      (acStep_suffix p t path hinv h2 st st1 hs hsuf current hc hc1 hstep) (by omega)
      (by push_cast at hk; omega) h

/-! ## The scan of the Aho-Corasick matcher -/

/-- The trace of `searchAC` carries the occurrence index that `acScan` returns. -/
theorem acTrace_fst (p : List Str) (t : Str) (ac : Automaton) (f : OutputSets) (s : List Int) :
    ∀ (rest : Str) (pos current : Int) (occ : Occurrences),
      (acTrace p t ac f s rest pos current occ).map Prod.fst
        = acScan p t ac f s rest pos current occ := by
  intro rest
  induction rest with
  | nil => intro pos current occ; rfl
  | cons c rest ih =>
    intro pos current occ
    unfold acTrace acScan
    cases acFail ac s c (ac.length + 1) current with
    | none => rfl
    | some r =>
      dsimp only
      cases f.get? (if (getTransition r c ac != -1) = true then getTransition r c ac else 0) with
      | none =>
        dsimp only
        rw [← ih]
        cases acTrace p t ac f s rest (pos + 1)
          (if (getTransition r c ac != -1) = true then getTransition r c ac else 0) occ <;> rfl
      | some l =>
        dsimp only
        cases acReport p t pos occ l with
        | none => rfl
        | some occ1 =>
          dsimp only
          rw [← ih]
          cases acTrace p t ac f s rest (pos + 1)
            (if (getTransition r c ac != -1) = true then getTransition r c ac else 0) occ1 <;> rfl

/-- The trace of `searchAC` carries the occurrence index that `searchAC` returns. -/
theorem searchACTrace_fst (p : List Str) (t : Str) :
    (searchACTrace p t).map Prod.fst = searchAC p t := by
  unfold searchACTrace searchAC
  cases buildAc p with
  | none => rfl
  | some r =>
    obtain ⟨ac, f, s⟩ := r
    exact acTrace_fst p t ac f s t 0 0 []

/-- Reading `n` bytes from an index `i` with `i + n <= len(t)` succeeds. -/
theorem readFrom_total (t : Str) : ∀ (n i : Nat), i + n ≤ t.length →
    readFrom t n (i : Int) = some ((t.drop i).take n) := by
  intro n
  induction n with
  | zero =>
    intro i _
    simp [readFrom]
  | succ n ih =>
    intro i h
    have hi : i < t.length := by omega
    unfold readFrom
    have hidx : idx t (i : Int) = some t[i] := by
      unfold idx
      rw [if_pos (by omega)]
      simp [hi]
    rw [hidx]
    dsimp only
    have hcast : (i : Int) + 1 = ((i + 1 : Nat) : Int) := by push_cast; rfl
    rw [hcast, ih (i + 1) (by omega)]
    dsimp only
    rw [List.drop_eq_getElem_cons hi, List.take_succ_cons]

/-- A suffix of the text read up to `pos` is what `getWord` returns for the
window of its length that ends at `pos`. -/
theorem getWord_of_suffix (t w : Str) (pos : Int) (h0 : 0 ≤ pos) (h1 : pos < (t.length : Int))
    (hw : List.IsSuffix w (t.take (pos.toNat + 1))) :
    (w.length : Int) ≤ pos + 1 ∧ getWord (pos - (w.length : Int) + 1) pos t = some w := by
  obtain ⟨u, hu⟩ := hw
  have hlen : u.length + w.length = pos.toNat + 1 := by
    have := congrArg List.length hu
    simp at this
    omega
  refine ⟨by omega, ?_⟩
  unfold getWord
  rw [if_neg (by omega), if_neg (by omega)]
  have hsz : (pos - (pos - (w.length : Int) + 1) + 1).toNat = w.length := by omega
  have hb : pos - (w.length : Int) + 1 = ((u.length : Nat) : Int) := by omega
  rw [hsz, hb, readFrom_total t w.length u.length (by omega)]
  have ht : t = u ++ (w ++ t.drop (pos.toNat + 1)) := by
    rw [← List.append_assoc, hu, List.take_append_drop]
  have := congrArg (fun l => (l.drop u.length).take w.length) ht
  simp only [List.drop_left, List.take_left] at this
  rw [this]

/-- The loop over the candidates returns when every candidate is a pattern
whose window can be read. -/
theorem acReport_total (p : List Str) (t : Str) (pos : Int) : ∀ (l : List Int) (occ : Occurrences),
    (∀ k ∈ l, ∃ w, idx p k = some w ∧ getWord (pos - (w.length : Int) + 1) pos t = some w) →
    ∃ occ', acReport p t pos occ l = some occ' := by
  intro l
  induction l with
  | nil => intro occ _; exact ⟨occ, rfl⟩
  | cons k rest ih =>
    intro occ h
    obtain ⟨w, hw, hg⟩ := h k (List.mem_cons_self _ _)
    unfold acReport
    rw [hw]
    dsimp only
    rw [hg]
    dsimp only
    rw [if_pos rfl, record_eq]
    dsimp only
    exact ih _ (fun k' hk' => h k' (List.mem_cons_of_mem _ hk'))

/-- The supply walk of `searchAC` stays on suffixes of the path it starts from. -/
theorem acFail_suffix (n : Int) (ac : Automaton) (path : Int → Str) (s : List Int)
    (hs : AcSupply n (fun q => (path q).length) s)
    (hsuf : ∀ q x : Int, 1 ≤ q → idx s q = some x → List.IsSuffix (path x) (path q))
    (c : Nat) (u : Str) : ∀ (fuel : Nat) (current r : Int), 0 ≤ current → current < n →
    List.IsSuffix (path current) u → acFail ac s c fuel current = some r →
    0 ≤ r ∧ r < n ∧ List.IsSuffix (path r) u := by
  intro fuel
  induction fuel with
  | zero =>
    intro current r _ _ _ h
    simp [acFail] at h
  | succ fuel ih =>
    intro current r h0 h1 hsu h
    unfold acFail at h
    split at h
    · split at h
      · cases h
      · rename_i x hx
        split at h
        · rename_i hne
          have hx1 : x ≠ -1 := by simpa using hne
          have hc : current ≠ 0 := by
            intro hc
            rw [hc, hs.2.1] at hx
            simp only [Option.some.injEq] at hx
            exact hx1 hx.symm
          obtain ⟨hx0, hxn, _⟩ := hs.2.2 current x (by omega) hx
          exact ih x r hx0 hxn ((hsuf current x (by omega) hx).trans hsu) h
        · simp only [Option.some.injEq] at h
          subst h
          exact ⟨h0, h1, hsu⟩
    · simp only [Option.some.injEq] at h
      subst h
      exact ⟨h0, h1, hsu⟩

/-- The loop of `searchAC` returns, it looks up the candidates once per text
position, and the path of the state at which it does so is a suffix of the
text read so far. -/
theorem acTrace_spec (p : List Str) (t : Str) (tr : TrieState) (path : Int → Str)
    (hinv : TrieInv tr) (h2 : TrieInv2 tr path) (st : AcState)
    (hs : AcSupply tr.state (fun q => (path q).length) st.s) (hsuf : AcSuffix p path st) :
    ∀ (rest pre : Str) (pos current : Int) (occ : Occurrences), t = pre ++ rest →
      pos = (pre.length : Int) → 0 ≤ current → current < tr.state →
      List.IsSuffix (path current) pre →
      ∃ occ' visited, acTrace p t tr.trie st.f st.s rest pos current occ = some (occ', visited) ∧
        visited.map Prod.fst = (List.range rest.length).map (fun k : Nat => pos + (k : Int)) ∧
        ∀ (ps q : Int), (ps, q) ∈ visited → 0 ≤ q ∧ q < tr.state ∧ 0 ≤ ps ∧
          ps < (t.length : Int) ∧ List.IsSuffix (path q) (t.take (ps.toNat + 1)) := by
  have haut := autInv_of_trieInv tr hinv
  intro rest
  induction rest with
  | nil =>
    intro pre pos current occ _ _ _ _ _
    exact ⟨occ, [], rfl, rfl, fun ps q hm => by cases hm⟩
  | cons c rest ih =>
    intro pre pos current occ ht hpos h0 h1 hsu
    have hb := h2.bound current h0 h1
    have hsize := haut.size
    obtain ⟨r, hfail, _, _⟩ := acFail_total tr.state tr.trie _ st.s hs c (tr.trie.length + 1)
      current h0 h1 (by show (path current).length + 1 ≤ _; omega)
    obtain ⟨hr0, hr1, hrs⟩ := acFail_suffix tr.state tr.trie path st.s hs hsuf.supply c pre _
      current r h0 h1 hsu hfail
    have htake : t.take (pos.toNat + 1) = pre ++ [c] := by
      rw [ht, hpos]
      simp [List.take_append_eq_append_take]
    have hnext : ∃ cur, (if (getTransition r c tr.trie != -1) = true
        then getTransition r c tr.trie else 0) = cur ∧ 0 ≤ cur ∧ cur < tr.state ∧
        List.IsSuffix (path cur) (pre ++ [c]) := by
      by_cases hne : getTransition r c tr.trie = -1
      · refine ⟨0, by simp [hne], by omega, by have := haut.pos; omega, ?_⟩
        rw [h2.root]
        exact List.nil_suffix
      · rcases getTransition_range tr.state tr.trie haut r c with hm | ⟨hv0, hv1⟩
        · exact absurd hm hne
        · refine ⟨_, by simp [hne], hv0, hv1, ?_⟩
          rw [h2.edges r c hne]
          exact isSuffix_snoc _ _ _ hrs
    obtain ⟨cur, hcur, hc0, hc1, hcs⟩ := hnext
    have hlt : pos < (t.length : Int) := by
      rw [ht, hpos]
      simp
    have hrep : ∀ l, st.f.get? cur = some l → ∀ occ0, ∃ occ1, acReport p t pos occ0 l = some occ1 := by
      intro l hl occ0
      apply acReport_total
      intro k hk
      have hk' : k ∈ outputOf st.f cur := by
        unfold outputOf
        rw [hl]
        exact hk
      obtain ⟨w, hw, hws⟩ := hsuf.outputs cur k hk'
      have := getWord_of_suffix t w pos (by omega) hlt (by rw [htake]; exact hws.trans hcs)
      exact ⟨w, hw, this.2⟩
    have hrec : ∀ occ0, ∃ occ' visited,
        acTrace p t tr.trie st.f st.s rest (pos + 1) cur occ0 = some (occ', visited) ∧
        visited.map Prod.fst = (List.range rest.length).map (fun k : Nat => pos + 1 + (k : Int)) ∧
        ∀ (ps q : Int), (ps, q) ∈ visited → 0 ≤ q ∧ q < tr.state ∧ 0 ≤ ps ∧
          ps < (t.length : Int) ∧ List.IsSuffix (path q) (t.take (ps.toNat + 1)) :=
      fun occ0 => ih (pre ++ [c]) (pos + 1) cur occ0 (by rw [ht]; simp) (by rw [hpos]; simp)
        hc0 hc1 hcs
    have hfin : ∀ (occ' : Occurrences) (visited : List (Int × Int)),
        visited.map Prod.fst = (List.range rest.length).map (fun k : Nat => pos + 1 + (k : Int)) →
        (∀ (ps q : Int), (ps, q) ∈ visited → 0 ≤ q ∧ q < tr.state ∧ 0 ≤ ps ∧
          ps < (t.length : Int) ∧ List.IsSuffix (path q) (t.take (ps.toNat + 1))) →
        ((pos, cur) :: visited).map Prod.fst
            = (List.range (c :: rest).length).map (fun k : Nat => pos + (k : Int)) ∧
          ∀ (ps q : Int), (ps, q) ∈ (pos, cur) :: visited → 0 ≤ q ∧ q < tr.state ∧ 0 ≤ ps ∧
            ps < (t.length : Int) ∧ List.IsSuffix (path q) (t.take (ps.toNat + 1)) := by
      intro occ' visited hmap hall
      constructor
      · rw [List.map_cons, hmap, List.length_cons, List.range_succ_eq_map, List.map_cons,
          List.map_map]
        congr 1
        · simp
        · apply List.map_congr_left
          intro k _
          simp only [Function.comp]
          push_cast
          omega
      · intro ps q hm
        rcases List.mem_cons.1 hm with he | hm'
        · simp only [Prod.mk.injEq] at he
          rw [he.1, he.2, htake]
          exact ⟨hc0, hc1, by omega, hlt, hcs⟩
        · exact hall ps q hm'
    unfold acTrace
    rw [hfail]
    dsimp only
    rw [hcur]
    cases hget : st.f.get? cur with
    | none =>
      dsimp only
      obtain ⟨occ', visited, hrun, hmap, hall⟩ := hrec occ
      rw [hrun]
      exact ⟨occ', _, rfl, hfin occ' visited hmap hall⟩
    | some l =>
      dsimp only
      obtain ⟨occ1, hocc1⟩ := hrep l hget occ
      rw [hocc1]
      dsimp only
      obtain ⟨occ', visited, hrun, hmap, hall⟩ := hrec occ1
      rw [hrun]
      exact ⟨occ', _, rfl, hfin occ' visited hmap hall⟩

/-- What `buildAc` returns, with the paths of the trie: the supply of a state
is strictly less deep and its path a suffix, and the patterns of an output
set are suffixes of the path of the state. -/
theorem buildAc_suffix (p : List Str) :
    ∃ (t : TrieState) (st : AcState) (path : Int → Str), constructTrie p = some t ∧
      buildAc p = some (t.trie, st.f, st.s) ∧ TrieInv t ∧ TrieInv2 t path ∧
      AcSupply t.state (fun q => (path q).length) st.s ∧ AcSuffix p path st := by
  obtain ⟨t, ht, hinv, ⟨path, h2⟩, hspec⟩ := constructTrie_spec p
  obtain ⟨t', st, ht', _, hb, hloop⟩ := buildAcState_total p
  rw [ht] at ht'
  simp only [Option.some.injEq] at ht'
  subst ht'
  have hlen := hinv.len
  have hpos := hinv.pos
  have haut := autInv_of_trieInv t hinv
  have hd := depthInv_of_inv2 t path hinv h2
  have hd' := hd
  rw [← hlen] at hd'
  obtain ⟨_, hs⟩ := acSupply_init t.stateIsTerminal.length (by omega) t.trie _ hd'
  rw [hlen] at hs
  have hlt0 : (0 : Int).toNat < (List.replicate t.stateIsTerminal.length (0 : Int)).length := by
    simp
    omega
  have hsuf0 : AcSuffix p path (⟨t.stateIsTerminal, t.f,
      (List.replicate t.stateIsTerminal.length (0 : Int)).set 0 (-1)⟩ : AcState) := by
    constructor
    · intro q x hq hx
      have hx' : idx ((List.replicate t.stateIsTerminal.length (0 : Int)).set (0 : Int).toNat (-1)) q
          = some x := hx
      rw [idx_set_ne _ 0 q (-1) (by omega) (by omega) (by omega)] at hx'
      rw [List.eq_of_mem_replicate (idx_mem _ _ _ hx'), h2.root]
      exact List.nil_suffix
    · intro q i hi
      obtain ⟨j, w, hij, hw, hq⟩ := (hspec.outputs q i).1 hi
      obtain ⟨hw0, _, _⟩ := hspec.ends j w hw
      have hpw := walk_path t path h2 w 0 (by omega)
      rw [hq, h2.root, List.nil_append] at hpw
      refine ⟨w, ?_, by rw [hpw]⟩
      rw [hij]
      unfold idx
      rw [if_pos (by omega)]
      simpa using hw
  obtain ⟨hsufF, hsF⟩ := acLoop_suffix p t path hinv h2 (t.stateIsTerminal.length - 1) _ st 1
    hlen hs hsuf0 (by omega) (by omega) hloop
  exact ⟨t, st, path, ht, hb, hinv, h2, hsF, hsufF⟩

/-- The run of `searchAC` over what `buildAc` returns. -/
theorem searchACTrace_spec (p : List Str) (t : Str) :
    ∃ (tr : TrieState) (st : AcState) (path : Int → Str) (occ : Occurrences)
      (visited : List (Int × Int)), constructTrie p = some tr ∧
      buildAc p = some (tr.trie, st.f, st.s) ∧ TrieInv tr ∧ TrieInv2 tr path ∧
      AcSupply tr.state (fun q => (path q).length) st.s ∧ AcSuffix p path st ∧
      searchAC p t = some occ ∧ searchACTrace p t = some (occ, visited) ∧
      visited.map Prod.fst = (List.range t.length).map (fun k : Nat => (k : Int)) ∧
      ∀ (ps q : Int), (ps, q) ∈ visited → 0 ≤ q ∧ q < tr.state ∧ 0 ≤ ps ∧
        ps < (t.length : Int) ∧ List.IsSuffix (path q) (t.take (ps.toNat + 1)) := by
  obtain ⟨tr, st, path, ht, hb, hinv, h2, hs, hsuf⟩ := buildAc_suffix p
  obtain ⟨occ, visited, hrun, hmap, hall⟩ := acTrace_spec p t tr path hinv h2 st hs hsuf t [] 0 0 []
    rfl rfl (by omega) (by have := hinv.pos; omega) (by rw [h2.root])
  have htrace : searchACTrace p t = some (occ, visited) := by
    unfold searchACTrace
    rw [hb]
    exact hrun
  have hsearch : searchAC p t = some occ := by
    rw [← searchACTrace_fst, htrace]
    rfl
  refine ⟨tr, st, path, occ, visited, ht, hb, hinv, h2, hs, hsuf, hsearch, htrace, ?_, hall⟩
  rw [hmap]
  apply List.map_congr_left
  intro k _
  omega

/-! ## Claims -/

/-- C5: every offset that `searchAC(p, t)` stores under a key `w` is a true
occurrence of `w`: it is not negative, `o + len(w) <= len(t)`, the text
reads `w` there, and `w` is one of the patterns of `p`. -/
theorem searchAC_no_false_positive (p : List Str) (t : Str) (m : Occurrences) (w : Str)
    (l : List Int) (o : Int) (h : searchAC p t = some m) (hw : m.get? w = some l) (ho : o ∈ l) :
    0 ≤ o ∧ o + (w.length : Int) ≤ (t.length : Int) ∧ (t.drop o.toNat).take w.length = w ∧ w ∈ p := by
  unfold searchAC at h
  split at h
  · cases h
  · exact acScan_allOcc p t _ _ _ t 0 0 [] m (by omega) (by omega) (allOcc_nil _) h w l hw o ho

/-- Witness of C5 on the patterns he, she, his, hers and the text ushers: the
offset 1 stored for she. -/
theorem searchAC_no_false_positive_witness :
    searchAC [[104, 101], [115, 104, 101], [104, 105, 115], [104, 101, 114, 115]]
        [117, 115, 104, 101, 114, 115]
      = some [([115, 104, 101], [1]), ([104, 101], [2]), ([104, 101, 114, 115], [2])] ∧
    (0 : Int) ≤ 1 ∧ (1 : Int) + (([115, 104, 101] : Str).length : Int)
        ≤ (([117, 115, 104, 101, 114, 115] : Str).length : Int) ∧
      (([117, 115, 104, 101, 114, 115] : Str).drop (1 : Int).toNat).take ([115, 104, 101] : Str).length
        = [115, 104, 101] ∧
      ([115, 104, 101] : Str) ∈
        ([[104, 101], [115, 104, 101], [104, 105, 115], [104, 101, 114, 115]] : List Str) :=
  ⟨by decide,
   searchAC_no_false_positive [[104, 101], [115, 104, 101], [104, 105, 115], [104, 101, 114, 115]]
     [117, 115, 104, 101, 114, 115]
     [([115, 104, 101], [1]), ([104, 101], [2]), ([104, 101, 114, 115], [2])]
     [115, 104, 101] [1] 1 (by decide) (by decide) (by decide)⟩

/-- C6: whenever `searchSBOM(p, t)` returns, every offset stored under a key
`w` is a true occurrence of `w`: it is not negative, `o + len(w) <= len(t)`,
the text reads `w` there, and `w` is one of the patterns of `p`. -/
theorem searchSBOM_no_false_positive (p : List Str) (t : Str) (m : Occurrences) (w : Str)
    (l : List Int) (o : Int) (h : searchSBOM p t = some m) (hw : m.get? w = some l) (ho : o ∈ l) :
    0 ≤ o ∧ o + (w.length : Int) ≤ (t.length : Int) ∧ (t.drop o.toNat).take w.length = w ∧ w ∈ p := by
  unfold searchSBOM at h
  split at h
  · cases h
  · rename_i lmin hmin
    split at h
    · cases h
    · split at h
      · cases h
      · exact sbomScan_allOcc p t lmin _ _ (computeMinLength_nonneg p lmin hmin) _ 0 [] m
          (by omega) (allOcc_nil _) h w l hw o ho

/-- Witness of C6 on the patterns he, she, his, hers and the text ushers: the
offset 2 stored for hers. -/
theorem searchSBOM_no_false_positive_witness :
    searchSBOM [[104, 101], [115, 104, 101], [104, 105, 115], [104, 101, 114, 115]]
        [117, 115, 104, 101, 114, 115]
      = some [([115, 104, 101], [1]), ([104, 101], [2]), ([104, 101, 114, 115], [2])] ∧
    (0 : Int) ≤ 2 ∧ (2 : Int) + (([104, 101, 114, 115] : Str).length : Int)
        ≤ (([117, 115, 104, 101, 114, 115] : Str).length : Int) ∧
      (([117, 115, 104, 101, 114, 115] : Str).drop (2 : Int).toNat).take
          ([104, 101, 114, 115] : Str).length = [104, 101, 114, 115] ∧
      ([104, 101, 114, 115] : Str) ∈
        ([[104, 101], [115, 104, 101], [104, 105, 115], [104, 101, 114, 115]] : List Str) :=
  ⟨by decide,
   searchSBOM_no_false_positive [[104, 101], [115, 104, 101], [104, 105, 115], [104, 101, 114, 115]]
     [117, 115, 104, 101, 114, 115]
     [([115, 104, 101], [1]), ([104, 101], [2]), ([104, 101, 114, 115], [2])]
     [104, 101, 114, 115] [2] 2 (by decide) (by decide) (by decide)⟩

/-- C7, counterexample: with the pattern a given twice and the text a, both
matchers store the offset 0 twice under the key a, so the list is not
strictly ascending. -/
theorem duplicate_patterns_repeat_offsets :
    searchAC [[97], [97]] [97] = some [([97], [0, 0])] ∧
    searchSBOM [[97], [97]] [97] = some [([97], [0, 0])] ∧
    ¬ ([0, 0] : List Int).Sorted (fun a b => a < b) := by
  refine ⟨by decide, by decide, ?_⟩
  simp [List.Sorted]

/-- C7, amended: for a pattern list without duplicate patterns, each offset
list in the map returned by `searchAC(p, t)`, and by `searchSBOM(p, t)`, is
strictly ascending. -/
theorem offsets_strictly_ascending (p : List Str) (t : Str) (hp : p.Nodup) (m : Occurrences)
    (w : Str) (l : List Int) (h : searchAC p t = some m ∨ searchSBOM p t = some m)
    (hw : m.get? w = some l) : l.Sorted (fun a b => a < b) := by
  rcases h with h | h
  · unfold searchAC at h
    split at h
    · cases h
    · rename_i ac f s hb
      exact (acScan_asc p hp t ac f (buildAc_outputsNodup p ac f s hb) s t 0 0 [] m
        (ascBelow_nil _) h w l hw).1
  · unfold searchSBOM at h
    split at h
    · cases h
    · split at h
      · cases h
      · split at h
        · cases h
        · rename_i orc f hb
          exact sbomScan_asc p hp t _ orc f (buildOracleMultiple_outputsNodup _ orc f hb) _ 0 [] m
            (ascBelow_nil _) h w l hw

/-- Witness of C7 amended, on the patterns ab, ba and the text ababa, for
both matchers. -/
theorem offsets_strictly_ascending_witness :
    ([[97, 98], [98, 97]] : List Str).Nodup ∧
    searchAC [[97, 98], [98, 97]] [97, 98, 97, 98, 97]
      = some [([97, 98], [0, 2]), ([98, 97], [1, 3])] ∧
    searchSBOM [[97, 98], [98, 97]] [97, 98, 97, 98, 97]
      = some [([97, 98], [0, 2]), ([98, 97], [1, 3])] ∧
    ([0, 2] : List Int).Sorted (fun a b => a < b) ∧
    ([1, 3] : List Int).Sorted (fun a b => a < b) :=
  ⟨by decide, by decide, by decide,
   offsets_strictly_ascending [[97, 98], [98, 97]] [97, 98, 97, 98, 97] (by decide)
     [([97, 98], [0, 2]), ([98, 97], [1, 3])] [97, 98] [0, 2] (Or.inl (by decide)) (by decide),
   offsets_strictly_ascending [[97, 98], [98, 97]] [97, 98, 97, 98, 97] (by decide)
     [([97, 98], [0, 2]), ([98, 97], [1, 3])] [98, 97] [1, 3] (Or.inr (by decide)) (by decide)⟩

/-- C1: on the patterns abc, bc, c and the text abc, `searchAC` returns the
offset 0 for abc and 1 for bc and no entry for c, although c occurs at offset 2. -/
theorem searchAC_misses_occurrence :
    searchAC [[97, 98, 99], [98, 99], [99]] [97, 98, 99]
      = some [([97, 98, 99], [0]), ([98, 99], [1])] ∧
    (([97, 98, 99] : Str).drop 2).take ([99] : Str).length = [99] ∧
    GoMap.get? ([([97, 98, 99], [0]), ([98, 99], [1])] : Occurrences) [99] = none := by
  refine ⟨by decide, by decide, by decide⟩

/-- C2: on the patterns baab, aaaa and the text aabaab, `searchSBOM` returns the
empty map, although baab occurs at offset 2: the first window stops at the
missing transition on b of the state of a and moves `pos` from 0 to 3. -/
theorem searchSBOM_misses_occurrence :
    searchSBOM [[98, 97, 97, 98], [97, 97, 97, 97]] [97, 97, 98, 97, 97, 98] = some [] ∧
    (([97, 97, 98, 97, 97, 98] : Str).drop 2).take ([98, 97, 97, 98] : Str).length
      = [98, 97, 97, 98] ∧
    sbomWindow [[98, 97, 97, 98], [97, 97, 97, 97]] [97, 97, 98, 97, 97, 98] 4
      [(0, [(98, 1), (97, 5)]), (1, [(97, 2)]), (2, [(97, 3)]), (3, [(98, 4)]), (4, []),
        (5, [(97, 6)]), (6, [(97, 7), (98, 4)]), (7, [(97, 8)]), (8, [])]
      [(4, [0]), (8, [1])] 0 [] = some ([], 3) := by
  refine ⟨by decide, by decide, by decide⟩

/-- C3: on the patterns abc, bc, c and the text abc the two matchers differ:
`searchSBOM` stores the offset 2 for c, `searchAC` has no entry for c. -/
theorem searchAC_searchSBOM_differ :
    searchAC [[97, 98, 99], [98, 99], [99]] [97, 98, 99]
      = some [([97, 98, 99], [0]), ([98, 99], [1])] ∧
    searchSBOM [[97, 98, 99], [98, 99], [99]] [97, 98, 99]
      = some [([97, 98, 99], [0]), ([98, 99], [1]), ([99], [2])] := by
  refine ⟨by decide, by decide⟩

/-- C4: on the patterns bbaa, aaba and the text abba, `searchSBOM` panics: the
backward walk consumes the whole window and ends in the existing state 6,
whose output set is empty, so `getCommonPrefix` reads `f[0]` of an empty
slice. On the two-byte pattern of the single rune U+00E9, `trimToLength`
reads a second rune that is not there. -/
theorem searchSBOM_panics :
    buildOracleMultiple (reverseAll [[98, 98, 97, 97], [97, 97, 98, 97]])
      = some ([(0, [(97, 1), (98, 4)]), (1, [(97, 2), (98, 5)]), (2, [(98, 3)]), (3, [(98, 4)]),
                (4, [(97, 6)]), (5, [(97, 6), (98, 4)]), (6, [(97, 7)]), (7, [])],
              [(4, [0]), (7, [1])]) ∧
    sbomBack [(0, [(97, 1), (98, 4)]), (1, [(97, 2), (98, 5)]), (2, [(98, 3)]), (3, [(98, 4)]),
                (4, [(97, 6)]), (5, [(97, 6), (98, 4)]), (6, [(97, 7)]), (7, [])]
      [97, 98, 98, 97] 0 4 0 = some (6, 0) ∧
    outputOf [(4, [0]), (7, [1])] 6 = [] ∧
    getCommonPrefix [[98, 98, 97, 97], [97, 97, 98, 97]] [] 4 = none ∧
    searchSBOM [[98, 98, 97, 97], [97, 97, 98, 97]] [97, 98, 98, 97] = none ∧
    trimToLength [[195, 169]] 2 = none ∧
    searchSBOM [[195, 169]] [195, 169] = none := by
  refine ⟨by decide, by decide, by decide, by decide, by decide, by decide, by decide⟩

/-- The pre-check of `main` in ac.go rejects every input in which a pattern is
longer than the text. -/
theorem preCheck_rejects (textLen : Nat) : ∀ (patterns : List Str) (i : Nat),
    (∃ w ∈ patterns, w.length > textLen) → ∃ n, AcMain.preCheck textLen i patterns = Except.error n := by
  intro patterns
  induction patterns with
  | nil =>
    intro i h
    obtain ⟨w, hw, _⟩ := h
    cases hw
  | cons w rest ih =>
    intro i h
    unfold AcMain.preCheck
    by_cases hlen : w.length > textLen
    · exact ⟨i + 1, by rw [if_pos hlen]⟩
    · rw [if_neg hlen]
      obtain ⟨w', hw', hlong⟩ := h
      rcases List.mem_cons.1 hw' with h1 | h1
      · subst h1
        exact absurd hlong hlen
      · exact ih (i + 1) ⟨w', h1, hlong⟩

/-- C9: on the pattern ab and the text a, the pre-check of ac.go reports the
pattern number 1, but `searchAC` and `searchSBOM` report nothing and return
the empty occurrence index. -/
theorem search_accepts_long_pattern :
    AcMain.preCheck ([97] : Str).length 0 [[97, 98]] = Except.error 1 ∧
    searchAC [[97, 98]] [97] = some [] ∧
    searchSBOM [[97, 98]] [97] = some [] := by
  refine ⟨rfl, by decide, by decide⟩

/-- C10: the automaton that `buildOracleMultiple` returns for baab, aaaa does
not accept the factor ab of baab: the state 5 reached on a has no transition
on b. -/
theorem oracle_rejects_factor :
    buildOracleMultiple [[98, 97, 97, 98], [97, 97, 97, 97]]
      = some ([(0, [(98, 1), (97, 5)]), (1, [(97, 2)]), (2, [(97, 3)]), (3, [(98, 4)]), (4, []),
                (5, [(97, 6)]), (6, [(97, 7), (98, 4)]), (7, [(97, 8)]), (8, [])],
              [(4, [0]), (8, [1])]) ∧
    (([98, 97, 97, 98] : Str).drop 2).take 2 = [97, 98] ∧
    accepts [(0, [(98, 1), (97, 5)]), (1, [(97, 2)]), (2, [(97, 3)]), (3, [(98, 4)]), (4, []),
              (5, [(97, 6)]), (6, [(97, 7), (98, 4)]), (7, [(97, 8)]), (8, [])] 0 [97, 98]
      = false := by
  refine ⟨by decide, by decide, by decide⟩

/-- C8, counterexample: the three builders return an automaton for the empty
pattern list and for the list that holds the zero-length pattern alone. -/
theorem builders_accept_degenerate_input :
    constructTrie [] = some { trie := [(0, [])], stateIsTerminal := [false], f := [], state := 1 } ∧
    buildAc [] = some ([(0, [])], [], [-1]) ∧
    buildOracleMultiple [] = some ([(0, [])], []) ∧
    constructTrie [[]]
      = some { trie := [(0, [])], stateIsTerminal := [true], f := [(0, [0])], state := 1 } ∧
    buildAc [[]] = some ([(0, [])], [(0, [0])], [-1]) ∧
    buildOracleMultiple [[]] = some ([(0, [])], [(0, [0])]) := by
  refine ⟨by decide, rfl, by decide, by decide, rfl, by decide⟩

/-- C8, amended: no builder rejects its input. `constructTrie`, `buildAc` and
`buildOracleMultiple` return an automaton for every pattern list; a
zero-length pattern, at any index of the list, makes the root of the trie
terminal and puts its index into the output set `f[0]`; for the empty list
the three builders return the automaton that has the root alone, no
transition and no output set. -/
theorem builders_never_reject :
    (∀ p : List Str, (∃ st, constructTrie p = some st) ∧ (∃ r, buildAc p = some r) ∧
      ∃ r, buildOracleMultiple p = some r) ∧
    (∀ p q : List Str, ∃ st, constructTrie (p ++ [] :: q) = some st ∧
      idx st.stateIsTerminal 0 = some true ∧ (p.length : Int) ∈ outputOf st.f 0) ∧
    constructTrie [] = some { trie := [(0, [])], stateIsTerminal := [false], f := [], state := 1 } ∧
    buildAc [] = some ([(0, [])], [], [-1]) ∧
    buildOracleMultiple [] = some ([(0, [])], []) := by
  refine ⟨?_, ?_, by decide, rfl, by decide⟩
  · intro p
    obtain ⟨st, h, _, _⟩ := insertAll_total p _ 0 trieInv_init
    exact ⟨⟨st, h⟩, buildAc_total p, buildOracleMultiple_total p⟩
  · intro p q
    obtain ⟨st1, h1, hinv1, _⟩ := insertAll_total p _ 0 trieInv_init
    obtain ⟨st2, h2, hinv2, _⟩ := insertPattern_total st1 (0 + (p.length : Int)) [] hinv1
    have hroot := insertPattern_nil st1 st2 _ hinv1 h2
    obtain ⟨st3, h3, _, hkeep⟩ := insertAll_total q st2 (0 + (p.length : Int) + 1) hinv2
    refine ⟨st3, ?_, ?_⟩
    · unfold constructTrie
      rw [insertAll_append, h1]
      dsimp only
      unfold insertAll
      rw [h2]
      exact h3
    · have := hkeep _ hroot
      simpa [RootOutput] using this

/-- C11: for the patterns abab, baaa the supply array of `buildAc` has
`s[4] = 5`: the supply of the state of abab is the state of b, although ab,
the state 2, is a longer proper suffix of abab that is a path of the trie;
the chain 4, 5, 0 never visits the state 2. -/
theorem supply_not_longest_suffix :
    buildAc [[97, 98, 97, 98], [98, 97, 97, 97]]
      = some ([(0, [(97, 1), (98, 5)]), (1, [(98, 2)]), (2, [(97, 3)]), (3, [(98, 4)]), (4, []),
                (5, [(97, 6)]), (6, [(97, 7)]), (7, [(97, 8)]), (8, [])],
              [(4, [0]), (8, [1])], [-1, 0, 5, 6, 5, 0, 1, 1, 1]) ∧
    walk [(0, [(97, 1), (98, 5)]), (1, [(98, 2)]), (2, [(97, 3)]), (3, [(98, 4)]), (4, []),
          (5, [(97, 6)]), (6, [(97, 7)]), (7, [(97, 8)]), (8, [])] 0 [97, 98, 97, 98] = 4 ∧
    walk [(0, [(97, 1), (98, 5)]), (1, [(98, 2)]), (2, [(97, 3)]), (3, [(98, 4)]), (4, []),
          (5, [(97, 6)]), (6, [(97, 7)]), (7, [(97, 8)]), (8, [])] 0 [97, 98] = 2 ∧
    walk [(0, [(97, 1), (98, 5)]), (1, [(98, 2)]), (2, [(97, 3)]), (3, [(98, 4)]), (4, []),
          (5, [(97, 6)]), (6, [(97, 7)]), (7, [(97, 8)]), (8, [])] 0 [98] = 5 ∧
    idx ([-1, 0, 5, 6, 5, 0, 1, 1, 1] : List Int) 4 = some 5 ∧
    idx ([-1, 0, 5, 6, 5, 0, 1, 1, 1] : List Int) 5 = some 0 := by
  refine ⟨rfl, by decide, by decide, by decide, by decide, by decide⟩

/-- C13: for the patterns he, she, his, hers and the text ushers, `searchAC`
and `searchSBOM` both return the map with the offsets 2 for he, 1 for she,
2 for hers and no entry for his: three keys in all. -/
theorem ushers_example :
    ∃ m1 m2 : Occurrences,
      searchAC [[104, 101], [115, 104, 101], [104, 105, 115], [104, 101, 114, 115]]
        [117, 115, 104, 101, 114, 115] = some m1 ∧
      searchSBOM [[104, 101], [115, 104, 101], [104, 105, 115], [104, 101, 114, 115]]
        [117, 115, 104, 101, 114, 115] = some m2 ∧
      m1.get? [104, 101] = some [2] ∧ m1.get? [115, 104, 101] = some [1] ∧
      m1.get? [104, 101, 114, 115] = some [2] ∧ m1.get? [104, 105, 115] = none ∧
      m1.length = 3 ∧
      m2.get? [104, 101] = some [2] ∧ m2.get? [115, 104, 101] = some [1] ∧
      m2.get? [104, 101, 114, 115] = some [2] ∧ m2.get? [104, 105, 115] = none ∧
      m2.length = 3 :=
  ⟨[([115, 104, 101], [1]), ([104, 101], [2]), ([104, 101, 114, 115], [2])],
   [([115, 104, 101], [1]), ([104, 101], [2]), ([104, 101, 114, 115], [2])],
   by decide, by decide, by decide, by decide, by decide, by decide, by decide, by decide,
   by decide, by decide, by decide, by decide⟩

/-- C14: for the pattern abc and the text xxabcxx, `searchSBOM` returns the
map with the single offset 2 for abc, and the window starts it examines are
0, 2, 3: the first window moves `pos` from 0 to 2, so 1 is never a window
start. -/
theorem xxabcxx_example :
    searchSBOM [[97, 98, 99]] [120, 120, 97, 98, 99, 120, 120] = some [([97, 98, 99], [2])] ∧
    searchSBOMTrace [[97, 98, 99]] [120, 120, 97, 98, 99, 120, 120]
      = some ([([97, 98, 99], [2])], [0, 2, 3]) ∧
    sbomWindow [[97, 98, 99]] [120, 120, 97, 98, 99, 120, 120] 3
      [(0, [(99, 1), (98, 2), (97, 3)]), (1, [(98, 2)]), (2, [(97, 3)]), (3, [])] [(3, [0])] 0 []
      = some ([], 2) := by
  refine ⟨by decide, by decide, by decide⟩

/-- C16: for the patterns ab, c the trie has the state 2 (ab, depth 2) before
the state 3 (c, depth 1): the numbering is not a breadth order. For abab,
baaa the round of the state 4 (abab, depth 4) of `buildAc` runs while the
supply of the shallower state 6 (ba, depth 2) still holds the initial 0; the
loop sets it to 1 later. -/
theorem states_not_in_breadth_order :
    constructTrie [[97, 98], [99]]
      = some { trie := [(0, [(97, 1), (99, 3)]), (1, [(98, 2)]), (2, []), (3, [])],
               stateIsTerminal := [false, false, true, true],
               f := [(2, [0]), (3, [1])], state := 4 } ∧
    depthOf [(0, [(97, 1), (99, 3)]), (1, [(98, 2)]), (2, []), (3, [])] 4 2 = 2 ∧
    depthOf [(0, [(97, 1), (99, 3)]), (1, [(98, 2)]), (2, []), (3, [])] 4 3 = 1 ∧
    (∃ t st3 st, constructTrie [[97, 98, 97, 98], [98, 97, 97, 97]] = some t ∧
      depthOf t.trie 9 4 = 4 ∧ depthOf t.trie 9 6 = 2 ∧
      acLoop t.trie 3 { stateIsTerminal := t.stateIsTerminal, f := t.f,
                        s := [-1, 0, 0, 0, 0, 0, 0, 0, 0] } 1 = some st3 ∧
      idx st3.s 6 = some 0 ∧
      buildAcState [[97, 98, 97, 98], [98, 97, 97, 97]] = some (t.trie, st) ∧
      idx st.s 6 = some 1) := by
  refine ⟨by decide, by decide, by decide, ?_⟩
  refine ⟨{ trie := [(0, [(97, 1), (98, 5)]), (1, [(98, 2)]), (2, [(97, 3)]), (3, [(98, 4)]),
                     (4, []), (5, [(97, 6)]), (6, [(97, 7)]), (7, [(97, 8)]), (8, [])],
            stateIsTerminal := [false, false, false, false, true, false, false, false, true],
            f := [(4, [0]), (8, [1])], state := 9 },
          { stateIsTerminal := [false, false, false, false, true, false, false, false, true],
            f := [(4, [0]), (8, [1])], s := [-1, 0, 5, 6, 0, 0, 0, 0, 0] },
          { stateIsTerminal := [false, false, false, false, true, false, false, false, true],
            f := [(4, [0]), (8, [1])], s := [-1, 0, 5, 6, 5, 0, 1, 1, 1] },
          by decide, by decide, by decide, by decide, by decide, by decide, by decide⟩

/-- C20: for the patterns ab and the four-byte pattern of the runes U+00E9
U+00E9, `lmin` is 2 and the state 8 of the oracle has the output set of the
second pattern alone, but `getCommonPrefix` returns its first two runes, four
bytes, not its first two bytes. For the patterns with the bytes FF 41 and
EF BF BD 41 both are trimmed to EF BF BD 41 and share the output set of the
state 6, though their first two bytes differ. -/
theorem common_prefix_not_byte_prefix :
    computeMinLength [[97, 98], [195, 169, 195, 169]] = some 2 ∧
    trimToLength [[97, 98], [195, 169, 195, 169]] 2 = some [[97, 98], [195, 169, 195, 169]] ∧
    (∃ orc, buildOracleMultiple (reverseAll [[97, 98], [195, 169, 195, 169]])
      = some (orc, [(2, [0]), (8, [1])])) ∧
    getCommonPrefix [[97, 98], [195, 169, 195, 169]] [1] 2 = some [195, 169, 195, 169] ∧
    ([195, 169, 195, 169] : Str).take 2 = [195, 169] ∧
    computeMinLength [[255, 65], [239, 191, 189, 65]] = some 2 ∧
    trimToLength [[255, 65], [239, 191, 189, 65]] 2
      = some [[239, 191, 189, 65], [239, 191, 189, 65]] ∧
    (∃ orc, buildOracleMultiple (reverseAll [[239, 191, 189, 65], [239, 191, 189, 65]])
      = some (orc, [(6, [0, 1])])) ∧
    ([255, 65] : Str).take 2 ≠ ([239, 191, 189, 65] : Str).take 2 := by
  refine ⟨by decide, by decide, ⟨_, rfl⟩, by decide, by decide, by decide, by decide,
    ⟨_, rfl⟩, by decide⟩

/-- C12: in the trie that `constructTrie(p)` returns, following `p[i]` byte by
byte from the state 0 ends in an existing state that is marked terminal and
has `i` in its output set; this output set holds exactly the indices `j`
with `p[j] == p[i]`, in strictly increasing order (so each once). -/
theorem constructTrie_terminal_outputs (p : List Str) (i : Nat) (w : Str) (h : p[i]? = some w) :
    ∃ t, constructTrie p = some t ∧ stateExists (walk t.trie 0 w) t.trie = true ∧
      idx t.stateIsTerminal (walk t.trie 0 w) = some true ∧
      (i : Int) ∈ outputOf t.f (walk t.trie 0 w) ∧
      (∀ x : Int, x ∈ outputOf t.f (walk t.trie 0 w) ↔ ∃ j : Nat, x = (j : Int) ∧ p[j]? = some w) ∧
      (outputOf t.f (walk t.trie 0 w)).Sorted (fun a b => a < b) := by
  obtain ⟨t, ht, hinv, ⟨path, h2⟩, hs⟩ := constructTrie_spec p
  obtain ⟨h0, h1, hterm⟩ := hs.ends i w h
  have hchar : ∀ x : Int, x ∈ outputOf t.f (walk t.trie 0 w) ↔
      ∃ j : Nat, x = (j : Int) ∧ p[j]? = some w := by
    intro x
    rw [hs.outputs]
    constructor
    · rintro ⟨j, wj, hx, hj, hwj⟩
      refine ⟨j, hx, ?_⟩
      have hj0 := (hs.ends j wj hj).1
      have hp1 := walk_path t path h2 wj 0 (by omega)
      have hp2 := walk_path t path h2 w 0 (by omega)
      rw [hwj, hp2, h2.root] at hp1
      simp only [List.nil_append] at hp1
      rw [hj, hp1]
    · rintro ⟨j, hx, hj⟩
      exact ⟨j, w, hx, hj, rfl⟩
  refine ⟨t, ht, (stateExists_iff t.state t.trie (autInv_of_trieInv t hinv) _).2 ⟨h0, h1⟩, hterm,
    (hchar i).2 ⟨i, rfl, h⟩, hchar, hs.sorted _⟩

/-- Witness of C12 on the patterns a, b, a, for the index 0: the pattern a
leads to the state 1, whose output set is 0, 2. -/
theorem constructTrie_terminal_outputs_witness :
    ([[97], [98], [97]] : List Str)[0]? = some [97] ∧
    ∃ t, constructTrie [[97], [98], [97]] = some t ∧ stateExists (walk t.trie 0 [97]) t.trie = true ∧
      idx t.stateIsTerminal (walk t.trie 0 [97]) = some true ∧
      ((0 : Nat) : Int) ∈ outputOf t.f (walk t.trie 0 [97]) ∧
      (∀ x : Int, x ∈ outputOf t.f (walk t.trie 0 [97]) ↔
        ∃ j : Nat, x = (j : Int) ∧ ([[97], [98], [97]] : List Str)[j]? = some [97]) ∧
      (outputOf t.f (walk t.trie 0 [97])).Sorted (fun a b => a < b) :=
  ⟨by decide, constructTrie_terminal_outputs [[97], [98], [97]] 0 [97] (by decide)⟩

/-- C15: for every pattern list, after `constructTrie(p)`, and again when the
loop of `buildAc(p)` has finished, a state is marked terminal in
`stateIsTerminal` if and only if the output-set map `f` has a non-empty
entry for it. -/
theorem terminal_iff_output (p : List Str) :
    ∃ t st, constructTrie p = some t ∧
      (∀ q : Int, idx t.stateIsTerminal q = some true ↔
        ∃ l, t.f.get? q = some l ∧ l ≠ []) ∧
      buildAcState p = some (t.trie, st) ∧ buildAc p = some (t.trie, st.f, st.s) ∧
      (∀ q : Int, idx st.stateIsTerminal q = some true ↔
        ∃ l, st.f.get? q = some l ∧ l ≠ []) := by
  have hout : ∀ (f : OutputSets) (q : Int),
      outputOf f q ≠ [] ↔ ∃ l, f.get? q = some l ∧ l ≠ [] := by
    intro f q
    unfold outputOf
    cases hg : GoMap.get? f q with
    | none => simp
    | some l => simp
  obtain ⟨t, ht, hinv, ⟨path, h2⟩, _⟩ := constructTrie_spec p
  obtain ⟨t', st, ht', hst, hb, hloop⟩ := buildAcState_total p
  rw [ht] at ht'
  simp only [Option.some.injEq] at ht'
  subst ht'
  have hti := acLoop_terminalIff t.trie _ _ st 1 h2.terminalIff hloop
  refine ⟨t, st, ht, ?_, hst, hb, ?_⟩
  · intro q
    rw [← hout]
    exact h2.terminalIff q
  · intro q
    rw [← hout]
    exact hti q

/-- C17: for every pattern list `buildAc(p)` returns, with a supply array `s`
that has `s[0] == -1` and, for every state `q >= 1`, an existing state
`s[q]` whose depth (path length from the root) is strictly smaller than the
depth of `q`; from every state the supply links reach the root in at most
`depth(q)` steps, and the supply walk of `searchAC` returns from every state
and byte. -/
theorem supply_strictly_shallower (p : List Str) :
    ∃ ac f s, buildAc p = some (ac, f, s) ∧ idx s 0 = some (-1) ∧
      (∀ q : Int, 1 ≤ q → q < (ac.length : Int) →
        ∃ x, idx s q = some x ∧ stateExists x ac = true ∧
          depthOf ac ac.length x < depthOf ac ac.length q) ∧
      (∀ q : Int, 0 ≤ q → q < (ac.length : Int) →
        ∃ k, k ≤ depthOf ac ac.length q ∧ followSupply s k q = some 0) ∧
      (∀ (c : Nat) (current : Int), 0 ≤ current → current < (ac.length : Int) →
        ∃ r, acFail ac s c (ac.length + 1) current = some r) := by
  obtain ⟨t, st, path, ht, hst, hb, hinv, h2, hs⟩ := buildAc_supply p
  have haut := autInv_of_trieInv t hinv
  have hsize := hinv.size
  have hdep : ∀ q : Int, 0 ≤ q → q < t.state →
      depthOf t.trie t.trie.length q = (path q).length := by
    intro q hq0 hq1
    apply depthOf_eq t path hinv h2 _ q hq0 hq1
    have := h2.bound q hq0 hq1
    omega
  refine ⟨t.trie, st.f, st.s, hb, hs.2.1, ?_, ?_, ?_⟩
  · intro q hq0 hq1
    have hlen := hs.1
    obtain ⟨x, hx⟩ := idx_isSome st.s q (by omega) (by omega)
    obtain ⟨hx0, hx1, hdx⟩ := hs.2.2 q x hq0 hx
    refine ⟨x, hx, (stateExists_iff t.state t.trie haut x).2 ⟨hx0, hx1⟩, ?_⟩
    rw [hdep x hx0 hx1, hdep q (by omega) (by omega)]
    exact hdx
  · intro q hq0 hq1
    obtain ⟨k, hk, hf⟩ := followSupply_root t.state _ st.s hs
      (by show (path 0).length = 0; rw [h2.root]; rfl) _ q hq0 (by omega) (le_refl _)
    refine ⟨k, ?_, hf⟩
    rw [hdep q hq0 (by omega)]
    exact hk
  · intro c current h0 h1
    have hb1 := h2.bound current h0 (by omega)
    obtain ⟨r, hr, _⟩ := acFail_total t.state t.trie _ st.s hs c (t.trie.length + 1) current h0
      (by omega) (by show (path current).length + 1 ≤ _; omega)
    exact ⟨r, hr⟩

/-- C18: `buildOracleMultiple` returns for every pattern list. In the round of
every state `current` the walk `down = s[parent], s[down], ...` follows
finitely many supply links and ends at -1 or at a state with a transition on
the incoming byte. The supply links never form a cycle: `s[0]` is -1, the
supply of every other state is a state, and following the links from a state
`q` reaches the root within `q` steps. The supply may still lie deeper in the
trie: for the patterns aabb and abaa the supply of the state 5 (ab, depth 2)
is the state 4 (aabb, depth 4). -/
theorem oracle_supply_acyclic :
    (∀ p : List Str, ∃ (t : TrieState) (orc : Automaton) (s : List Int),
      constructTrie p = some t ∧ buildOracleSupply p = some (orc, t.f, s) ∧
      buildOracleMultiple p = some (orc, t.f) ∧
      (∀ current : Int, 1 ≤ current → current < t.state →
        ∃ (orcR : Automaton) (sR : List Int) (down0 : Int) (orc' : Automaton) (down' : Int),
          oracleLoop (current - 1).toNat
            (t.trie, (List.replicate t.stateIsTerminal.length (0 : Int)).set 0 (-1)) 1
              = some (orcR, sR) ∧
          idx sR (getParent current orcR).2 = some down0 ∧
          oracleDown sR (getParent current orcR).1 current (orcR.length + 1) orcR down0
            = some (orc', down') ∧
          (∃ k, followSupply sR k down0 = some down') ∧
          (down' = -1 ∨ getTransition down' (getParent current orcR).1 orc' ≠ -1)) ∧
      idx s 0 = some (-1) ∧
      (∀ q : Int, 1 ≤ q → q < t.state → ∃ x, idx s q = some x ∧ 0 ≤ x ∧ x < t.state) ∧
      ∀ q : Int, 0 ≤ q → q < t.state → ∃ k : Nat, (k : Int) ≤ q ∧ followSupply s k q = some 0) ∧
    ∃ (t : TrieState) (orc : Automaton) (s : List Int),
      constructTrie [[97, 97, 98, 98], [97, 98, 97, 97]] = some t ∧
      buildOracleSupply [[97, 97, 98, 98], [97, 98, 97, 97]] = some (orc, t.f, s) ∧
      idx s 5 = some 4 ∧ depthOf t.trie t.trie.length 5 < depthOf t.trie t.trie.length 4 := by
  refine ⟨fun p => ?_, ?_⟩
  · obtain ⟨t, ht, hinv, ⟨path, hp⟩, _⟩ := constructTrie_spec p
    have haut := autInv_of_trieInv t hinv
    have hlen := hinv.len
    have hpos := hinv.pos
    obtain ⟨hset, hs⟩ := supplyInv_init t.stateIsTerminal.length (by omega)
    rw [hlen] at hs
    obtain ⟨orc, s, hloop, hautF, hsF⟩ :=
      oracleLoop_total t.state (t.stateIsTerminal.length - 1) t.trie _ 1 haut hs (by omega)
        (by omega)
    have hb : buildOracleSupply p = some (orc, t.f, s) := by
      unfold buildOracleSupply
      rw [ht]
      dsimp only
      rw [hset]
      dsimp only
      rw [hloop]
    obtain ⟨_, _, hg⟩ := oracleLoop_grow t.state _ t.trie orc _ s 1 (by omega) (by omega) haut
      hp.nodupKeys hloop
    have hreach : ∀ q : Int, 0 ≤ q → q < t.state → walk orc 0 (path q) = q := by
      intro q h0 h1
      have hw := walk_of_path t path hinv hp (path q).length q h0 h1 (le_refl _)
      have := walk_stable t.trie orc (fun b c hne => by
        rcases hg b c with he | ⟨hm, _⟩
        · exact he
        · exact absurd hm hne) (path q) 0 (by rw [hw]; omega)
      rw [this, hw]
    obtain ⟨d, hd0, hdle, hd1, hd2⟩ :=
      layering_exists t.state orc hautF (fun q h0 h1 => ⟨path q, hreach q h0 h1⟩)
    have hlt0 : (0 : Int).toNat < (List.replicate t.stateIsTerminal.length (0 : Int)).length := by
      simp
      omega
    have hs0 : AcSupply t.state d ((List.replicate t.stateIsTerminal.length (0 : Int)).set 0 (-1)) := by
      refine ⟨hs.1, idx_set_eq _ 0 (-1) (by omega) hlt0, ?_⟩
      intro q x hq hx
      have hq1 : q < t.state := by
        have := (idx_lt _ _ _ hx).2
        simp at this
        omega
      rw [show (List.replicate t.stateIsTerminal.length (0 : Int)).set 0 (-1)
        = (List.replicate t.stateIsTerminal.length (0 : Int)).set (0 : Int).toNat (-1) from rfl,
        idx_set_ne _ 0 q (-1) (by omega) (by omega) (by omega)] at hx
      have hx0 := List.eq_of_mem_replicate (idx_mem _ _ _ hx)
      obtain ⟨b, c, _, hdq⟩ := hd2 q hq hq1
      subst hx0
      exact ⟨by omega, by omega, by omega⟩
    have hfin := oracleLoop_rank t.state d orc hd0 hd1 hd2 _ t.trie _ s 1 (by omega) (by omega)
      haut hp.nodupKeys
      (fun q hq b b' c c' h h' => trie_parent_unique t path hinv hp q (by omega) b b' c c' h h')
      hs0 hloop
    refine ⟨t, orc, s, ht, hb, by unfold buildOracleMultiple; rw [hb], ?_, hfin.2.1, ?_, ?_⟩
    · intro current hc0 hc1
      obtain ⟨orcR, sR, hR, hautR, hsR⟩ :=
        oracleLoop_upto t.state (current - 1).toNat t.trie _ 1 haut hs (by omega) (by omega)
      obtain ⟨_, hkR, _⟩ := oracleLoop_grow t.state _ t.trie orcR _ sR 1 (by omega) (by omega) haut
        hp.nodupKeys hR
      obtain ⟨orc1, s1, hstep, _, _⟩ := oracleStep_total t.state orcR sR hautR hsR current hc0 hc1
      obtain ⟨ha1, _, down0, down1, hdn0, hdown, ⟨k, hf⟩, hexit, _, _⟩ :=
        oracleStep_chain t.state current orcR orc1 sR s1 hc0 hc1 hautR hkR hstep
      refine ⟨orcR, sR, down0, orc1, down1, hR, hdn0, hdown, ⟨k, hf⟩, ?_⟩
      obtain ⟨hr0, hr1⟩ := hsR.2 _ _ hdn0
      obtain ⟨he0, he1⟩ := followSupply_range t.state sR hsR k down0 down1 hr0 hr1 hf
      by_cases hex : stateExists down1 orc1 = true
      · exact Or.inr (hexit hex)
      · left
        have := fun h => hex ((stateExists_iff t.state orc1 ha1 down1).2 h)
        by_contra hne
        exact this ⟨by omega, he1⟩
    · intro q hq0 hq1
      obtain ⟨x, hx⟩ := idx_isSome s q (by omega) (by have := hfin.1; omega)
      obtain ⟨h1, h2, _⟩ := hfin.2.2 q x hq0 hx
      exact ⟨x, hx, h1, h2⟩
    · intro q hq0 hq1
      obtain ⟨k, hk, hf⟩ := followSupply_root t.state d s hfin hd0 (d q) q hq0 hq1 (le_refl _)
      have h1 := hdle q (path q) hq0 hq1 (hreach q hq0 hq1)
      have h2 := hp.bound q hq0 hq1
      exact ⟨k, by omega, hf⟩
  · exact ⟨{ trie := [(0, [(97, 1)]), (1, [(97, 2), (98, 5)]), (2, [(98, 3)]), (3, [(98, 4)]),
              (4, []), (5, [(97, 6)]), (6, [(97, 7)]), (7, [])],
             stateIsTerminal := [false, false, false, false, true, false, false, true],
             f := [(4, [0]), (7, [1])], state := 8 }, _, _, by decide, rfl, by decide, by decide⟩

/-- C19: when `buildAc` or `buildOracleMultiple` calls `getParent` for a state
`current >= 1`, exactly one pair (state, byte) of the automaton has a
transition to `current`, and `getParent` returns it. For `buildAc` the
automaton is the trie; for `buildOracleMultiple` it is the automaton `orc`
after the rounds of the states `1 .. current - 1`, with their shortcut
transitions, and the pair is the one of the trie. -/
theorem getParent_unique (p : List Str) (t : TrieState) (current : Int)
    (ht : constructTrie p = some t) (h1 : 1 ≤ current) (h2 : current < t.state) :
    (getTransition (getParent current t.trie).2 (getParent current t.trie).1 t.trie = current ∧
      ∀ (b : Int) (c : Nat), getTransition b c t.trie = current → (c, b) = getParent current t.trie) ∧
    ∀ (orc : Automaton) (s : List Int),
      oracleLoop (current - 1).toNat
        (t.trie, (List.replicate t.stateIsTerminal.length (0 : Int)).set 0 (-1)) 1 = some (orc, s) →
      getTransition (getParent current orc).2 (getParent current orc).1 orc = current ∧
      (∀ (b : Int) (c : Nat), getTransition b c orc = current → (c, b) = getParent current orc) ∧
      getParent current orc = getParent current t.trie := by
  obtain ⟨t', ht', hinv, ⟨path, hp⟩, _⟩ := constructTrie_spec p
  rw [ht] at ht'
  simp only [Option.some.injEq] at ht'
  subst ht'
  obtain ⟨hgp, huniq⟩ := trie_getParent t path hinv hp current h1 h2
  refine ⟨⟨hgp, huniq⟩, ?_⟩
  intro orc s hloop
  have hinv0 := orcInv_init t path hinv hp
  have hk : (1 : Int) + ((current - 1).toNat : Int) = current := by omega
  have ho := oracleLoop_inv t.state t.trie _ t.trie orc _ s 1 (by omega) (by omega) hinv0 hloop
  rw [hk] at ho
  have hback : ∀ (b : Int) (c : Nat), getTransition b c orc = current →
      getTransition b c t.trie = current := by
    intro b c hbc
    by_contra hne
    have hd : getTransition b c orc ≠ getTransition b c t.trie := by
      rw [hbc]
      exact fun hh => hne hh.symm
    have := (ho.added b c hd).2
    omega
  have hfwd : getTransition (getParent current t.trie).2 (getParent current t.trie).1 orc
      = current := by
    rw [ho.kept _ _ (by rw [hgp]; omega)]
    exact hgp
  have hgo := getParent_transition t.state orc ho.aut ho.nodup current (by omega) _ _ hfwd
  have heq : getParent current orc = getParent current t.trie := by
    have := huniq _ _ (hback _ _ hgo)
    simpa using this
  refine ⟨hgo, ?_, heq⟩
  intro b c hbc
  rw [heq]
  exact huniq b c (hback b c hbc)

/-- Witness of C19 on the patterns aabb, abaa and the state 5, the state of ab:
when its round starts, the automaton of the oracle builder holds the
shortcut transitions of the rounds 1 to 4. -/
theorem getParent_unique_witness :
    ∃ t, constructTrie [[97, 97, 98, 98], [97, 98, 97, 97]] = some t ∧ (1 : Int) ≤ 5 ∧
      (5 : Int) < t.state ∧
      (getTransition (getParent 5 t.trie).2 (getParent 5 t.trie).1 t.trie = 5 ∧
        ∀ (b : Int) (c : Nat), getTransition b c t.trie = 5 → (c, b) = getParent 5 t.trie) ∧
      ∀ (orc : Automaton) (s : List Int),
        oracleLoop ((5 : Int) - 1).toNat
          (t.trie, (List.replicate t.stateIsTerminal.length (0 : Int)).set 0 (-1)) 1
            = some (orc, s) →
        getTransition (getParent 5 orc).2 (getParent 5 orc).1 orc = 5 ∧
        (∀ (b : Int) (c : Nat), getTransition b c orc = 5 → (c, b) = getParent 5 orc) ∧
        getParent 5 orc = getParent 5 t.trie :=
  ⟨{ trie := [(0, [(97, 1)]), (1, [(97, 2), (98, 5)]), (2, [(98, 3)]), (3, [(98, 4)]),
              (4, []), (5, [(97, 6)]), (6, [(97, 7)]), (7, [])],
     stateIsTerminal := [false, false, false, false, true, false, false, true],
     f := [(4, [0]), (7, [1])], state := 8 },
   by decide, by decide, by decide,
   getParent_unique [[97, 97, 98, 98], [97, 98, 97, 97]] _ 5 (by decide) (by decide) (by decide)⟩

/-- C21: for every pattern list `buildOracleMultiple` returns an oracle over
the trie of `constructTrie`: every transition of the trie is in the oracle
with the same target, a transition of the oracle that differs from the trie
is one the trie did not have, the states are the same, and the output sets
are those of `constructTrie`. -/
theorem oracle_keeps_trie (p : List Str) :
    ∃ (t : TrieState) (orc : Automaton), constructTrie p = some t ∧
      buildOracleMultiple p = some (orc, t.f) ∧
      (∀ (b : Int) (c : Nat), getTransition b c t.trie ≠ -1 →
        getTransition b c orc = getTransition b c t.trie) ∧
      (∀ (b : Int) (c : Nat), getTransition b c orc ≠ getTransition b c t.trie →
        getTransition b c t.trie = -1) ∧
      (∀ q : Int, stateExists q orc = stateExists q t.trie) ∧ orc.length = t.trie.length := by
  obtain ⟨t, ht, hinv, ⟨path, hp⟩, _⟩ := constructTrie_spec p
  have haut := autInv_of_trieInv t hinv
  have hlen := hinv.len
  have hpos := hinv.pos
  obtain ⟨hset, hs⟩ := supplyInv_init t.stateIsTerminal.length (by omega)
  rw [hlen] at hs
  obtain ⟨orc, s, hloop, _, _⟩ :=
    oracleLoop_total t.state (t.stateIsTerminal.length - 1) t.trie _ 1 haut hs (by omega)
      (by omega)
  have hb : buildOracleSupply p = some (orc, t.f, s) := by
    unfold buildOracleSupply
    rw [ht]
    dsimp only
    rw [hset]
    dsimp only
    rw [hloop]
  obtain ⟨hautF, _, hg⟩ := oracleLoop_grow t.state _ t.trie orc _ s 1 (by omega) (by omega) haut
    hp.nodupKeys hloop
  refine ⟨t, orc, ht, by unfold buildOracleMultiple; rw [hb], ?_, ?_, ?_, ?_⟩
  · intro b c hne
    rcases hg b c with he | ⟨hm, _⟩
    · exact he
    · exact absurd hm hne
  · intro b c hne
    rcases hg b c with he | ⟨hm, _⟩
    · exact absurd he hne
    · exact hm
  · intro q
    rw [Bool.eq_iff_iff, stateExists_iff t.state orc hautF q, stateExists_iff t.state t.trie haut q]
  · have h1 := hautF.size
    have h2 := haut.size
    omega

/-- C22: in what `buildAc` returns, with `path q` the string that leads from the
root of the trie to the state `q`, the path of `s[q]` is a proper suffix of
the path of `q` for every state `q >= 1`, and every index `i` of `f[q]` has
`p[i]` a suffix of the path of `q`. `searchAC` looks up the candidates once
per text position `pos`; the path of the state `current` it has then is a
suffix of the text read so far, `t[0 .. pos]`, and for every candidate `i`
of `f[current]` the window `getWord(pos - len(p[i]) + 1, pos, t)` is `p[i]`. -/
theorem searchAC_recheck_succeeds (p : List Str) (t : Str) :
    ∃ (tr : TrieState) (f : OutputSets) (s : List Int) (path : Int → Str),
      constructTrie p = some tr ∧ buildAc p = some (tr.trie, f, s) ∧
      (∀ q : Int, 0 ≤ q → q < tr.state → walk tr.trie 0 (path q) = q) ∧
      (∀ u : Str, walk tr.trie 0 u ≠ -1 → path (walk tr.trie 0 u) = u) ∧
      (∀ q : Int, 1 ≤ q → q < tr.state → ∃ x, idx s q = some x ∧ 0 ≤ x ∧ x < tr.state ∧
        List.IsSuffix (path x) (path q) ∧ path x ≠ path q) ∧
      (∀ q i : Int, i ∈ outputOf f q → ∃ w, idx p i = some w ∧ List.IsSuffix w (path q)) ∧
      ∃ (occ : Occurrences) (visited : List (Int × Int)), searchAC p t = some occ ∧
        searchACTrace p t = some (occ, visited) ∧
        visited.map Prod.fst = (List.range t.length).map (fun k : Nat => (k : Int)) ∧
        ∀ (ps q : Int), (ps, q) ∈ visited →
          List.IsSuffix (path q) (t.take (ps.toNat + 1)) ∧
          ∀ i : Int, i ∈ outputOf f q →
            ∃ w, idx p i = some w ∧ getWord (ps - (w.length : Int) + 1) ps t = some w := by
  obtain ⟨tr, st, path, occ, visited, ht, hb, hinv, h2, hs, hsuf, hsearch, htrace, hmap, hall⟩ :=
    searchACTrace_spec p t
  refine ⟨tr, st.f, st.s, path, ht, hb, ?_, ?_, ?_, hsuf.outputs, occ, visited, hsearch, htrace,
    hmap, ?_⟩
  · intro q hq0 hq1
    exact walk_of_path tr path hinv h2 _ q hq0 hq1 (le_refl _)
  · intro u hu
    have := walk_path tr path h2 u 0 hu
    rw [h2.root, List.nil_append] at this
    exact this
  · intro q hq0 hq1
    have hlen := hs.1
    obtain ⟨x, hx⟩ := idx_isSome st.s q (by omega) (by omega)
    obtain ⟨hx0, hx1, hdx⟩ := hs.2.2 q x hq0 hx
    refine ⟨x, hx, hx0, hx1, hsuf.supply q x hq0 hx, ?_⟩
    intro he
    have hdx' : (path x).length < (path q).length := hdx
    rw [he] at hdx'
    exact Nat.lt_irrefl _ hdx'
  · intro ps q hm
    obtain ⟨_, _, hps0, hps1, hsq⟩ := hall ps q hm
    refine ⟨hsq, ?_⟩
    intro i hi
    obtain ⟨w, hw, hws⟩ := hsuf.outputs q i hi
    exact ⟨w, hw, (getWord_of_suffix t w ps hps0 hps1 (hws.trans hsq)).2⟩

/-- C23: `searchAC` returns for every pattern list and every text, and every
candidate `i` of `f[current]` at the text position `pos` has
`len(p[i]) <= pos + 1`: `getWord` is called with `begin >= 0` and
`end = pos < len(t)`, the length `end - begin + 1` it allocates is not
negative, and it returns. -/
theorem searchAC_window_in_range (p : List Str) (t : Str) :
    ∃ (ac : Automaton) (f : OutputSets) (s : List Int) (occ : Occurrences)
      (visited : List (Int × Int)), buildAc p = some (ac, f, s) ∧ searchAC p t = some occ ∧
      searchACTrace p t = some (occ, visited) ∧
      visited.map Prod.fst = (List.range t.length).map (fun k : Nat => (k : Int)) ∧
      ∀ (ps q i : Int), (ps, q) ∈ visited → i ∈ outputOf f q →
        ∃ w, idx p i = some w ∧ (w.length : Int) ≤ ps + 1 ∧
          0 ≤ ps - (w.length : Int) + 1 ∧ ps < (t.length : Int) ∧
          0 ≤ ps - (ps - (w.length : Int) + 1) + 1 ∧
          ∃ word, getWord (ps - (w.length : Int) + 1) ps t = some word := by
  obtain ⟨tr, st, path, occ, visited, _, hb, _, _, _, hsuf, hsearch, htrace, hmap, hall⟩ :=
    searchACTrace_spec p t
  refine ⟨tr.trie, st.f, st.s, occ, visited, hb, hsearch, htrace, hmap, ?_⟩
  intro ps q i hm hi
  obtain ⟨_, _, hps0, hps1, hsq⟩ := hall ps q hm
  obtain ⟨w, hw, hws⟩ := hsuf.outputs q i hi
  obtain ⟨hle, hg⟩ := getWord_of_suffix t w ps hps0 hps1 (hws.trans hsq)
  exact ⟨w, hw, hle, by omega, hps1, by omega, w, hg⟩

end Jsonizer
